import Mathlib

/-!
# Decision table to decision tree

A shallow embedding of `decision_table_to_decision_tree.cc`.

Conventions of the embedding:

* a C++ `int` is a Lean `Int`; every quantity of the program stays far below
  `2 ^ 31` for the table sizes that can be allocated, so no wrap-around is
  modelled; loop bounds and vector lengths are `Nat`;
* a `std::vector<int>` is a `List Int`; `v[i] = x` is `List.set`, a read `v[i]`
  is `List.getD v i 0` (an index outside the vector is undefined behaviour in
  the source; the theorems only rely on reads inside the vector), except in
  `DecisionTree::Test`, whose model returns `none` for a read outside `status`;
* a loop `for (i = 0; i < n; ++i)` is a recursion on the number of iterations
  left or a fold over `List.range n`;
* `num & 0x1` is `num % 2` and `num >> 1` is `num / 2` (floor division, the
  arithmetic shift);
* a `std::unordered_set<int>` is a `Finset Int`;
* a `std::map<std::vector<int>, Cude>` is an association list with unique keys:
  only `find`, `emplace` and `operator[]` are used by the program, none of
  which observes the order of the keys;
* a `TreeNode*` is a `TreeNode`, with `TreeNode.null` for `nullptr`;
* a reference parameter that a function writes is returned by the model.
-/

namespace DecisionTable

/-! ## Bit-vector codec -/

/-- The loop of `BitToVector(num, n, v)` (lines 14-21), from iteration `i` on with `k`
iterations left. -/
def BitToVectorLoop : Nat → Nat → Int → Int → List Int → List Int
  | 0, _, _, _, v => v
  | k + 1, i, num, val, v =>
      BitToVectorLoop k (i + 1) (num / 2) ((num / 2) % 2) (v.set i val)

/-- `BitToVector(num, n, v)` (lines 14-21). -/
def BitToVector (num : Int) (n : Int) (v : List Int) : List Int :=
  BitToVectorLoop n.toNat 0 num (num % 2) v

/-- The loop of the scatter overload `BitToVector(num, n, pos, v)` (lines 23-30). -/
def BitToVectorPosLoop : Nat → Nat → Int → Int → List Int → List Int → List Int
  | 0, _, _, _, _, v => v
  | k + 1, i, num, val, pos, v =>
      BitToVectorPosLoop k (i + 1) (num / 2) ((num / 2) % 2) pos
        (v.set (pos.getD i 0).toNat val)

/-- `BitToVector(num, n, pos, v)` (lines 23-30): bit `i` of `num` goes to `v[pos[i]]`. -/
def BitToVectorPos (num : Int) (n : Int) (pos : List Int) (v : List Int) : List Int :=
  BitToVectorPosLoop n.toNat 0 num (num % 2) pos v

/-! ## Combination enumerator -/

/-- The state the recursive `Combinate` threads through its reference parameters. -/
structure CombState where
  out1 : List (List Int)
  out2 : List (List Int)
  buf1 : List Int
  buf2 : List Int
deriving DecidableEq, Repr

/-- The loop `for (i = pos; i < n; ++i) buf2[i - len] = in[i]` (lines 52-54), with `k`
iterations left. -/
def CopyRest : Nat → Nat → Nat → List Int → List Int → List Int
  | 0, _, _, _, buf2 => buf2
  | k + 1, i, len, inp, buf2 => CopyRest k (i + 1) len inp (buf2.set (i - len) (inp.getD i 0))

/-- The recursive `Combinate(m, pos, in, out1, out2, buf1, buf2)` (lines 43-68). The first
argument bounds the recursion depth; every call increases `pos` and a call with
`pos > in.size()` does not recurse, so `in.size() + 1` is enough (see `Combinate`).
The guards `n - pos >= m` and `n - pos - 1 >= m` are stated without subtraction. -/
def CombinateRec : Nat → Nat → Nat → List Int → CombState → CombState
  | 0, _, _, _, st => st
  | fuel + 1, m, pos, inp, st =>
      let n := inp.length
      let len := st.buf1.length - m
      if m = 0 then
        let out1 := st.out1 ++ [st.buf1]
        if pos ≤ n then
          let buf2 := CopyRest (n - pos) pos len inp st.buf2
          { out1 := out1, out2 := st.out2 ++ [buf2], buf1 := st.buf1, buf2 := buf2 }
        else
          { st with out1 := out1 }
      else
        let st1 :=
          if m + pos ≤ n then
            CombinateRec fuel (m - 1) (pos + 1) inp
              { st with buf1 := st.buf1.set len (inp.getD pos 0) }
          else st
        if m + pos + 1 ≤ n then
          CombinateRec fuel m (pos + 1) inp
            { st1 with buf2 := st1.buf2.set (pos - len) (inp.getD pos 0) }
        else st1

/-- The wrapper `Combinate(m, in, out1, out2)` (lines 71-77); returns the new
`(out1, out2)`. The test `m > in.size()` compares unsigned, so a negative `m` also
returns at once. -/
def Combinate (m : Int) (inp : List Int) (out1 out2 : List (List Int)) :
    List (List Int) × List (List Int) :=
  if m < 0 ∨ m > inp.length then (out1, out2)
  else
    let st := CombinateRec (inp.length + 1) m.toNat 0 inp
      { out1 := [], out2 := [],
        buf1 := List.replicate m.toNat 0,
        buf2 := List.replicate (inp.length - m.toNat) 0 }
    (st.out1, st.out2)

/-! ## The decision table -/

/-- The class `SingleActionDecisionTable` (lines 94-183). -/
structure SingleActionDecisionTable where
  num_actions_ : Int
  num_conditions_ : Int
  num_rules_ : Int
  table_ : List Int
deriving DecidableEq, Repr

namespace SingleActionDecisionTable

/-- The constructor (lines 96-110): the rows are allocated and filled with `-1` only when
both counts are positive. -/
def new (num_conditions num_actions : Int) : SingleActionDecisionTable :=
  if num_conditions ≤ 0 then
    { num_actions_ := num_actions, num_conditions_ := num_conditions, num_rules_ := 0,
      table_ := [] }
  else if num_actions ≤ 0 then
    { num_actions_ := num_actions, num_conditions_ := num_conditions, num_rules_ := 0,
      table_ := [] }
  else
    { num_actions_ := num_actions, num_conditions_ := num_conditions, num_rules_ := 0,
      table_ := List.replicate (2 ^ num_conditions.toNat) (-1) }

/-- `GetPos` (lines 169-177): `status[0]` plus `2 << (i - 1)` for every `i >= 1` with
`status[i] > 0`. -/
def GetPos (t : SingleActionDecisionTable) (status : List Int) : Int :=
  (List.range (t.num_conditions_.toNat - 1)).foldl
    (fun pos j => if status.getD (j + 1) 0 > 0 then pos + 2 * 2 ^ j else pos)
    (status.getD 0 0)

/-- `Test` (lines 135-137). -/
def Test (t : SingleActionDecisionTable) (status : List Int) : Int :=
  t.table_.getD (t.GetPos status).toNat 0

/-- `AddRule` (lines 119-125): the new table and the old action. -/
def AddRule (t : SingleActionDecisionTable) (status : List Int) (action : Int) :
    SingleActionDecisionTable × Int :=
  let pos := (t.GetPos status).toNat
  let old_action := t.table_.getD pos 0
  ({ t with
      table_ := t.table_.set pos action,
      num_rules_ := if old_action = -1 then t.num_rules_ + 1 else t.num_rules_ },
   old_action)

/-- `DeleteRule` (lines 127-133): the new table and the old action. -/
def DeleteRule (t : SingleActionDecisionTable) (status : List Int) :
    SingleActionDecisionTable × Int :=
  let pos := (t.GetPos status).toNat
  let old_action := t.table_.getD pos 0
  ({ t with
      table_ := t.table_.set pos (-1),
      num_rules_ := if old_action ≠ -1 then t.num_rules_ - 1 else t.num_rules_ },
   old_action)

/-- `GetNumActions` (lines 139-141). -/
def GetNumActions (t : SingleActionDecisionTable) : Int := t.num_actions_

/-- `GetNumContditions` (lines 143-145). -/
def GetNumContditions (t : SingleActionDecisionTable) : Int := t.num_conditions_

end SingleActionDecisionTable

/-! ## Tree nodes, cubes and cube tables -/

/-- A `TreeNode*` (lines 79-92): `null` is `nullptr`. -/
inductive TreeNode where
  | null : TreeNode
  | node (value : Int) (ltree rtree : TreeNode) : TreeNode
deriving DecidableEq, Repr

/-- `new TreeNode(n)` (lines 88-91): both children are `nullptr`. -/
def TreeNode.new (n : Int) : TreeNode := TreeNode.node n TreeNode.null TreeNode.null

/-- The struct `Cude` (lines 300-314). -/
structure Cude where
  dash_pos : Int
  gain : Int
  action : Finset Int
deriving DecidableEq

/-- The default constructor `Cude()` (lines 305-307). -/
def Cude.default : Cude := { dash_pos := 0, gain := 0, action := ∅ }

/-- The constructor `Cude(pos, g, a1, a2)` (lines 308-313): `action` is `a1` with the
members of `a2` inserted. -/
def Cude.new (pos g : Int) (a1 a2 : Finset Int) : Cude :=
  { dash_pos := pos, gain := g, action := a1 ∪ a2 }

/-- `*action.begin()`: the member of a one-element set. The program reads it only when
`action.size() == 1`. -/
def firstAction (s : Finset Int) : Int :=
  match (s.min : Option Int) with
  | some a => a
  | none => 0

/-- A `std::map<std::vector<int>, Cude>`. -/
abbrev CudeTable := List (List Int × Cude)

/-- `std::map::find`: the cube stored under `status`, if any. -/
def CudeTable.find : CudeTable → List Int → Option Cude
  | [], _ => none
  | (k, c) :: t, status => if k = status then some c else CudeTable.find t status

/-- `std::map::emplace`: nothing is stored when the key is already present. -/
def CudeTable.emplace (t : CudeTable) (status : List Int) (c : Cude) : CudeTable :=
  match t.find status with
  | some _ => t
  | none => (status, c) :: t

/-- `std::map::operator[]`: a missing key is first inserted with a default `Cude`. -/
def CudeTable.index (t : CudeTable) (status : List Int) : Cude × CudeTable :=
  match t.find status with
  | some c => (c, t)
  | none => (Cude.default, (status, Cude.default) :: t)

/-! ## The decision tree -/

/-- `INT32_MIN`. -/
def INT32_MIN : Int := -2147483648

/-- The variables of the candidate-split loop (lines 373-389). `max_cude0` and `max_cude1`
point at entries of the level below, which the loop never changes once they are stored, so
the model keeps the values they point at. -/
structure SplitState where
  status : List Int
  last_ct : CudeTable
  max_idx : Int
  max_gain : Int
  max_cude0 : Cude
  max_cude1 : Cude

/-- One iteration of the candidate-split loop (lines 376-388) for `pos = pos_dash[j][l]`. -/
def splitStep (pos : Int) (st : SplitState) : SplitState :=
  let status0 := st.status.set pos.toNat 0
  let r0 := st.last_ct.index status0
  let status1 := status0.set pos.toNat 1
  let r1 := r0.2.index status1
  let status2 := status1.set pos.toNat 2
  let cube0 := r0.1
  let cube1 := r1.1
  let gain := cube0.gain + cube1.gain + (if cube0.action = cube1.action then 1 else 0)
  if gain > st.max_gain then
    { status := status2, last_ct := r1.2, max_idx := pos, max_gain := gain,
      max_cude0 := cube0, max_cude1 := cube1 }
  else
    { st with status := status2, last_ct := r1.2 }

/-- The state of the two tables and of `status` inside the loops over `j` and `k`. -/
structure LevelState where
  status : List Int
  last_ct : CudeTable
  cur_ct : CudeTable

/-- The body of the loop over `k` (lines 371-390): decode `k` into the positions of
`pos_01`, try every DASH position, store the best cube. -/
def cubeStep (i n_01 : Nat) (pos_dash pos_01 : List Int) (st : LevelState) (k : Nat) :
    LevelState :=
  let status := BitToVectorPos k n_01 pos_01 st.status
  let r := (List.range i).foldl (fun s l => splitStep (pos_dash.getD l 0) s)
    { status := status, last_ct := st.last_ct, max_idx := 0, max_gain := INT32_MIN,
      max_cude0 := Cude.default, max_cude1 := Cude.default : SplitState }
  { status := r.status, last_ct := r.last_ct,
    cur_ct := st.cur_ct.emplace r.status
      (Cude.new r.max_idx r.max_gain r.max_cude0.action r.max_cude1.action) }

/-- The body of the loop over `j` (lines 365-391): mark the positions of `pos_dash[j]`
with 2, then run over the `1 << n_01` assignments of the other positions. -/
def combinationStep (num_conditions i : Nat) (pos_dash pos_01 : List (List Int))
    (st : LevelState) (j : Nat) : LevelState :=
  let dash := pos_dash.getD j []
  let status := (List.range i).foldl (fun s k => s.set (dash.getD k 0).toNat 2) st.status
  let n_01 := num_conditions - i
  (List.range (2 ^ n_01)).foldl (cubeStep i n_01 dash (pos_01.getD j []))
    { st with status := status }

/-- The variables of `DecisionTableToTree` while the cube tables are built. -/
structure BuildState where
  status : List Int
  cude_tables : List CudeTable

/-- The vector `pos_all` of `DecisionTableToTree` (lines 342-345): `pos_all[i] = i`. -/
def posAll (n : Nat) : List Int := (List.range n).map (fun (i : Nat) => (i : Int))

/-- The body of the loop over `i` (lines 356-393): build level `i` from level `i - 1`. -/
def levelStep (num_conditions : Nat) (pos_all : List Int) (st : BuildState) (i : Nat) :
    BuildState :=
  let comb := Combinate i pos_all [] []
  let pos_dash := comb.1
  let pos_01 := comb.2
  let r := (List.range pos_dash.length).foldl (combinationStep num_conditions i pos_dash pos_01)
    { status := st.status, last_ct := st.cude_tables.getD (i - 1) [],
      cur_ct := st.cude_tables.getD i [] : LevelState }
  { status := r.status,
    cude_tables := (st.cude_tables.set (i - 1) r.last_ct).set i r.cur_ct }

/-- The body of the 0-cude loop (lines 348-353). -/
def zeroCudeStep (num_conditions : Nat) (table : SingleActionDecisionTable)
    (st : List Int × CudeTable) (i : Nat) : List Int × CudeTable :=
  let status := BitToVector i num_conditions st.1
  (status, st.2.emplace status { Cude.default with action := {table.Test status} })

/-- Lines 339-393 of `DecisionTableToTree`: the cube tables of all levels, and `status`. -/
def BuildCudeTables (num_conditions : Nat) (table : SingleActionDecisionTable) : BuildState :=
  let status := List.replicate num_conditions (0 : Int)
  let pos_all := posAll num_conditions
  let r0 := (List.range (2 ^ num_conditions)).foldl (zeroCudeStep num_conditions table)
    (status, [])
  (List.range' 1 num_conditions).foldl (levelStep num_conditions pos_all)
    { status := r0.1,
      cude_tables := (List.replicate (num_conditions + 1) ([] : CudeTable)).set 0 r0.2 }

/-- `TracingBackCudeTables` (lines 316-336) for a level `n >= 0`, with `root` initially
`nullptr`. The result is `none` when a cube is looked up that the tables do not hold
(the source then dereferences `end()`). At level 0 the two recursive calls are made with
`n = -1` and return at once, leaving both children `nullptr`. -/
def TracingBackLevel : Nat → List Int → List CudeTable → Option TreeNode
  | n, status, cube_tables =>
    match (cube_tables.getD n []).find status with
    | none => none
    | some cube =>
      if cube.action.card = 1 then
        some (TreeNode.new (firstAction cube.action))
      else
        let pos := cube.dash_pos
        match n with
        | 0 => some (TreeNode.new pos)
        | k + 1 =>
          match TracingBackLevel k (status.set pos.toNat 0) cube_tables with
          | none => none
          | some l =>
            match TracingBackLevel k (status.set pos.toNat 1) cube_tables with
            | none => none
            | some r => some (TreeNode.node pos l r)

/-- `TracingBackCudeTables(n, root, status, cube_tables)` (lines 316-336): the new value
of `root`. -/
def TracingBackCudeTables (n : Int) (root : TreeNode) (status : List Int)
    (cube_tables : List CudeTable) : Option TreeNode :=
  if n < 0 then some root else TracingBackLevel n.toNat status cube_tables

/-- `DecisionTableToTree` (lines 338-398): the new value of `root_`, which is `nullptr`
when the function is called. -/
def DecisionTableToTree (num_conditions : Nat) (table : SingleActionDecisionTable) :
    Option TreeNode :=
  let b := BuildCudeTables num_conditions table
  TracingBackCudeTables num_conditions TreeNode.null (b.status.map (fun _ => 2)) b.cude_tables

/-- The class `DecisionTree` (lines 185-410). -/
structure DecisionTree where
  num_actions_ : Int
  num_conditions_ : Int
  root_ : TreeNode
deriving DecidableEq, Repr

namespace DecisionTree

/-- The constructor (lines 187-200); `none` when the traceback fails. -/
def new (table : SingleActionDecisionTable) : Option DecisionTree :=
  let num_conditions_ := table.GetNumContditions
  let num_actions_ := table.GetNumActions
  if num_conditions_ ≤ 0 then
    some { num_actions_ := num_actions_, num_conditions_ := num_conditions_,
           root_ := TreeNode.null }
  else if num_actions_ ≤ 0 then
    some { num_actions_ := num_actions_, num_conditions_ := num_conditions_,
           root_ := TreeNode.null }
  else
    (DecisionTableToTree num_conditions_.toNat table).map fun r =>
      { num_actions_ := num_actions_, num_conditions_ := num_conditions_, root_ := r }

/-- `Empty` (lines 208-210). -/
def Empty (t : DecisionTree) : Bool := t.root_ = TreeNode.null

/-- The loop of `Test` (lines 216-223) from node `cur` with counter `n`; `none` when `cur`
is `nullptr` or `status[n]` is read outside the vector. -/
def TestLoop : TreeNode → Nat → List Int → Option Int
  | TreeNode.null, _, _ => none
  | TreeNode.node value ltree rtree, n, status =>
      if ltree ≠ TreeNode.null ∧ rtree ≠ TreeNode.null then
        match status.get? n with
        | none => none
        | some x =>
          if x > 0 then TestLoop rtree (n + 1) status
          else TestLoop ltree (n + 1) status
      else some value

/-- `Test` (lines 212-225). -/
def Test (t : DecisionTree) (status : List Int) : Option Int :=
  TestLoop t.root_ 0 status

end DecisionTree

/-! ## The example of `main` -/

/-- The rules of `SetTable` (lines 412-445), in order. -/
def exampleRules : List (List Int × Int) :=
  [([0, 0, 0, 0, 0], 0), ([0, 1, 0, 0, 0], 0), ([0, 0, 1, 0, 0], 0), ([0, 0, 0, 1, 0], 0),
   ([0, 0, 0, 0, 1], 0), ([0, 1, 1, 0, 0], 0), ([0, 1, 0, 1, 0], 0), ([0, 1, 0, 0, 1], 0),
   ([0, 0, 1, 1, 0], 0), ([0, 0, 1, 0, 1], 0), ([0, 0, 0, 1, 1], 0), ([0, 1, 1, 1, 0], 0),
   ([0, 1, 1, 0, 1], 0), ([0, 1, 0, 1, 1], 0), ([0, 0, 1, 1, 1], 0), ([0, 1, 1, 1, 1], 0),
   ([1, 0, 0, 0, 0], 1), ([1, 1, 0, 0, 0], 2), ([1, 0, 1, 0, 0], 3), ([1, 0, 0, 1, 0], 4),
   ([1, 0, 0, 0, 1], 5), ([1, 1, 1, 0, 0], 3), ([1, 1, 0, 1, 0], 6), ([1, 1, 0, 0, 1], 5),
   ([1, 0, 1, 1, 0], 3), ([1, 0, 1, 0, 1], 3), ([1, 0, 0, 1, 1], 7), ([1, 1, 1, 1, 0], 3),
   ([1, 1, 1, 0, 1], 3), ([1, 1, 0, 1, 1], 7), ([1, 0, 1, 1, 1], 3), ([1, 1, 1, 1, 1], 3)]

/-- `SetTable` (lines 412-445). -/
def SetTable (table : SingleActionDecisionTable) : SingleActionDecisionTable :=
  exampleRules.foldl (fun t r => (t.AddRule r.1 r.2).1) table

/-- The table of `main` (lines 448-449). -/
def exampleTable : SingleActionDecisionTable :=
  SetTable (SingleActionDecisionTable.new 5 8)

/-! ## Definitions used to state the properties -/

/-- The enumeration the spec describes: every way to choose `m` elements of a list, in the
order of the recursive choose/skip decision, each paired with the elements left out. -/
def chooseSpec : Nat → List Int → List (List Int × List Int)
  | 0, l => [([], l)]
  | _ + 1, [] => []
  | m + 1, a :: l =>
      (chooseSpec m l).map (fun p => (a :: p.1, p.2)) ++
        (chooseSpec (m + 1) l).map (fun p => (p.1, a :: p.2))

/-- A fully specified status vector of `n` conditions: every entry is 0 or 1. -/
def IsRow (n : Nat) (v : List Int) : Prop := v.length = n ∧ ∀ x ∈ v, x = 0 ∨ x = 1

instance (n : Nat) (v : List Int) : Decidable (IsRow n v) := by
  unfold IsRow; infer_instance

/-- A status vector of `n` conditions with exactly `i` entries equal to the DASH marker 2
and all others 0 or 1: a key of the level-`i` cube table. -/
def IsCubeKey (n i : Nat) (s : List Int) : Prop :=
  s.length = n ∧ (∀ x ∈ s, x = 0 ∨ x = 1 ∨ x = 2) ∧ s.count 2 = i

instance (n i : Nat) (s : List Int) : Decidable (IsCubeKey n i s) := by
  unfold IsCubeKey; infer_instance

/-- The row `v` is covered by the cube `s`: it agrees with `s` at every non-DASH position. -/
def Covers (s v : List Int) : Prop :=
  s.length = v.length ∧ ∀ p, p < s.length → s.getD p 0 = 2 ∨ s.getD p 0 = v.getD p 0

instance (s v : List Int) : Decidable (Covers s v) := by
  unfold Covers; infer_instance

/-- The `n` low bits of `num`, least significant first. -/
def bitsOf : Int → Nat → List Int
  | _, 0 => []
  | num, n + 1 => num % 2 :: bitsOf (num / 2) n

/-- The number whose bits, least significant first, are the entries of the list. -/
def fromBits : List Int → Int
  | [] => 0
  | b :: l => b + 2 * fromBits l

/-- The key the loops of `DecisionTableToTree` form for the DASH positions `dash`, the other
positions `free` and the assignment number `k`: 2 at the positions of `dash`, bit `t` of `k`
at position `free[t]`. -/
def cubeKeyOf (pos_all dash free : List Int) (k : Int) : List Int :=
  pos_all.map (fun x => if x ∈ dash then 2 else (bitsOf k free.length).getD (free.indexOf x) 0)

/-- The DASH positions of a status vector, in ascending order. -/
def dashPositions (s : List Int) : List Int :=
  (posAll s.length).filter (fun x => decide (s.getD x.toNat 0 = 2))

/-- The cube the level below stores for `s` with position `p` fixed to `b` (a default
cube when there is none). -/
def childCube (last : CudeTable) (s : List Int) (p : Int) (b : Int) : Cude :=
  (last.find (s.set p.toNat b)).getD Cude.default

/-- The gain of splitting the cube `s` at position `p` (line 382). -/
def candGain (last : CudeTable) (s : List Int) (p : Int) : Int :=
  (childCube last s p 0).gain + (childCube last s p 1).gain +
    (if (childCube last s p 0).action = (childCube last s p 1).action then 1 else 0)

/-- One iteration of the candidate-split loop, as a function of the cube `s` and of the
level below. -/
def bestStep (last : CudeTable) (s : List Int) (st : SplitState) (p : Int) : SplitState :=
  if candGain last s p > st.max_gain then
    { status := s, last_ct := last, max_idx := p, max_gain := candGain last s p,
      max_cude0 := childCube last s p 0, max_cude1 := childCube last s p 1 }
  else { st with status := s, last_ct := last }

/-- The variables at the start of the candidate-split loop (lines 373-374). -/
def splitInit (last : CudeTable) (s : List Int) : SplitState :=
  { status := s, last_ct := last, max_idx := 0, max_gain := INT32_MIN,
    max_cude0 := Cude.default, max_cude1 := Cude.default }

/-- The cube stored for the key `s` whose DASH positions are `dash`, as a function of the
level below. -/
def storedCube (last : CudeTable) (s : List Int) (dash : List Int) : Cude :=
  let r := dash.foldl (bestStep last s) (splitInit last s)
  Cude.new r.max_idx r.max_gain r.max_cude0.action r.max_cude1.action

/-- The state of the loops that build level `i` is consistent: `status` has `n` entries,
the level below is still `last`, and every cube stored so far is the one computed from
`last` for its key. -/
def LevelInv (n i : Nat) (last : CudeTable) (st : LevelState) : Prop :=
  st.status.length = n ∧ st.last_ct = last ∧
    ∀ s c, st.cur_ct.find s = some c →
      IsCubeKey n i s ∧ c = storedCube last s (dashPositions s)

/-- Every entry of the current table of `st` is still an entry of that of `st'`. -/
def Grows (st st' : LevelState) : Prop :=
  ∀ s c, st.cur_ct.find s = some c → st'.cur_ct.find s = some c

/-- The level below holds every key of its level. -/
def LevelComplete (n i : Nat) (t : CudeTable) : Prop :=
  ∀ s, IsCubeKey n i s → ∃ c, t.find s = some c

/-- The cube tables after the levels `0 .. m` have been built: `status` has `n` entries,
there are `n + 1` tables, level 0 stores for every row the singleton of its action, every
level up to `m` holds all the keys of its level, each key of a level `j >= 1` with the cube
computed from level `j - 1`, and the levels above `m` are still empty. -/
def TablesInv (n : Nat) (table : SingleActionDecisionTable) (m : Nat) (st : BuildState) : Prop :=
  st.status.length = n ∧ st.cude_tables.length = n + 1 ∧
  (∀ s c, (st.cude_tables.getD 0 []).find s = some c →
    IsRow n s ∧ c = { Cude.default with action := {table.Test s} }) ∧
  (∀ j, j ≤ m → LevelComplete n j (st.cude_tables.getD j [])) ∧
  (∀ j, 1 ≤ j → j ≤ m → ∀ s c, (st.cude_tables.getD j []).find s = some c →
    IsCubeKey n j s ∧ c = storedCube (st.cude_tables.getD (j - 1) []) s (dashPositions s)) ∧
  (∀ j, m < j → st.cude_tables.getD j [] = [])

/-- The action set of `c` is the set of the actions of the rows covered by `s`. -/
def ActionChar (n : Nat) (table : SingleActionDecisionTable) (s : List Int) (c : Cude) : Prop :=
  ∀ a, a ∈ c.action ↔ ∃ v, IsRow n v ∧ Covers s v ∧ table.Test v = a

/-- The evaluation the spec describes: descend from the root; at an internal node (both
children present) whose value is the tested condition `p`, go right if `status[p] > 0` and
left otherwise; return the value of the leaf reached. `none` when there is no node or `p`
is not an index of `status`. -/
def refDescent : TreeNode → List Int → Option Int
  | TreeNode.null, _ => none
  | TreeNode.node value ltree rtree, status =>
      if ltree ≠ TreeNode.null ∧ rtree ≠ TreeNode.null then
        if value < 0 then none
        else
          match status.get? value.toNat with
          | none => none
          | some x => if x > 0 then refDescent rtree status else refDescent ltree status
      else some value

/-- The table has `2 ^ n` rows for its `n` conditions and none of them holds the UNSET
value `-1`. -/
def FullyPopulated (n : Nat) (t : SingleActionDecisionTable) : Prop :=
  t.num_conditions_ = (n : Int) ∧ t.table_.length = 2 ^ n ∧ ∀ a ∈ t.table_, a ≠ -1

instance (n : Nat) (t : SingleActionDecisionTable) : Decidable (FullyPopulated n t) := by
  unfold FullyPopulated; infer_instance

/-- A table of two conditions whose action is the value of condition 1, filled through
`AddRule` like the table of `main`. -/
def twoConditionTable : SingleActionDecisionTable :=
  [([0, 0], 0), ([1, 0], 0), ([0, 1], 1), ([1, 1], 1)].foldl
    (fun t (r : List Int × Int) => (t.AddRule r.1 r.2).1) (SingleActionDecisionTable.new 2 2)

/-- The tree `main` builds for the example table (the value of `root_` after line 452). -/
def exampleTree : TreeNode :=
  TreeNode.node 0 (TreeNode.new 0)
    (TreeNode.node 2
      (TreeNode.node 3
        (TreeNode.node 4 (TreeNode.node 1 (TreeNode.new 1) (TreeNode.new 2)) (TreeNode.new 5))
        (TreeNode.node 4 (TreeNode.node 1 (TreeNode.new 4) (TreeNode.new 6)) (TreeNode.new 7)))
      (TreeNode.new 3))

/-- A table of three conditions whose action is 1 on the rows 5, 6 and 7 and 0 elsewhere,
filled through `AddRule` like the table of `main`. -/
def threeConditionTable : SingleActionDecisionTable :=
  [([0, 0, 0], 0), ([1, 0, 0], 0), ([0, 1, 0], 0), ([1, 1, 0], 0),
   ([0, 0, 1], 0), ([1, 0, 1], 1), ([0, 1, 1], 1), ([1, 1, 1], 1)].foldl
    (fun t (r : List Int × Int) => (t.AddRule r.1 r.2).1) (SingleActionDecisionTable.new 3 2)

/-- The number of nodes of a tree. -/
def nodeCount : TreeNode → Nat
  | TreeNode.null => 0
  | TreeNode.node _ ltree rtree => 1 + nodeCount ltree + nodeCount rtree

/-- The tree `t` returns the table's action, under the reference descent, on every row
covered by the cube `s`. -/
def CorrectOn (n : Nat) (table : SingleActionDecisionTable) (s : List Int) (t : TreeNode) : Prop :=
  ∀ v, IsRow n v → Covers s v → refDescent t v = some (table.Test v)

/-- The calls of `TracingBackCudeTables` (lines 316-336) that a call at a level `n >= 0`
makes, itself included, in order, each with its level and its status vector. A call at
level `-1` is one that returns at the `n < 0` guard; a call whose lookup finds nothing, or
whose cube has exactly one action, makes no further call. -/
def TracingBackCalls : Nat → List Int → List CudeTable → List (Int × List Int)
  | n, status, cube_tables =>
    ((n : Int), status) ::
      match (cube_tables.getD n []).find status with
      | none => []
      | some cube =>
        if cube.action.card = 1 then []
        else
          match n with
          | 0 => [(-1, status.set cube.dash_pos.toNat 0), (-1, status.set cube.dash_pos.toNat 1)]
          | k + 1 =>
            TracingBackCalls k (status.set cube.dash_pos.toNat 0) cube_tables ++
              TracingBackCalls k (status.set cube.dash_pos.toNat 1) cube_tables

/-- A strict binary tree for a table of `n` conditions: every node has either no children
and holds an action of the table, or two non-null children, themselves such trees, and
holds a condition index in `[0, n)`. -/
def StrictTree (n : Nat) (table : SingleActionDecisionTable) : TreeNode → Prop
  | TreeNode.null => False
  | TreeNode.node value ltree rtree =>
      (ltree = TreeNode.null ∧ rtree = TreeNode.null ∧
        ∃ v, IsRow n v ∧ table.Test v = value) ∨
      (ltree ≠ TreeNode.null ∧ rtree ≠ TreeNode.null ∧ 0 ≤ value ∧ value < (n : Int) ∧
        StrictTree n table ltree ∧ StrictTree n table rtree)

/-- The root-to-leaf paths of a tree, each as the list of the values stored in its
internal nodes (nodes with two children), from the root down. -/
def pathConditions : TreeNode → List (List Int)
  | TreeNode.null => []
  | TreeNode.node value ltree rtree =>
      if ltree ≠ TreeNode.null ∧ rtree ≠ TreeNode.null then
        (pathConditions ltree).map (fun p => value :: p) ++
          (pathConditions rtree).map (fun p => value :: p)
      else [[]]

/-- The values stored in the leaves of a tree, from left to right. -/
def leafValues : TreeNode → List Int
  | TreeNode.null => []
  | TreeNode.node value ltree rtree =>
      if ltree ≠ TreeNode.null ∧ rtree ≠ TreeNode.null then leafValues ltree ++ leafValues rtree
      else [value]

/-- No internal node of the tree is a redundant test: the leaves below every internal node
hold at least two different values. -/
def NoRedundantTest : TreeNode → Prop
  | TreeNode.null => True
  | TreeNode.node value ltree rtree =>
      if ltree ≠ TreeNode.null ∧ rtree ≠ TreeNode.null then
        (∃ a ∈ leafValues (TreeNode.node value ltree rtree),
          ∃ b ∈ leafValues (TreeNode.node value ltree rtree), a ≠ b) ∧
        NoRedundantTest ltree ∧ NoRedundantTest rtree
      else True

/-- The keys of a cube table are pairwise distinct, as in a `std::map`. -/
def KeysNodup (t : CudeTable) : Prop := (t.map Prod.fst).Nodup

/-- The variables of `DecisionTableToTree` after the loop over `i` (lines 356-393) has run
for `i = 1, ..., m`. -/
def BuildCudeTablesUpTo (num_conditions : Nat) (table : SingleActionDecisionTable) (m : Nat) :
    BuildState :=
  let status := List.replicate num_conditions (0 : Int)
  let pos_all := posAll num_conditions
  let r0 := (List.range (2 ^ num_conditions)).foldl (zeroCudeStep num_conditions table)
    (status, [])
  (List.range' 1 m).foldl (levelStep num_conditions pos_all)
    { status := r0.1,
      cude_tables := (List.replicate (num_conditions + 1) ([] : CudeTable)).set 0 r0.2 }

/-- The keys the loops over `j` and `k` form while level `i` is built, in order. -/
def generatedKeys (n i : Nat) : List (List Int) :=
  (chooseSpec i (posAll n)).flatMap fun p =>
    (List.range (2 ^ (n - i))).map fun (k : Nat) => cubeKeyOf (posAll n) p.1 p.2 (k : Int)

/-! # Verification -/

/-! ## The combination enumerator -/

theorem take_set_self {α : Type} (a : α) : ∀ (l : List α) (i : Nat), (l.set i a).take i = l.take i
  | [], _ => by simp
  | _ :: _, 0 => by simp
  | x :: l, i + 1 => by simp [take_set_self a l i]

theorem take_succ_set {α : Type} (a : α) : ∀ (l : List α) (i : Nat), i < l.length →
    (l.set i a).take (i + 1) = l.take i ++ [a]
  | [], _, h => by simp at h
  | _ :: _, 0, _ => by simp
  | x :: l, i + 1, h => by
      have h1 : i < l.length := by simpa using h
      simp [take_succ_set a l i h1]

theorem chooseSpec_of_length_lt : ∀ (m : Nat) (l : List Int), l.length < m → chooseSpec m l = []
  | 0, _, h => by simp at h
  | _ + 1, [], _ => rfl
  | m + 1, a :: l, h => by
      have h1 : l.length < m := by simpa using h
      have h2 : l.length < m + 1 := by omega
      simp [chooseSpec, chooseSpec_of_length_lt m l h1, chooseSpec_of_length_lt (m + 1) l h2]

theorem CopyRest_eq : ∀ (k i len : Nat) (inp buf2 : List Int),
    len ≤ i → i + k = inp.length → (i - len) + k = buf2.length →
    CopyRest k i len inp buf2 = buf2.take (i - len) ++ inp.drop i
  | 0, i, len, inp, buf2, _, h1, h2 => by
      have h3 : inp.drop i = [] := List.drop_eq_nil_of_le (by omega)
      have h4 : buf2.take (i - len) = buf2 := List.take_of_length_le (by omega)
      simp [CopyRest, h3, h4]
  | k + 1, i, len, inp, buf2, hl, h1, h2 => by
      have hi : i < inp.length := by omega
      have hb : i - len < buf2.length := by omega
      have e1 : i + 1 - len = (i - len) + 1 := by omega
      rw [CopyRest, CopyRest_eq k (i + 1) len inp _ (by omega) (by omega) (by simp; omega)]
      rw [e1, take_succ_set _ _ _ hb, List.drop_eq_getElem_cons hi, List.getD_eq_getElem _ _ hi]
      simp

/-- What a call of the recursive `Combinate` appends to the outputs, and what it leaves
alone in the buffers. -/
theorem CombinateRec_spec : ∀ (fuel m pos : Nat) (inp : List Int) (st : CombState) (c : Nat),
    inp.length < pos + fuel → m + pos ≤ inp.length → c ≤ pos →
    st.buf1.length = c + m → st.buf2.length + m + c = inp.length →
    (CombinateRec fuel m pos inp st).out1 =
        st.out1 ++ (chooseSpec m (inp.drop pos)).map (fun p => st.buf1.take c ++ p.1) ∧
    (CombinateRec fuel m pos inp st).out2 =
        st.out2 ++ (chooseSpec m (inp.drop pos)).map (fun p => st.buf2.take (pos - c) ++ p.2) ∧
    (CombinateRec fuel m pos inp st).buf1.length = st.buf1.length ∧
    (CombinateRec fuel m pos inp st).buf2.length = st.buf2.length ∧
    (CombinateRec fuel m pos inp st).buf1.take c = st.buf1.take c ∧
    (CombinateRec fuel m pos inp st).buf2.take (pos - c) = st.buf2.take (pos - c)
  | 0, m, pos, inp, st, c, hf, hm, _, _, _ => by omega
  | fuel + 1, 0, pos, inp, st, c, hf, hm, hc, h1, h2 => by
      have hlen : st.buf1.length - 0 = c := by omega
      have hpos : pos ≤ inp.length := by omega
      have hcopy := CopyRest_eq (inp.length - pos) pos c inp st.buf2 hc (by omega) (by omega)
      have ht : st.buf1.take c = st.buf1 := List.take_of_length_le (by omega)
      simp only [CombinateRec, hlen, if_true, hpos, hcopy, chooseSpec, List.map_cons,
        List.map_nil, List.append_nil, ht, List.length_append, List.length_take,
        List.length_drop, true_and]
      refine ⟨?_, ?_⟩
      · omega
      · rw [List.take_append_of_le_length (by simp; omega), List.take_take]
        simp
  | fuel + 1, m + 1, pos, inp, st, c, hf, hm, hc, h1, h2 => by
      have hlen : st.buf1.length - (m + 1) = c := by omega
      have hpos : pos < inp.length := by omega
      have hg1 : m + 1 + pos ≤ inp.length := hm
      have hc1 : c < st.buf1.length := by omega
      have hdrop : inp.drop pos = inp.getD pos 0 :: inp.drop (pos + 1) := by
        rw [List.drop_eq_getElem_cons hpos, List.getD_eq_getElem _ _ hpos]
      have hunf : CombinateRec (fuel + 1) (m + 1) pos inp st =
          if m + 1 + pos + 1 ≤ inp.length then
            CombinateRec fuel (m + 1) (pos + 1) inp
              { (CombinateRec fuel m (pos + 1) inp
                  { st with buf1 := st.buf1.set c (inp.getD pos 0) }) with
                buf2 := (CombinateRec fuel m (pos + 1) inp
                  { st with buf1 := st.buf1.set c (inp.getD pos 0) }).buf2.set (pos - c)
                    (inp.getD pos 0) }
          else CombinateRec fuel m (pos + 1) inp
                  { st with buf1 := st.buf1.set c (inp.getD pos 0) } := by
        simp only [CombinateRec, hlen, hg1, if_true, Nat.add_one_ne_zero, if_false,
          Nat.add_sub_cancel]
      rw [hunf, hdrop]
      generalize inp.getD pos 0 = x
      obtain ⟨a1, a2, a3, a4, a5, a6⟩ := CombinateRec_spec fuel m (pos + 1) inp
        { st with buf1 := st.buf1.set c x } (c + 1)
        (by omega) (by omega) (by omega) (by simp only [List.length_set]; omega)
        (by simp only [List.length_set]; omega)
      generalize CombinateRec fuel m (pos + 1) inp { st with buf1 := st.buf1.set c x } = st1
        at a1 a2 a3 a4 a5 a6 ⊢
      simp only [List.length_set] at a1 a2 a3 a4 a5 a6
      rw [take_succ_set _ _ _ hc1] at a1 a5
      have e1 : pos + 1 - (c + 1) = pos - c := by omega
      rw [e1] at a2 a6
      have a5' : st1.buf1.take c = st.buf1.take c := by
        have h := congrArg (List.take c) a5
        rw [List.take_take, List.take_append_of_le_length (by simp only [List.length_take]; omega),
          List.take_take] at h
        simpa using h
      by_cases hg2 : m + 1 + pos + 1 ≤ inp.length
      · have hb2 : pos - c < st1.buf2.length := by omega
        obtain ⟨b1, b2, b3, b4, b5, b6⟩ := CombinateRec_spec fuel (m + 1) (pos + 1) inp
          { st1 with buf2 := st1.buf2.set (pos - c) x } c
          (by omega) (by omega) (by omega) (by simp only []; omega)
          (by simp only [List.length_set]; omega)
        generalize CombinateRec fuel (m + 1) (pos + 1) inp
          { st1 with buf2 := st1.buf2.set (pos - c) x } = st2 at b1 b2 b3 b4 b5 b6 ⊢
        simp only [List.length_set] at b1 b2 b3 b4 b5 b6
        have e2 : pos + 1 - c = (pos - c) + 1 := by omega
        rw [e2, take_succ_set _ _ _ hb2, a6] at b2 b6
        simp only [hg2, if_true, chooseSpec, List.map_append, List.map_map]
        refine ⟨?_, ?_, ?_, ?_, ?_, ?_⟩
        · rw [b1, a1, a5']; simp [Function.comp_def]
        · rw [b2, a2]; simp [Function.comp_def]
        · rw [b3, a3]
        · rw [b4, a4]
        · rw [b5, a5']
        · have h := congrArg (List.take (pos - c)) b6
          rw [List.take_take, List.take_append_of_le_length
            (by simp only [List.length_take]; omega), List.take_take] at h
          simpa using h
      · have hnil : chooseSpec (m + 1) (inp.drop (pos + 1)) = [] :=
          chooseSpec_of_length_lt _ _ (by simp only [List.length_drop]; omega)
        simp only [hg2, if_false, chooseSpec, List.map_append, List.map_map, hnil,
          List.map_nil, List.append_nil]
        refine ⟨?_, ?_, a3, a4, a5', a6⟩
        · rw [a1]; simp [Function.comp_def]
        · rw [a2]; simp [Function.comp_def]

/-- The wrapper `Combinate` returns the enumeration of the spec, unzipped. -/
theorem Combinate_eq_chooseSpec (m : Nat) (inp : List Int) (out1 out2 : List (List Int))
    (hm : m ≤ inp.length) :
    Combinate m inp out1 out2 =
      ((chooseSpec m inp).map Prod.fst, (chooseSpec m inp).map Prod.snd) := by
  have hguard : ¬ ((m : Int) < 0 ∨ (m : Int) > inp.length) := by
    simp only [not_or, not_lt, gt_iff_lt]
    exact ⟨Int.natCast_nonneg m, by exact_mod_cast hm⟩
  obtain ⟨a1, a2, -, -, -, -⟩ := CombinateRec_spec (inp.length + 1) m 0 inp
    { out1 := [], out2 := [], buf1 := List.replicate m 0,
      buf2 := List.replicate (inp.length - m) 0 } 0
    (by omega) (by omega) (by omega) (by simp) (by simp only [List.length_replicate]; omega)
  simp only [Combinate, hguard, if_false, Int.toNat_ofNat, a1, a2]
  simp

theorem chooseSpec_fst_perm : ∀ (m : Nat) (l : List Int),
    ((chooseSpec m l).map Prod.fst).Perm (List.sublistsLen m l)
  | 0, l => by simp [chooseSpec]
  | _ + 1, [] => by simp [chooseSpec]
  | m + 1, a :: l => by
      rw [List.sublistsLen_succ_cons]
      simp only [chooseSpec, List.map_append, List.map_map]
      refine List.Perm.trans List.perm_append_comm (List.Perm.append ?_ ?_)
      · have h := chooseSpec_fst_perm (m + 1) l
        have e : (chooseSpec (m + 1) l).map (Prod.fst ∘ fun p => (p.1, a :: p.2)) =
            (chooseSpec (m + 1) l).map Prod.fst := by
          apply List.map_congr_left; intro p _; rfl
        rw [e]; exact h
      · have h := (chooseSpec_fst_perm m l).map (List.cons a)
        have e : (chooseSpec m l).map (Prod.fst ∘ fun p => (a :: p.1, p.2)) =
            ((chooseSpec m l).map Prod.fst).map (List.cons a) := by
          rw [List.map_map]; apply List.map_congr_left; intro p _; rfl
        rw [e]; exact h

theorem chooseSpec_length (m : Nat) (l : List Int) :
    (chooseSpec m l).length = Nat.choose l.length m := by
  have h := (chooseSpec_fst_perm m l).length_eq
  rw [List.length_map, List.length_sublistsLen] at h
  exact h

theorem chooseSpec_fst_sublist {m : Nat} {l : List Int} {p : List Int × List Int}
    (hp : p ∈ chooseSpec m l) : p.1.Sublist l ∧ p.1.length = m := by
  have h : p.1 ∈ List.sublistsLen m l :=
    (chooseSpec_fst_perm m l).subset (List.mem_map_of_mem Prod.fst hp)
  exact List.mem_sublistsLen.1 h

theorem chooseSpec_snd_eq : ∀ (m : Nat) (l : List Int) (p : List Int × List Int),
    l.Nodup → p ∈ chooseSpec m l → p.2 = l.filter (fun x => decide (x ∉ p.1))
  | 0, l, p, _, hp => by
      simp only [chooseSpec, List.mem_singleton] at hp
      subst hp
      simp
  | _ + 1, [], p, _, hp => by simp [chooseSpec] at hp
  | m + 1, a :: l, p, hnd, hp => by
      have hnd' : l.Nodup := (List.nodup_cons.1 hnd).2
      have ha : a ∉ l := (List.nodup_cons.1 hnd).1
      simp only [chooseSpec, List.mem_append, List.mem_map] at hp
      rcases hp with ⟨q, hq, rfl⟩ | ⟨q, hq, rfl⟩
      · have ih := chooseSpec_snd_eq m l q hnd' hq
        simp only [List.filter_cons, List.mem_cons, true_or, not_true_eq_false, decide_False,
          Bool.false_eq_true, if_false]
        rw [ih]
        apply List.filter_congr
        intro x hx
        have hxa : x ≠ a := fun h => ha (h ▸ hx)
        simp [hxa]
      · have ih := chooseSpec_snd_eq (m + 1) l q hnd' hq
        have haq : a ∉ q.1 := fun h => ha ((chooseSpec_fst_sublist hq).1.subset h)
        simp only [List.filter_cons, haq, not_false_eq_true, decide_True, if_true]
        rw [ih]

theorem chooseSpec_fst_nodup (m : Nat) (l : List Int) (h : l.Nodup) :
    ((chooseSpec m l).map Prod.fst).Nodup :=
  (chooseSpec_fst_perm m l).nodup_iff.2 (List.nodup_sublistsLen m h)

theorem chooseSpec_fst_mem {m : Nat} {l a : List Int} (h1 : a.Sublist l) (h2 : a.length = m) :
    a ∈ (chooseSpec m l).map Prod.fst :=
  (chooseSpec_fst_perm m l).symm.subset (List.mem_sublistsLen.2 ⟨h1, h2⟩)

theorem getD_map_fst_snd (L : List (List Int × List Int)) (j : Nat) (hj : j < L.length) :
    (L.map Prod.fst).getD j [] = L[j].1 ∧ (L.map Prod.snd).getD j [] = L[j].2 := by
  constructor
  · rw [List.getD_eq_getElem _ _ (by simpa using hj)]; simp
  · rw [List.getD_eq_getElem _ _ (by simpa using hj)]; simp

/-- C7: for a list `inp` of distinct indices and `0 <= m <= |inp|`, `Combinate` returns
`C(|inp|, m)` pairs; each `out1[j]` is a length-`m` subsequence of `inp`, `out2[j]` is the
subsequence of the elements of `inp` not in `out1[j]`, and every length-`m` subsequence of
`inp` is `out1[j]` for exactly one `j`. -/
theorem Combinate_enumerates_subsets (inp : List Int) (m : Int) (out1 out2 : List (List Int))
    (hnd : inp.Nodup) (h0 : 0 ≤ m) (hm : m ≤ inp.length) :
    (Combinate m inp out1 out2).1.length = Nat.choose inp.length m.toNat ∧
    (Combinate m inp out1 out2).2.length = Nat.choose inp.length m.toNat ∧
    (∀ j, j < Nat.choose inp.length m.toNat →
      ((Combinate m inp out1 out2).1.getD j []).Sublist inp ∧
      ((Combinate m inp out1 out2).1.getD j []).length = m.toNat ∧
      (Combinate m inp out1 out2).2.getD j [] =
        inp.filter (fun x => decide (x ∉ (Combinate m inp out1 out2).1.getD j []))) ∧
    (∀ a : List Int, a.Sublist inp → a.length = m.toNat →
      ∃! j, j < (Combinate m inp out1 out2).1.length ∧
        (Combinate m inp out1 out2).1.getD j [] = a) := by
  obtain ⟨k, rfl⟩ := Int.eq_ofNat_of_zero_le h0
  have hk : k ≤ inp.length := by exact_mod_cast hm
  rw [Combinate_eq_chooseSpec k inp out1 out2 hk]
  simp only [Int.toNat_ofNat, List.length_map, chooseSpec_length, true_and]
  refine ⟨?_, ?_⟩
  · intro j hj
    have hj' : j < (chooseSpec k inp).length := by rw [chooseSpec_length]; exact hj
    obtain ⟨e1, e2⟩ := getD_map_fst_snd (chooseSpec k inp) j hj'
    have hmem : (chooseSpec k inp)[j] ∈ chooseSpec k inp := List.getElem_mem _
    rw [e1, e2]
    exact ⟨(chooseSpec_fst_sublist hmem).1, (chooseSpec_fst_sublist hmem).2,
      chooseSpec_snd_eq k inp _ hnd hmem⟩
  · intro a ha hlen
    have hmem := chooseSpec_fst_mem ha hlen
    have hnodup := chooseSpec_fst_nodup k inp hnd
    obtain ⟨j, hj, hja⟩ := List.getElem_of_mem hmem
    have hlen1 : ((chooseSpec k inp).map Prod.fst).length = Nat.choose inp.length k := by
      rw [List.length_map, chooseSpec_length]
    refine ⟨j, ⟨by rw [← hlen1]; exact hj, by rw [List.getD_eq_getElem _ _ hj]; exact hja⟩, ?_⟩
    rintro j' ⟨hj', hja'⟩
    have hj'' : j' < ((chooseSpec k inp).map Prod.fst).length := by rw [hlen1]; exact hj'
    rw [List.getD_eq_getElem _ _ hj''] at hja'
    exact (List.Nodup.getElem_inj_iff hnodup).1 (hja'.trans hja.symm)

/-- C7 at `inp = [0, 1, 2, 3]`, `m = 2`. -/
theorem Combinate_enumerates_subsets_witness :
    (Combinate 2 [0, 1, 2, 3] [] []).1.length = Nat.choose 4 2 ∧
    (Combinate 2 [0, 1, 2, 3] [] []).1 = [[0, 1], [0, 2], [0, 3], [1, 2], [1, 3], [2, 3]] ∧
    (Combinate 2 [0, 1, 2, 3] [] []).2 = [[2, 3], [1, 3], [1, 2], [0, 3], [0, 2], [0, 1]] :=
  ⟨(Combinate_enumerates_subsets [0, 1, 2, 3] 2 [] [] (by decide) (by decide) (by decide)).1,
    by decide, by decide⟩

/-! ## Lists and bits -/

theorem getD_set_self {α : Type} (a d : α) : ∀ (l : List α) (i : Nat), i < l.length →
    (l.set i a).getD i d = a
  | [], _, h => by simp at h
  | _ :: _, 0, _ => by simp
  | _ :: l, i + 1, h => by
      have h1 : i < l.length := by simpa using h
      simpa using getD_set_self a d l i h1

theorem getD_set_ne {α : Type} (a d : α) : ∀ (l : List α) (i j : Nat), i ≠ j →
    (l.set i a).getD j d = l.getD j d
  | [], _, _, _ => by simp
  | _ :: _, 0, 0, h => by simp at h
  | _ :: _, 0, j + 1, _ => by simp
  | _ :: _, i + 1, 0, _ => by simp
  | _ :: l, i + 1, j + 1, h => by
      have h1 : i ≠ j := fun e => h (by rw [e])
      simpa using getD_set_ne a d l i j h1

theorem set_getD_self {α : Type} (d : α) : ∀ (l : List α) (i : Nat), l.set i (l.getD i d) = l
  | [], _ => by simp
  | _ :: _, 0 => by simp
  | x :: l, i + 1 => by
      have h := set_getD_self d l i
      simp only [List.set_cons_succ, List.getD_cons_succ, h]

theorem set_set_same {α : Type} (a b : α) : ∀ (l : List α) (i : Nat),
    (l.set i a).set i b = l.set i b
  | [], _ => by simp
  | _ :: _, 0 => by simp
  | x :: l, i + 1 => by simp [set_set_same a b l i]

theorem mem_of_mem_set {α : Type} {a x : α} : ∀ {l : List α} {i : Nat},
    x ∈ l.set i a → x = a ∨ x ∈ l
  | [], _, h => by simp at h
  | _ :: _, 0, h => by
      simp only [List.set_cons_zero, List.mem_cons] at h ⊢
      rcases h with h | h
      · exact Or.inl h
      · exact Or.inr (Or.inr h)
  | y :: l, i + 1, h => by
      simp only [List.set_cons_succ, List.mem_cons] at h ⊢
      rcases h with h | h
      · exact Or.inr (Or.inl h)
      · rcases mem_of_mem_set h with h | h
        · exact Or.inl h
        · exact Or.inr (Or.inr h)

theorem getD_mem {α : Type} (d : α) (l : List α) (i : Nat) (h : i < l.length) :
    l.getD i d ∈ l := by
  rw [List.getD_eq_getElem _ _ h]; exact List.getElem_mem _

/-- Overwriting a DASH entry by another value removes one DASH. -/
theorem count_set_of_dash (b : Int) (hb : b ≠ 2) : ∀ (l : List Int) (i : Nat),
    i < l.length → l.getD i 0 = 2 → (l.set i b).count 2 + 1 = l.count 2
  | [], _, h, _ => by simp at h
  | x :: l, 0, _, h2 => by
      have hx : x = 2 := by simpa using h2
      subst hx
      simp only [List.set_cons_zero, List.count_cons_self, List.count_cons_of_ne hb.symm]
  | x :: l, i + 1, h, h2 => by
      have h1 : i < l.length := by simpa using h
      have h3 : l.getD i 0 = 2 := by simpa using h2
      have ih := count_set_of_dash b hb l i h1 h3
      simp only [List.set_cons_succ, List.count_cons]
      omega

theorem bitsOf_length : ∀ (num : Int) (n : Nat), (bitsOf num n).length = n
  | _, 0 => rfl
  | num, n + 1 => by simp [bitsOf, bitsOf_length (num / 2) n]

theorem bitsOf_mem : ∀ (num : Int) (n : Nat) (x : Int), x ∈ bitsOf num n → x = 0 ∨ x = 1
  | _, 0, x, h => by simp [bitsOf] at h
  | num, n + 1, x, h => by
      simp only [bitsOf, List.mem_cons] at h
      rcases h with h | h
      · subst h; omega
      · exact bitsOf_mem _ n x h

theorem bitsOf_isRow (num : Int) (n : Nat) : IsRow n (bitsOf num n) :=
  ⟨bitsOf_length num n, bitsOf_mem num n⟩

theorem fromBits_bounds : ∀ (l : List Int), (∀ x ∈ l, x = 0 ∨ x = 1) →
    0 ≤ fromBits l ∧ fromBits l < 2 ^ l.length
  | [], _ => by simp [fromBits]
  | b :: l, h => by
      have hb := h b (List.mem_cons_self _ _)
      obtain ⟨h1, h2⟩ := fromBits_bounds l (fun x hx => h x (List.mem_cons_of_mem _ hx))
      simp only [fromBits, List.length_cons, pow_succ]
      constructor <;> rcases hb with hb | hb <;> subst hb <;> omega

theorem bitsOf_fromBits : ∀ (l : List Int), (∀ x ∈ l, x = 0 ∨ x = 1) →
    bitsOf (fromBits l) l.length = l
  | [], _ => rfl
  | b :: l, h => by
      have hb := h b (List.mem_cons_self _ _)
      have ih := bitsOf_fromBits l (fun x hx => h x (List.mem_cons_of_mem _ hx))
      have e1 : (b + 2 * fromBits l) % 2 = b := by rcases hb with hb | hb <;> subst hb <;> omega
      have e2 : (b + 2 * fromBits l) / 2 = fromBits l := by
        rcases hb with hb | hb <;> subst hb <;> omega
      simp only [fromBits, List.length_cons, bitsOf, e1, e2, ih]

/-- The loop of `BitToVector` overwrites `k` entries from index `i` on with the low bits
of `num`. -/
theorem BitToVectorLoop_eq : ∀ (k i : Nat) (num : Int) (v : List Int), i + k ≤ v.length →
    BitToVectorLoop k i num (num % 2) v = v.take i ++ bitsOf num k ++ v.drop (i + k)
  | 0, i, num, v, _ => by simp [BitToVectorLoop, bitsOf]
  | k + 1, i, num, v, h => by
      have hi : i < v.length := by omega
      rw [BitToVectorLoop, BitToVectorLoop_eq k (i + 1) (num / 2) _ (by simp; omega)]
      rw [take_succ_set _ _ _ hi, List.drop_set_of_lt _ _ (by omega)]
      simp only [bitsOf, List.append_assoc, List.singleton_append, List.cons_append]
      rw [show i + 1 + k = i + (k + 1) by omega]
      simp

theorem BitToVector_eq (num : Int) (n : Nat) (v : List Int) (h : v.length = n) :
    BitToVector num n v = bitsOf num n := by
  have e := BitToVectorLoop_eq n 0 num v (by omega)
  have hd : v.drop (0 + n) = [] := List.drop_eq_nil_of_le (by omega)
  simp only [BitToVector, Int.toNat_ofNat, e, hd]
  simp

/-! ## The scatter overload of `BitToVector` -/

theorem ext_getD {l1 l2 : List Int} (hlen : l1.length = l2.length)
    (h : ∀ p, p < l1.length → l1.getD p 0 = l2.getD p 0) : l1 = l2 := by
  apply List.ext_getElem hlen
  intro p h1 h2
  have := h p h1
  rwa [List.getD_eq_getElem _ _ h1, List.getD_eq_getElem _ _ h2] at this

theorem BitToVectorPosLoop_length : ∀ (k i : Nat) (num val : Int) (pos v : List Int),
    (BitToVectorPosLoop k i num val pos v).length = v.length
  | 0, _, _, _, _, _ => rfl
  | k + 1, i, num, val, pos, v => by
      rw [BitToVectorPosLoop, BitToVectorPosLoop_length k]; simp

/-- An index that is none of `pos[i], ..., pos[i + k - 1]` keeps its entry. -/
theorem BitToVectorPosLoop_untouched : ∀ (k i : Nat) (num val : Int) (pos v : List Int)
    (p : Nat), (∀ t, i ≤ t → t < i + k → (pos.getD t 0).toNat ≠ p) →
    (BitToVectorPosLoop k i num val pos v).getD p 0 = v.getD p 0
  | 0, _, _, _, _, _, _, _ => rfl
  | k + 1, i, num, val, pos, v, p, h => by
      rw [BitToVectorPosLoop, BitToVectorPosLoop_untouched k (i + 1) _ _ pos _ p
        (fun t h1 h2 => h t (by omega) (by omega))]
      exact getD_set_ne _ _ _ _ _ (h i (by omega) (by omega))

/-- The entry at `pos[t]` becomes bit `t - i` of `num`, when `pos[t]` occurs once among the
positions written. -/
theorem BitToVectorPosLoop_written : ∀ (k i : Nat) (num : Int) (pos v : List Int) (t : Nat),
    i ≤ t → t < i + k → (pos.getD t 0).toNat < v.length →
    (∀ t', i ≤ t' → t' < i + k → t' ≠ t → (pos.getD t' 0).toNat ≠ (pos.getD t 0).toNat) →
    (BitToVectorPosLoop k i num (num % 2) pos v).getD (pos.getD t 0).toNat 0 =
      (bitsOf num k).getD (t - i) 0
  | 0, i, _, _, _, t, h1, h2, _, _ => by omega
  | k + 1, i, num, pos, v, t, h1, h2, h3, h4 => by
      rw [BitToVectorPosLoop]
      by_cases hti : t = i
      · subst hti
        rw [BitToVectorPosLoop_untouched k (t + 1) _ _ pos _ _
          (fun t' h5 h6 => h4 t' (by omega) (by omega) (by omega))]
        rw [getD_set_self _ _ _ _ h3]
        simp [bitsOf]
      · have ih := BitToVectorPosLoop_written k (i + 1) (num / 2) pos
          (v.set (pos.getD i 0).toNat (num % 2)) t (by omega) (by omega)
          (by rw [List.length_set]; exact h3)
          (fun t' h5 h6 h7 => h4 t' (by omega) (by omega) h7)
        rw [ih]
        have e : t - i = (t - (i + 1)) + 1 := by omega
        rw [e]
        simp [bitsOf]

theorem markDash_length : ∀ (dash : List Int) (s : List Int),
    (dash.foldl (fun s p => s.set p.toNat 2) s).length = s.length
  | [], _ => rfl
  | p :: dash, s => by
      rw [List.foldl_cons, markDash_length dash]; simp

theorem markDash_other : ∀ (dash : List Int) (s : List Int) (q : Nat),
    (∀ p ∈ dash, p.toNat ≠ q) →
    (dash.foldl (fun s p => s.set p.toNat 2) s).getD q 0 = s.getD q 0
  | [], _, _, _ => rfl
  | p :: dash, s, q, h => by
      rw [List.foldl_cons, markDash_other dash _ q
        (fun p' hp' => h p' (List.mem_cons_of_mem _ hp'))]
      exact getD_set_ne _ _ _ _ _ (h p (List.mem_cons_self _ _))

theorem markDash_marked : ∀ (dash : List Int) (s : List Int) (q : Int),
    q ∈ dash → q.toNat < s.length →
    (dash.foldl (fun s p => s.set p.toNat 2) s).getD q.toNat 0 = 2
  | [], _, _, h, _ => by simp at h
  | p :: dash, s, q, h, hq => by
      rw [List.foldl_cons]
      by_cases hmem : ∃ p' ∈ dash, p'.toNat = q.toNat
      · obtain ⟨p', hp', e⟩ := hmem
        have := markDash_marked dash (s.set p.toNat 2) p' hp' (by rw [List.length_set, e]; exact hq)
        rwa [e] at this
      · have hne : ∀ p' ∈ dash, p'.toNat ≠ q.toNat := fun p' hp' e => hmem ⟨p', hp', e⟩
        rw [markDash_other dash _ _ hne]
        have hqp : q = p := by
          rcases List.mem_cons.1 h with h | h
          · exact h
          · exact absurd rfl (hne q h)
        subst hqp
        exact getD_set_self _ _ _ _ hq

/-- A loop over `l < dash.size()` that only reads `dash[l]` is a fold over `dash`. -/
theorem foldl_range_getD {σ : Type} (f : σ → Int → σ) : ∀ (dash : List Int) (init : σ),
    (List.range dash.length).foldl (fun s l => f s (dash.getD l 0)) init = dash.foldl f init := by
  intro dash
  induction dash using List.reverseRecOn with
  | nil => intro init; rfl
  | append_singleton dash p ih =>
      intro init
      rw [List.length_append, List.length_singleton, List.range_succ, List.foldl_append,
        List.foldl_append]
      have e : (List.range dash.length).foldl (fun s l => f s ((dash ++ [p]).getD l 0)) init =
          (List.range dash.length).foldl (fun s l => f s (dash.getD l 0)) init := by
        apply List.foldl_ext
        intro s l hl
        have hl' : l < dash.length := List.mem_range.1 hl
        rw [List.getD_append _ _ _ _ hl']
      rw [e, ih]
      simp [List.getD_append_right]

/-! ## Cube keys -/

theorem posAll_length (n : Nat) : (posAll n).length = n := by simp [posAll]

theorem posAll_nodup (n : Nat) : (posAll n).Nodup := by
  unfold posAll
  exact (List.nodup_range n).map (fun a b h => by exact_mod_cast h)

theorem mem_posAll {n : Nat} {x : Int} : x ∈ posAll n ↔ ∃ p, p < n ∧ x = (p : Int) := by
  simp only [posAll, List.mem_map, List.mem_range]
  constructor
  · rintro ⟨p, hp, rfl⟩; exact ⟨p, hp, rfl⟩
  · rintro ⟨p, hp, rfl⟩; exact ⟨p, hp, rfl⟩

theorem posAll_getD (n p : Nat) (h : p < n) : (posAll n).getD p 0 = (p : Int) := by
  rw [List.getD_eq_getElem _ _ (by rw [posAll_length]; exact h)]
  simp [posAll]

theorem map_posAll_getD (f : Int → Int) (n p : Nat) (h : p < n) :
    ((posAll n).map f).getD p 0 = f p := by
  rw [List.getD_eq_getElem _ _ (by rw [List.length_map, posAll_length]; exact h)]
  simp [posAll]

theorem eq_map_posAll (s : List Int) : s = (posAll s.length).map (fun x => s.getD x.toNat 0) := by
  apply ext_getD (by simp [posAll_length])
  intro p hp
  rw [map_posAll_getD _ _ _ hp]
  simp

theorem filter_mem_of_sublist : ∀ {d l : List Int}, d.Sublist l → l.Nodup →
    l.filter (fun x => decide (x ∈ d)) = d := by
  intro d l h
  induction h with
  | slnil => intro _; rfl
  | @cons d l a h ih =>
      intro hnd
      have ha : a ∉ d := fun hd => (List.nodup_cons.1 hnd).1 (h.subset hd)
      simp only [List.filter_cons, ha, decide_False, Bool.false_eq_true, if_false]
      exact ih (List.nodup_cons.1 hnd).2
  | @cons₂ d l a h ih =>
      intro hnd
      simp only [List.filter_cons, List.mem_cons, true_or, decide_True, if_true]
      have e : l.filter (fun x => decide (x = a ∨ x ∈ d)) =
          l.filter (fun x => decide (x ∈ d)) := by
        apply List.filter_congr
        intro x hx
        have hxa : x ≠ a := fun e => (List.nodup_cons.1 hnd).1 (e ▸ hx)
        simp [hxa]
      rw [e, ih (List.nodup_cons.1 hnd).2]

theorem chooseSpec_snd_length : ∀ (m : Nat) (l : List Int) (p : List Int × List Int),
    p ∈ chooseSpec m l → p.2.length + m = l.length
  | 0, l, p, hp => by
      simp only [chooseSpec, List.mem_singleton] at hp
      subst hp; rfl
  | _ + 1, [], p, hp => by simp [chooseSpec] at hp
  | m + 1, a :: l, p, hp => by
      simp only [chooseSpec, List.mem_append, List.mem_map] at hp
      rcases hp with ⟨q, hq, rfl⟩ | ⟨q, hq, rfl⟩
      · have := chooseSpec_snd_length m l q hq
        simp only [List.length_cons]; omega
      · have := chooseSpec_snd_length (m + 1) l q hq
        simp only [List.length_cons]; omega

theorem cubeKeyOf_length (n : Nat) (dash free : List Int) (k : Int) :
    (cubeKeyOf (posAll n) dash free k).length = n := by
  simp [cubeKeyOf, posAll_length]

theorem cubeKeyOf_getD (n : Nat) (dash free : List Int) (k : Int) (p : Nat) (h : p < n) :
    (cubeKeyOf (posAll n) dash free k).getD p 0 =
      if (p : Int) ∈ dash then 2 else (bitsOf k free.length).getD (free.indexOf (p : Int)) 0 := by
  unfold cubeKeyOf
  rw [map_posAll_getD _ _ _ h]

theorem getD_bitsOf (k : Int) (m t : Nat) :
    (bitsOf k m).getD t 0 = 0 ∨ (bitsOf k m).getD t 0 = 1 := by
  by_cases ht : t < (bitsOf k m).length
  · exact bitsOf_mem k m _ (getD_mem 0 _ t ht)
  · left
    rw [List.getD_eq_default _ _ (by omega)]

theorem cubeKeyOf_mem (n : Nat) (dash free : List Int) (k : Int) (x : Int)
    (hx : x ∈ cubeKeyOf (posAll n) dash free k) : x = 0 ∨ x = 1 ∨ x = 2 := by
  simp only [cubeKeyOf, List.mem_map] at hx
  obtain ⟨y, -, rfl⟩ := hx
  by_cases hy : y ∈ dash
  · simp [hy]
  · simp only [hy, if_false]
    rcases getD_bitsOf k free.length (free.indexOf y) with h | h
    · exact Or.inl h
    · exact Or.inr (Or.inl h)

theorem cubeKeyOf_count (n : Nat) (dash free : List Int) (k : Int)
    (hd : dash.Sublist (posAll n)) :
    (cubeKeyOf (posAll n) dash free k).count 2 = dash.length := by
  unfold cubeKeyOf
  rw [List.count, List.countP_map, List.countP_eq_length_filter]
  have e : (posAll n).filter ((fun x => x == (2 : Int)) ∘ fun x =>
      if x ∈ dash then 2 else (bitsOf k free.length).getD (free.indexOf x) 0) =
      (posAll n).filter (fun x => decide (x ∈ dash)) := by
    apply List.filter_congr
    intro x _
    by_cases hx : x ∈ dash
    · simp [hx]
    · simp only [Function.comp, hx, if_false, decide_False]
      rcases getD_bitsOf k free.length (free.indexOf x) with h | h <;> rw [h] <;> rfl
  rw [e, filter_mem_of_sublist hd (posAll_nodup n)]

theorem cubeKeyOf_isCubeKey (n : Nat) (dash free : List Int) (k : Int)
    (hd : dash.Sublist (posAll n)) : IsCubeKey n dash.length (cubeKeyOf (posAll n) dash free k) :=
  ⟨cubeKeyOf_length n dash free k, cubeKeyOf_mem n dash free k, cubeKeyOf_count n dash free k hd⟩

/-- Decoding `k` into the positions `free` of a vector whose positions `dash` hold 2 gives
the key of the cube, whatever the other entries were. -/
theorem BitToVectorPos_eq_cubeKeyOf (n : Nat) (dash free status : List Int) (k : Int)
    (hf : free = (posAll n).filter (fun x => decide (x ∉ dash)))
    (hlen : status.length = n) (hmark : ∀ x ∈ dash, status.getD x.toNat 0 = 2) :
    BitToVectorPos k free.length free status = cubeKeyOf (posAll n) dash free k := by
  have hfnd : free.Nodup := by rw [hf]; exact (posAll_nodup n).filter _
  have hfmem : ∀ x, x ∈ free ↔ x ∈ posAll n ∧ x ∉ dash := by
    intro x; rw [hf]; simp
  apply ext_getD
  · rw [cubeKeyOf_length, BitToVectorPos, BitToVectorPosLoop_length, hlen]
  · intro p hp
    rw [BitToVectorPos, BitToVectorPosLoop_length, hlen] at hp
    rw [cubeKeyOf_getD n dash free k p hp]
    by_cases hpd : (p : Int) ∈ dash
    · simp only [hpd, if_true]
      rw [BitToVectorPos, BitToVectorPosLoop_untouched]
      · simpa using hmark _ hpd
      · intro t _ ht e
        simp only [Int.toNat_ofNat, zero_add] at ht
        have hmem : free.getD t 0 ∈ free := getD_mem 0 free t ht
        obtain ⟨hP, hnd⟩ := (hfmem _).1 hmem
        obtain ⟨q, _, hq⟩ := mem_posAll.1 hP
        rw [hq] at e hnd
        simp only [Int.toNat_ofNat] at e
        rw [e] at hnd
        exact hnd hpd
    · simp only [hpd, if_false]
      have hpf : (p : Int) ∈ free := (hfmem _).2 ⟨mem_posAll.2 ⟨p, hp, rfl⟩, hpd⟩
      have ht : free.indexOf (p : Int) < free.length := List.indexOf_lt_length.2 hpf
      have hget : free.getD (free.indexOf (p : Int)) 0 = (p : Int) := by
        rw [List.getD_eq_getElem _ _ ht]; exact List.getElem_indexOf ht
      have hw := BitToVectorPosLoop_written free.length 0 k free status
        (free.indexOf (p : Int)) (Nat.zero_le _) (by omega)
        (by rw [hget, Int.toNat_ofNat, hlen]; exact hp)
        (by
          intro t' _ ht' hne e
          simp only [zero_add] at ht'
          have hm1 : free.getD t' 0 ∈ free := getD_mem 0 free t' ht'
          obtain ⟨q, _, hq⟩ := mem_posAll.1 ((hfmem _).1 hm1).1
          rw [hget, hq] at e
          simp only [Int.toNat_ofNat] at e
          rw [e] at hq
          have h1 : free[t'] = free[free.indexOf (p : Int)] := by
            rw [List.getD_eq_getElem _ _ ht'] at hq
            rw [List.getD_eq_getElem _ _ ht] at hget
            rw [hq, hget]
          exact hne ((List.Nodup.getElem_inj_iff hfnd).1 h1))
      rw [hget] at hw
      simpa [BitToVectorPos] using hw

theorem dashPositions_sublist (s : List Int) : (dashPositions s).Sublist (posAll s.length) :=
  List.filter_sublist _

theorem mem_dashPositions {s : List Int} {x : Int} :
    x ∈ dashPositions s ↔ ∃ p, p < s.length ∧ x = (p : Int) ∧ s.getD p 0 = 2 := by
  simp only [dashPositions, List.mem_filter, mem_posAll, decide_eq_true_eq]
  constructor
  · rintro ⟨⟨p, hp, rfl⟩, h⟩; exact ⟨p, hp, rfl, by simpa using h⟩
  · rintro ⟨p, hp, rfl, h⟩; exact ⟨⟨p, hp, rfl⟩, by simpa using h⟩

theorem dashPositions_length (s : List Int) : (dashPositions s).length = s.count 2 := by
  conv_rhs => rw [eq_map_posAll s]
  rw [List.count, List.countP_map, List.countP_eq_length_filter]
  unfold dashPositions
  rfl

theorem dashPositions_cubeKeyOf (n : Nat) (dash free : List Int) (k : Int)
    (hd : dash.Sublist (posAll n)) : dashPositions (cubeKeyOf (posAll n) dash free k) = dash := by
  unfold dashPositions
  rw [cubeKeyOf_length]
  have e : (posAll n).filter (fun x =>
      decide ((cubeKeyOf (posAll n) dash free k).getD x.toNat 0 = 2)) =
      (posAll n).filter (fun x => decide (x ∈ dash)) := by
    apply List.filter_congr
    intro x hx
    obtain ⟨p, hp, rfl⟩ := mem_posAll.1 hx
    rw [Int.toNat_ofNat, cubeKeyOf_getD n dash free k p hp]
    by_cases hpd : (p : Int) ∈ dash
    · simp [hpd]
    · simp only [hpd, if_false, decide_False, decide_eq_false_iff_not]
      rcases getD_bitsOf k free.length (free.indexOf (p : Int)) with h | h <;> rw [h] <;> decide
  rw [e, filter_mem_of_sublist hd (posAll_nodup n)]

/-- Every key of level `i` is formed by the loops: its DASH positions are one of the
combinations and its other entries are the bits of some `k < 2 ^ (n - i)`. -/
theorem exists_cubeKeyOf (n i : Nat) (s : List Int) (h : IsCubeKey n i s) :
    ∃ p ∈ chooseSpec i (posAll n), ∃ k : Nat, k < 2 ^ (n - i) ∧
      cubeKeyOf (posAll n) p.1 p.2 (k : Int) = s := by
  obtain ⟨hlen, hval, hcount⟩ := h
  have hd : (dashPositions s).Sublist (posAll n) := by
    have := dashPositions_sublist s; rwa [hlen] at this
  have hdl : (dashPositions s).length = i := by rw [dashPositions_length, hcount]
  obtain ⟨p, hp, hp1⟩ := List.mem_map.1 (chooseSpec_fst_mem hd hdl)
  have hf := chooseSpec_snd_eq i (posAll n) p (posAll_nodup n) hp
  have hfl := chooseSpec_snd_length i (posAll n) p hp
  rw [posAll_length] at hfl
  rw [hp1] at hf
  have hfmem : ∀ x, x ∈ p.2 ↔ x ∈ posAll n ∧ x ∉ dashPositions s := by
    intro x; rw [hf]; simp
  have hbits : ∀ b ∈ p.2.map (fun x => s.getD x.toNat 0), b = 0 ∨ b = 1 := by
    intro b hb
    obtain ⟨x, hx, rfl⟩ := List.mem_map.1 hb
    obtain ⟨hxP, hxd⟩ := (hfmem x).1 hx
    obtain ⟨q, hq, rfl⟩ := mem_posAll.1 hxP
    rw [Int.toNat_ofNat]
    have h2 : s.getD q 0 ≠ 2 := fun e => hxd (mem_dashPositions.2 ⟨q, by omega, rfl, e⟩)
    rcases hval _ (getD_mem 0 s q (by omega)) with h0 | h1 | h2'
    · exact Or.inl h0
    · exact Or.inr h1
    · exact absurd h2' h2
  obtain ⟨hb0, hb1⟩ := fromBits_bounds _ hbits
  rw [List.length_map] at hb1
  refine ⟨p, hp, (fromBits (p.2.map (fun x => s.getD x.toNat 0))).toNat, ?_, ?_⟩
  · have e : n - i = p.2.length := by omega
    rw [e]
    have : ((fromBits (p.2.map (fun x => s.getD x.toNat 0))).toNat : Int) < ((2 ^ p.2.length : Nat) : Int) := by
      rw [Int.toNat_of_nonneg hb0]; exact_mod_cast hb1
    exact_mod_cast this
  · rw [Int.toNat_of_nonneg hb0, hp1]
    apply ext_getD (by rw [cubeKeyOf_length, hlen])
    intro q hq
    rw [cubeKeyOf_length] at hq
    rw [cubeKeyOf_getD n _ _ _ q hq]
    by_cases hqd : (q : Int) ∈ dashPositions s
    · obtain ⟨q', _, e, h2⟩ := mem_dashPositions.1 hqd
      have : q = q' := by exact_mod_cast e
      subst this
      rw [if_pos hqd, h2]
    · simp only [hqd, if_false]
      have hqf : (q : Int) ∈ p.2 := (hfmem _).2 ⟨mem_posAll.2 ⟨q, hq, rfl⟩, hqd⟩
      have ht : p.2.indexOf (q : Int) < p.2.length := List.indexOf_lt_length.2 hqf
      have hbo := bitsOf_fromBits _ hbits
      rw [List.length_map] at hbo
      rw [hbo, List.getD_eq_getElem _ _ (by rw [List.length_map]; exact ht)]
      simp [List.getElem_indexOf ht]

theorem isCubeKey_set (n i : Nat) (s : List Int) (p : Nat) (b : Int) (h : IsCubeKey n (i + 1) s)
    (hp : p < n) (h2 : s.getD p 0 = 2) (hb : b = 0 ∨ b = 1) : IsCubeKey n i (s.set p b) := by
  obtain ⟨hlen, hval, hcount⟩ := h
  refine ⟨by rw [List.length_set, hlen], ?_, ?_⟩
  · intro x hx
    rcases mem_of_mem_set hx with e | hx'
    · rcases hb with hb | hb
      · exact Or.inl (e.trans hb)
      · exact Or.inr (Or.inl (e.trans hb))
    · exact hval x hx'
  · have hb2 : b ≠ 2 := by rcases hb with hb | hb <;> rw [hb] <;> decide
    have := count_set_of_dash b hb2 s p (by omega) h2
    omega

theorem isCubeKey_zero_isRow {n : Nat} {s : List Int} (h : IsCubeKey n 0 s) : IsRow n s := by
  obtain ⟨hlen, hval, hcount⟩ := h
  refine ⟨hlen, fun x hx => ?_⟩
  rcases hval x hx with h0 | h1 | h2
  · exact Or.inl h0
  · exact Or.inr h1
  · subst h2
    exact absurd hx (List.count_eq_zero.1 hcount)

theorem isRow_isCubeKey_zero {n : Nat} {s : List Int} (h : IsRow n s) : IsCubeKey n 0 s := by
  refine ⟨h.1, fun x hx => ?_, ?_⟩
  · rcases h.2 x hx with h0 | h1
    · exact Or.inl h0
    · exact Or.inr (Or.inl h1)
  · apply List.count_eq_zero.2
    intro hx
    rcases h.2 2 hx with h0 | h1
    · exact absurd h0 (by decide)
    · exact absurd h1 (by decide)

theorem covers_row {n : Nat} {s v : List Int} (hs : IsRow n s) :
    Covers s v ↔ v = s := by
  constructor
  · rintro ⟨hlen, h⟩
    apply ext_getD hlen.symm
    intro p hp
    rw [← hlen] at hp
    rcases h p hp with h2 | he
    · rcases hs.2 _ (getD_mem 0 s p hp) with h0 | h1
      · rw [h0] at h2; exact absurd h2 (by decide)
      · rw [h1] at h2; exact absurd h2 (by decide)
    · exact he.symm
  · rintro rfl
    exact ⟨rfl, fun p _ => Or.inr rfl⟩

theorem covers_of_covers_set {s v : List Int} {p : Nat} {b : Int} (h2 : s.getD p 0 = 2)
    (h : Covers (s.set p b) v) : Covers s v := by
  obtain ⟨hlen, hc⟩ := h
  rw [List.length_set] at hlen hc
  refine ⟨hlen, fun q hq => ?_⟩
  by_cases hqp : p = q
  · subst hqp; exact Or.inl h2
  · have := hc q hq
    rwa [getD_set_ne _ _ _ _ _ hqp] at this

theorem covers_set_of_covers {s v : List Int} {p : Nat} (hp : p < s.length)
    (h : Covers s v) : Covers (s.set p (v.getD p 0)) v := by
  obtain ⟨hlen, hc⟩ := h
  refine ⟨by rw [List.length_set, hlen], fun q hq => ?_⟩
  rw [List.length_set] at hq
  by_cases hqp : p = q
  · subst hqp
    right
    exact getD_set_self _ _ _ _ hp
  · rw [getD_set_ne _ _ _ _ _ hqp]
    exact hc q hq

/-! ## Cube tables -/

theorem find_emplace_self (t : CudeTable) (k : List Int) (c : Cude) :
    ∃ c', (t.emplace k c).find k = some c' := by
  unfold CudeTable.emplace
  cases h : t.find k with
  | some c' => exact ⟨c', by simpa using h⟩
  | none => exact ⟨c, by simp [CudeTable.find]⟩

theorem find_emplace_of_find (t : CudeTable) (k k' : List Int) (c c' : Cude)
    (h : t.find k' = some c') : (t.emplace k c).find k' = some c' := by
  unfold CudeTable.emplace
  cases hk : t.find k with
  | some _ => simpa using h
  | none =>
      have hne : k ≠ k' := by
        rintro rfl
        rw [h] at hk
        exact absurd hk (by simp)
      simp [CudeTable.find, hne, h]

theorem find_emplace_cases (t : CudeTable) (k k' : List Int) (c c' : Cude)
    (h : (t.emplace k c).find k' = some c') : t.find k' = some c' ∨ (k' = k ∧ c' = c) := by
  unfold CudeTable.emplace at h
  cases hk : t.find k with
  | some _ =>
      rw [hk] at h
      exact Or.inl h
  | none =>
      rw [hk] at h
      simp only [CudeTable.find] at h
      by_cases hkk : k = k'
      · rw [if_pos hkk] at h
        exact Or.inr ⟨hkk.symm, (Option.some.inj h).symm⟩
      · rw [if_neg hkk] at h
        exact Or.inl h

theorem index_of_find (t : CudeTable) (k : List Int) (c : Cude) (h : t.find k = some c) :
    t.index k = (c, t) := by
  unfold CudeTable.index
  rw [h]

/-! ## The candidate-split loop -/

/-- When the level below holds both children, an iteration of the source loop reads them,
leaves that level alone and restores `status`. -/
theorem splitStep_eq_bestStep (last : CudeTable) (s : List Int) (st : SplitState) (p : Int)
    (hs : st.status = s) (hl : st.last_ct = last) (h2 : s.getD p.toNat 0 = 2)
    (h0 : ∃ c, last.find (s.set p.toNat 0) = some c)
    (h1 : ∃ c, last.find (s.set p.toNat 1) = some c) :
    splitStep p st = bestStep last s st p := by
  obtain ⟨c0, hc0⟩ := h0
  obtain ⟨c1, hc1⟩ := h1
  have e1 : (s.set p.toNat 0).set p.toNat 1 = s.set p.toNat 1 := set_set_same _ _ _ _
  have e2 : (s.set p.toNat 1).set p.toNat 2 = s := by
    rw [set_set_same, ← h2, set_getD_self]
  have k0 : childCube last s p 0 = c0 := by simp [childCube, hc0]
  have k1 : childCube last s p 1 = c1 := by simp [childCube, hc1]
  simp only [splitStep, bestStep, candGain, hs, hl, e1, e2, index_of_find _ _ _ hc0,
    index_of_find _ _ _ hc1, k0, k1]

theorem bestStep_status (last : CudeTable) (s : List Int) (st : SplitState) (p : Int) :
    (bestStep last s st p).status = s ∧ (bestStep last s st p).last_ct = last := by
  unfold bestStep
  split <;> exact ⟨rfl, rfl⟩

theorem splitLoop_eq : ∀ (dash : List Int) (last : CudeTable) (s : List Int) (st : SplitState),
    st.status = s → st.last_ct = last →
    (∀ p ∈ dash, s.getD p.toNat 0 = 2 ∧ (∃ c, last.find (s.set p.toNat 0) = some c) ∧
      (∃ c, last.find (s.set p.toNat 1) = some c)) →
    dash.foldl (fun st p => splitStep p st) st = dash.foldl (bestStep last s) st
  | [], _, _, _, _, _, _ => rfl
  | p :: dash, last, s, st, hs, hl, h => by
      obtain ⟨h2, h0, h1⟩ := h p (List.mem_cons_self _ _)
      rw [List.foldl_cons, List.foldl_cons, splitStep_eq_bestStep last s st p hs hl h2 h0 h1]
      exact splitLoop_eq dash last s _ (bestStep_status last s st p).1
        (bestStep_status last s st p).2 (fun q hq => h q (List.mem_cons_of_mem _ hq))

/-- The loop keeps the first position of largest gain among those that beat the initial
`max_gain`. -/
theorem bestLoop_spec (last : CudeTable) (s : List Int) : ∀ (dash : List Int) (st : SplitState),
    (dash.foldl (bestStep last s) st = st ∧ dash = []) ∨
    ((dash.foldl (bestStep last s) st).status = s ∧
     (dash.foldl (bestStep last s) st).last_ct = last ∧
     (dash.foldl (bestStep last s) st).max_idx = st.max_idx ∧
     (dash.foldl (bestStep last s) st).max_gain = st.max_gain ∧
     (dash.foldl (bestStep last s) st).max_cude0 = st.max_cude0 ∧
     (dash.foldl (bestStep last s) st).max_cude1 = st.max_cude1 ∧
     ∀ q ∈ dash, candGain last s q ≤ st.max_gain) ∨
    ((dash.foldl (bestStep last s) st).status = s ∧
     (dash.foldl (bestStep last s) st).last_ct = last ∧
     ∃ pre post, dash = pre ++ (dash.foldl (bestStep last s) st).max_idx :: post ∧
      (dash.foldl (bestStep last s) st).max_gain =
        candGain last s (dash.foldl (bestStep last s) st).max_idx ∧
      (dash.foldl (bestStep last s) st).max_cude0 =
        childCube last s (dash.foldl (bestStep last s) st).max_idx 0 ∧
      (dash.foldl (bestStep last s) st).max_cude1 =
        childCube last s (dash.foldl (bestStep last s) st).max_idx 1 ∧
      st.max_gain < (dash.foldl (bestStep last s) st).max_gain ∧
      (∀ q ∈ pre, candGain last s q < (dash.foldl (bestStep last s) st).max_gain) ∧
      (∀ q ∈ post, candGain last s q ≤ (dash.foldl (bestStep last s) st).max_gain))
  | [], st => Or.inl ⟨rfl, rfl⟩
  | p :: dash, st => by
      rw [List.foldl_cons]
      by_cases hg : candGain last s p > st.max_gain
      · have f1 : (bestStep last s st p).max_idx = p := by unfold bestStep; rw [if_pos hg]
        have f2 : (bestStep last s st p).max_gain = candGain last s p := by
          unfold bestStep; rw [if_pos hg]
        have f3 : (bestStep last s st p).max_cude0 = childCube last s p 0 := by
          unfold bestStep; rw [if_pos hg]
        have f4 : (bestStep last s st p).max_cude1 = childCube last s p 1 := by
          unfold bestStep; rw [if_pos hg]
        have f5 := bestStep_status last s st p
        generalize bestStep last s st p = st' at f1 f2 f3 f4 f5 ⊢
        rcases bestLoop_spec last s dash st' with
          ⟨h, hd⟩ | ⟨a1, a2, a3, a4, a5, a6, a7⟩ | ⟨a1, a2, pre, post, b1, b2, b3, b4, b5, b6, b7⟩
        · subst hd
          right; right
          simp only [List.foldl_nil] at h ⊢
          exact ⟨f5.1, f5.2, [], [], by rw [f1]; rfl, by rw [f2, f1], by rw [f3, f1],
            by rw [f4, f1], by rw [f2]; exact hg, by simp, by simp⟩
        · right; right
          refine ⟨a1, a2, [], dash, ?_, ?_, ?_, ?_, ?_, by simp, ?_⟩
          · rw [a3, f1]; rfl
          · rw [a4, a3, f2, f1]
          · rw [a5, a3, f3, f1]
          · rw [a6, a3, f4, f1]
          · rw [a4, f2]; exact hg
          · rw [a4]; exact a7
        · right; right
          rw [f2] at b5
          refine ⟨a1, a2, p :: pre, post, ?_, b2, b3, b4, by omega, ?_, b7⟩
          · rw [List.cons_append, ← b1]
          · intro q hq
            rcases List.mem_cons.1 hq with e | hq'
            · rw [e]; exact b5
            · exact b6 q hq'
      · have f1 : (bestStep last s st p).max_idx = st.max_idx := by
          unfold bestStep; rw [if_neg hg]
        have f2 : (bestStep last s st p).max_gain = st.max_gain := by
          unfold bestStep; rw [if_neg hg]
        have f3 : (bestStep last s st p).max_cude0 = st.max_cude0 := by
          unfold bestStep; rw [if_neg hg]
        have f4 : (bestStep last s st p).max_cude1 = st.max_cude1 := by
          unfold bestStep; rw [if_neg hg]
        have f5 := bestStep_status last s st p
        generalize bestStep last s st p = st' at f1 f2 f3 f4 f5 ⊢
        rcases bestLoop_spec last s dash st' with
          ⟨h, hd⟩ | ⟨a1, a2, a3, a4, a5, a6, a7⟩ | ⟨a1, a2, pre, post, b1, b2, b3, b4, b5, b6, b7⟩
        · subst hd
          right; left
          simp only [List.foldl_nil] at h ⊢
          refine ⟨f5.1, f5.2, f1, f2, f3, f4, ?_⟩
          intro q hq
          rw [List.mem_singleton.1 hq]; omega
        · right; left
          refine ⟨a1, a2, a3.trans f1, a4.trans f2, a5.trans f3, a6.trans f4, ?_⟩
          intro q hq
          rcases List.mem_cons.1 hq with e | hq'
          · rw [e]; omega
          · rw [← f2]; exact a7 q hq'
        · right; right
          rw [f2] at b5
          refine ⟨a1, a2, p :: pre, post, ?_, b2, b3, b4, b5, ?_, b7⟩
          · rw [List.cons_append, ← b1]
          · intro q hq
            rcases List.mem_cons.1 hq with e | hq'
            · rw [e]; omega
            · exact b6 q hq'

theorem bestLoop_status (last : CudeTable) (s : List Int) (dash : List Int) :
    (dash.foldl (bestStep last s) (splitInit last s)).status = s ∧
    (dash.foldl (bestStep last s) (splitInit last s)).last_ct = last := by
  rcases bestLoop_spec last s dash (splitInit last s) with
    ⟨h, _⟩ | ⟨a1, a2, _⟩ | ⟨a1, a2, _⟩
  · rw [h]; exact ⟨rfl, rfl⟩
  · exact ⟨a1, a2⟩
  · exact ⟨a1, a2⟩

/-- The cube stored for a key with at least one DASH position: its `dash_pos` is the first
DASH position of largest candidate gain, its gain is that gain and its action set is the
union of the action sets of the two children at `dash_pos`. -/
theorem storedCube_spec (last : CudeTable) (s : List Int) (dash : List Int) (hne : dash ≠ [])
    (hpos : ∀ q ∈ dash, INT32_MIN < candGain last s q) :
    ∃ pre post, dash = pre ++ (storedCube last s dash).dash_pos :: post ∧
      (storedCube last s dash).gain = candGain last s (storedCube last s dash).dash_pos ∧
      (storedCube last s dash).action =
        (childCube last s (storedCube last s dash).dash_pos 0).action ∪
          (childCube last s (storedCube last s dash).dash_pos 1).action ∧
      (∀ q ∈ pre, candGain last s q < (storedCube last s dash).gain) ∧
      (∀ q ∈ post, candGain last s q ≤ (storedCube last s dash).gain) := by
  rcases bestLoop_spec last s dash (splitInit last s) with
    ⟨_, hd⟩ | ⟨_, _, _, _, _, _, a7⟩ | ⟨_, _, pre, post, b1, b2, b3, b4, _, b6, b7⟩
  · exact absurd hd hne
  · obtain ⟨q, hq⟩ := List.exists_mem_of_ne_nil dash hne
    have h1 := a7 q hq
    have h2 := hpos q hq
    simp only [splitInit] at h1
    omega
  · refine ⟨pre, post, b1, b2, ?_, b6, b7⟩
    simp only [storedCube, Cude.new]
    rw [b3, b4]

/-- The body of the loop over `k` stores, for the key formed from `dash`, `free` and `k`,
the cube computed from the level below, which it leaves unchanged. -/
theorem cubeStep_eq (n i : Nat) (last : CudeTable) (dash free : List Int) (st : LevelState)
    (k : Nat) (hi : 1 ≤ i) (hcomp : LevelComplete n (i - 1) last)
    (hd : dash.Sublist (posAll n)) (hdl : dash.length = i)
    (hf : free = (posAll n).filter (fun x => decide (x ∉ dash)))
    (hfl : free.length = n - i)
    (hlen : st.status.length = n) (hlast : st.last_ct = last)
    (hmark : ∀ x ∈ dash, st.status.getD x.toNat 0 = 2) :
    cubeStep i (n - i) dash free st k =
      { status := cubeKeyOf (posAll n) dash free k, last_ct := last,
        cur_ct := st.cur_ct.emplace (cubeKeyOf (posAll n) dash free k)
          (storedCube last (cubeKeyOf (posAll n) dash free k) dash) } := by
  have hkey : BitToVectorPos (k : Int) ((n - i : Nat) : Int) free st.status =
      cubeKeyOf (posAll n) dash free k := by
    rw [← hfl]
    exact BitToVectorPos_eq_cubeKeyOf n dash free st.status k hf hlen hmark
  have hck : IsCubeKey n i (cubeKeyOf (posAll n) dash free k) := by
    have := cubeKeyOf_isCubeKey n dash free k hd
    rwa [hdl] at this
  have hloop : (List.range i).foldl (fun s l => splitStep (dash.getD l 0) s)
      (splitInit last (cubeKeyOf (posAll n) dash free k)) =
      dash.foldl (bestStep last (cubeKeyOf (posAll n) dash free k))
        (splitInit last (cubeKeyOf (posAll n) dash free k)) := by
    rw [← hdl, foldl_range_getD (fun s p => splitStep p s) dash]
    apply splitLoop_eq dash last _ _ rfl rfl
    intro p hp
    obtain ⟨q, hq, rfl⟩ := mem_posAll.1 (hd.subset hp)
    have h2 : (cubeKeyOf (posAll n) dash free k).getD q 0 = 2 := by
      rw [cubeKeyOf_getD n dash free k q hq, if_pos hp]
    have hck' : IsCubeKey n ((i - 1) + 1) (cubeKeyOf (posAll n) dash free k) := by
      rwa [Nat.sub_add_cancel hi]
    rw [Int.toNat_ofNat]
    exact ⟨h2, hcomp _ (isCubeKey_set n (i - 1) _ q 0 hck' hq h2 (Or.inl rfl)),
      hcomp _ (isCubeKey_set n (i - 1) _ q 1 hck' hq h2 (Or.inr rfl))⟩
  have hst := bestLoop_status last (cubeKeyOf (posAll n) dash free k) dash
  simp only [cubeStep, hkey, hlast]
  simp only [splitInit] at hloop hst
  rw [hloop, hst.1, hst.2]
  rfl

theorem cubeStep_inv (n i : Nat) (last : CudeTable) (dash free : List Int) (st : LevelState)
    (k : Nat) (hi : 1 ≤ i) (hcomp : LevelComplete n (i - 1) last)
    (hd : dash.Sublist (posAll n)) (hdl : dash.length = i)
    (hf : free = (posAll n).filter (fun x => decide (x ∉ dash)))
    (hfl : free.length = n - i)
    (hinv : LevelInv n i last st) (hmark : ∀ x ∈ dash, st.status.getD x.toNat 0 = 2) :
    LevelInv n i last (cubeStep i (n - i) dash free st k) ∧
    (∀ x ∈ dash, (cubeStep i (n - i) dash free st k).status.getD x.toNat 0 = 2) ∧
    Grows st (cubeStep i (n - i) dash free st k) ∧
    ∃ c, (cubeStep i (n - i) dash free st k).cur_ct.find (cubeKeyOf (posAll n) dash free k)
      = some c := by
  obtain ⟨hlen, hlast, hsound⟩ := hinv
  rw [cubeStep_eq n i last dash free st k hi hcomp hd hdl hf hfl hlen hlast hmark]
  have hck : IsCubeKey n i (cubeKeyOf (posAll n) dash free k) := by
    have := cubeKeyOf_isCubeKey n dash free k hd
    rwa [hdl] at this
  refine ⟨⟨cubeKeyOf_length n dash free k, rfl, ?_⟩, ?_, ?_, find_emplace_self _ _ _⟩
  · intro s c hfind
    rcases find_emplace_cases _ _ _ _ _ hfind with h | ⟨rfl, rfl⟩
    · exact hsound s c h
    · exact ⟨hck, by rw [dashPositions_cubeKeyOf n dash free k hd]⟩
  · intro x hx
    obtain ⟨q, hq, rfl⟩ := mem_posAll.1 (hd.subset hx)
    simp only [Int.toNat_ofNat]
    rw [cubeKeyOf_getD n dash free k q hq, if_pos hx]
  · intro s c hfind
    exact find_emplace_of_find _ _ _ _ _ hfind

theorem grows_refl (st : LevelState) : Grows st st := fun _ _ h => h

theorem grows_trans {a b c : LevelState} (h1 : Grows a b) (h2 : Grows b c) : Grows a c :=
  fun s x h => h2 s x (h1 s x h)

/-- The loop over `k`, for any list of assignment numbers. -/
theorem cubeLoop_inv (n i : Nat) (last : CudeTable) (dash free : List Int) (hi : 1 ≤ i)
    (hcomp : LevelComplete n (i - 1) last)
    (hd : dash.Sublist (posAll n)) (hdl : dash.length = i)
    (hf : free = (posAll n).filter (fun x => decide (x ∉ dash)))
    (hfl : free.length = n - i) : ∀ (ks : List Nat) (st : LevelState),
    LevelInv n i last st → (∀ x ∈ dash, st.status.getD x.toNat 0 = 2) →
    LevelInv n i last (ks.foldl (cubeStep i (n - i) dash free) st) ∧
    Grows st (ks.foldl (cubeStep i (n - i) dash free) st) ∧
    ∀ k ∈ ks, ∃ c, (ks.foldl (cubeStep i (n - i) dash free) st).cur_ct.find
      (cubeKeyOf (posAll n) dash free k) = some c
  | [], st, hinv, _ => ⟨hinv, grows_refl st, by simp⟩
  | k :: ks, st, hinv, hmark => by
      obtain ⟨a1, a2, a3, c, a4⟩ :=
        cubeStep_inv n i last dash free st k hi hcomp hd hdl hf hfl hinv hmark
      obtain ⟨b1, b2, b3⟩ := cubeLoop_inv n i last dash free hi hcomp hd hdl hf hfl ks _ a1 a2
      rw [List.foldl_cons]
      refine ⟨b1, grows_trans a3 b2, ?_⟩
      intro k' hk'
      rcases List.mem_cons.1 hk' with rfl | hk''
      · exact ⟨c, b2 _ _ a4⟩
      · exact b3 k' hk''

/-! ## The loops over the combinations and over the levels -/

theorem combinationStep_inv (n i : Nat) (last : CudeTable) (hi : 1 ≤ i) (hin : i ≤ n)
    (hcomp : LevelComplete n (i - 1) last) (st : LevelState) (j : Nat)
    (hj : j < (chooseSpec i (posAll n)).length) (hinv : LevelInv n i last st) :
    LevelInv n i last (combinationStep n i ((chooseSpec i (posAll n)).map Prod.fst)
      ((chooseSpec i (posAll n)).map Prod.snd) st j) ∧
    Grows st (combinationStep n i ((chooseSpec i (posAll n)).map Prod.fst)
      ((chooseSpec i (posAll n)).map Prod.snd) st j) ∧
    ∀ k : Nat, k < 2 ^ (n - i) → ∃ c, (combinationStep n i ((chooseSpec i (posAll n)).map Prod.fst)
      ((chooseSpec i (posAll n)).map Prod.snd) st j).cur_ct.find
        (cubeKeyOf (posAll n) (chooseSpec i (posAll n))[j].1 (chooseSpec i (posAll n))[j].2 (k : Int))
          = some c := by
  obtain ⟨e1, e2⟩ := getD_map_fst_snd (chooseSpec i (posAll n)) j hj
  have hmem : (chooseSpec i (posAll n))[j] ∈ chooseSpec i (posAll n) := List.getElem_mem _
  generalize (chooseSpec i (posAll n))[j] = p at e1 e2 hmem
  obtain ⟨hd, hdl⟩ := chooseSpec_fst_sublist hmem
  have hf := chooseSpec_snd_eq i (posAll n) p (posAll_nodup n) hmem
  have hfl : p.2.length = n - i := by
    have := chooseSpec_snd_length i (posAll n) p hmem
    rw [posAll_length] at this; omega
  obtain ⟨hlen, hlast, hsound⟩ := hinv
  have hmarkeq : (List.range i).foldl (fun s k => s.set (p.1.getD k 0).toNat 2) st.status =
      p.1.foldl (fun s x => s.set x.toNat 2) st.status := by
    rw [← hdl]
    exact foldl_range_getD (fun s x => s.set x.toNat 2) p.1 st.status
  have hinv' : LevelInv n i last
      { st with status := p.1.foldl (fun s x => s.set x.toNat 2) st.status } :=
    ⟨by rw [markDash_length]; exact hlen, hlast, hsound⟩
  have hmark : ∀ x ∈ p.1,
      (p.1.foldl (fun s x => s.set x.toNat 2) st.status).getD x.toNat 0 = 2 := by
    intro x hx
    obtain ⟨q, hq, rfl⟩ := mem_posAll.1 (hd.subset hx)
    exact markDash_marked p.1 st.status _ hx (by rw [Int.toNat_ofNat, hlen]; exact hq)
  obtain ⟨a1, a2, a3⟩ := cubeLoop_inv n i last p.1 p.2 hi hcomp hd hdl hf hfl
    (List.range (2 ^ (n - i))) _ hinv' hmark
  simp only [combinationStep, e1, e2, hmarkeq]
  exact ⟨a1, fun s c h => a2 s c h, fun k hk => a3 k (List.mem_range.2 hk)⟩

/-- The loop over `j`, for any list of combination numbers. -/
theorem combinationLoop_inv (n i : Nat) (last : CudeTable) (hi : 1 ≤ i) (hin : i ≤ n)
    (hcomp : LevelComplete n (i - 1) last) : ∀ (js : List Nat) (st : LevelState),
    (∀ j ∈ js, j < (chooseSpec i (posAll n)).length) → LevelInv n i last st →
    LevelInv n i last (js.foldl (combinationStep n i ((chooseSpec i (posAll n)).map Prod.fst)
      ((chooseSpec i (posAll n)).map Prod.snd)) st) ∧
    Grows st (js.foldl (combinationStep n i ((chooseSpec i (posAll n)).map Prod.fst)
      ((chooseSpec i (posAll n)).map Prod.snd)) st) ∧
    ∀ j ∈ js, ∀ k : Nat, k < 2 ^ (n - i) → ∃ c,
      (js.foldl (combinationStep n i ((chooseSpec i (posAll n)).map Prod.fst)
        ((chooseSpec i (posAll n)).map Prod.snd)) st).cur_ct.find
        (cubeKeyOf (posAll n) ((chooseSpec i (posAll n)).getD j ([], [])).1
          ((chooseSpec i (posAll n)).getD j ([], [])).2 (k : Int)) = some c
  | [], st, _, hinv => ⟨hinv, grows_refl st, by simp⟩
  | j :: js, st, hjs, hinv => by
      have hj := hjs j (List.mem_cons_self _ _)
      obtain ⟨a1, a2, a3⟩ := combinationStep_inv n i last hi hin hcomp st j hj hinv
      obtain ⟨b1, b2, b3⟩ := combinationLoop_inv n i last hi hin hcomp js _
        (fun j' hj' => hjs j' (List.mem_cons_of_mem _ hj')) a1
      rw [List.foldl_cons]
      refine ⟨b1, grows_trans a2 b2, ?_⟩
      intro j' hj' k hk
      rcases List.mem_cons.1 hj' with rfl | hj''
      · obtain ⟨c, hc⟩ := a3 k hk
        rw [List.getD_eq_getElem _ _ hj]
        exact ⟨c, b2 _ _ hc⟩
      · exact b3 j' hj'' k hk

/-- Building level `i` from a complete level `i - 1`: the level below is unchanged, and the
new level holds every key of level `i`, each with the cube computed from the level below. -/
theorem levelStep_spec (n i : Nat) (st : BuildState) (hi : 1 ≤ i) (hin : i ≤ n)
    (hlen : st.status.length = n)
    (hcomp : LevelComplete n (i - 1) (st.cude_tables.getD (i - 1) []))
    (hcur : st.cude_tables.getD i [] = []) :
    ∃ cur : CudeTable,
      (levelStep n (posAll n) st i).cude_tables = st.cude_tables.set i cur ∧
      (levelStep n (posAll n) st i).status.length = n ∧
      LevelComplete n i cur ∧
      ∀ s c, cur.find s = some c → IsCubeKey n i s ∧
        c = storedCube (st.cude_tables.getD (i - 1) []) s (dashPositions s) := by
  have hcomb : Combinate (i : Int) (posAll n) [] [] =
      ((chooseSpec i (posAll n)).map Prod.fst, (chooseSpec i (posAll n)).map Prod.snd) :=
    Combinate_eq_chooseSpec i (posAll n) [] [] (by rw [posAll_length]; exact hin)
  have hinv0 : LevelInv n i (st.cude_tables.getD (i - 1) [])
      { status := st.status, last_ct := st.cude_tables.getD (i - 1) [],
        cur_ct := st.cude_tables.getD i [] } := by
    refine ⟨hlen, rfl, ?_⟩
    intro s c h
    rw [hcur] at h
    simp [CudeTable.find] at h
  obtain ⟨a1, -, a3⟩ := combinationLoop_inv n i _ hi hin hcomp
    (List.range (chooseSpec i (posAll n)).length) _
    (fun j hj => List.mem_range.1 hj) hinv0
  simp only [levelStep, hcomb, List.length_map]
  generalize (List.range (chooseSpec i (posAll n)).length).foldl
    (combinationStep n i ((chooseSpec i (posAll n)).map Prod.fst)
      ((chooseSpec i (posAll n)).map Prod.snd))
    { status := st.status, last_ct := st.cude_tables.getD (i - 1) [],
      cur_ct := st.cude_tables.getD i [] } = r at a1 a3
  obtain ⟨b1, b2, b3⟩ := a1
  refine ⟨r.cur_ct, ?_, b1, ?_, b3⟩
  · rw [b2]
    congr 1
    apply List.ext_getElem (by simp)
    intro q h1 h2
    by_cases hq : i - 1 = q
    · subst hq
      rw [List.getElem_set_self, List.getD_eq_getElem _ _ h2]
    · rw [List.getElem_set_ne hq]
  · intro s hs
    obtain ⟨p, hp, k, hk, rfl⟩ := exists_cubeKeyOf n i s hs
    obtain ⟨j, hj, rfl⟩ := List.getElem_of_mem hp
    have := a3 j (List.mem_range.2 hj) k hk
    rwa [List.getD_eq_getElem _ _ hj] at this

/-- The 0-cude loop, for any list of row numbers. -/
theorem zeroLoop_inv (n : Nat) (table : SingleActionDecisionTable) :
    ∀ (ks : List Nat) (st : List Int × CudeTable), st.1.length = n →
    (∀ s c, st.2.find s = some c →
      IsRow n s ∧ c = { Cude.default with action := {table.Test s} }) →
    ((ks.foldl (zeroCudeStep n table) st).1.length = n) ∧
    (∀ s c, (ks.foldl (zeroCudeStep n table) st).2.find s = some c →
      IsRow n s ∧ c = { Cude.default with action := {table.Test s} }) ∧
    (∀ s c, st.2.find s = some c → (ks.foldl (zeroCudeStep n table) st).2.find s = some c) ∧
    ∀ k ∈ ks, ∃ c, (ks.foldl (zeroCudeStep n table) st).2.find (bitsOf (k : Int) n) = some c
  | [], st, hlen, hs => ⟨hlen, hs, fun _ _ h => h, by simp⟩
  | k :: ks, st, hlen, hs => by
      have hstep : zeroCudeStep n table st k =
          (bitsOf (k : Int) n, st.2.emplace (bitsOf (k : Int) n)
            { Cude.default with action := {table.Test (bitsOf (k : Int) n)} }) := by
        simp only [zeroCudeStep, BitToVector_eq (k : Int) n st.1 hlen]
      obtain ⟨a1, a2, a3, a4⟩ := zeroLoop_inv n table ks (zeroCudeStep n table st k)
        (by rw [hstep]; exact bitsOf_length _ n)
        (by
          rw [hstep]
          intro s c h
          rcases find_emplace_cases _ _ _ _ _ h with h' | ⟨rfl, rfl⟩
          · exact hs s c h'
          · exact ⟨bitsOf_isRow _ n, rfl⟩)
      rw [List.foldl_cons]
      refine ⟨a1, a2, ?_, ?_⟩
      · intro s c h
        apply a3
        rw [hstep]
        exact find_emplace_of_find _ _ _ _ _ h
      · intro k' hk'
        rcases List.mem_cons.1 hk' with rfl | hk''
        · obtain ⟨c, hc⟩ := find_emplace_self st.2 (bitsOf (k' : Int) n)
            { Cude.default with action := {table.Test (bitsOf (k' : Int) n)} }
          refine ⟨c, a3 _ _ ?_⟩
          rw [hstep]; exact hc
        · exact a4 k' hk''

theorem getD_set_list {α : Type} (d x : α) (l : List α) (i j : Nat) (hi : i < l.length) :
    (l.set i x).getD j d = if i = j then x else l.getD j d := by
  by_cases h : i = j
  · subst h; rw [if_pos rfl]; exact getD_set_self x d l i hi
  · rw [if_neg h]; exact getD_set_ne x d l i j h

theorem tablesInv_zero (n : Nat) (table : SingleActionDecisionTable) :
    TablesInv n table 0
      { status := ((List.range (2 ^ n)).foldl (zeroCudeStep n table)
          (List.replicate n (0 : Int), [])).1,
        cude_tables := (List.replicate (n + 1) ([] : CudeTable)).set 0
          ((List.range (2 ^ n)).foldl (zeroCudeStep n table)
            (List.replicate n (0 : Int), [])).2 } := by
  obtain ⟨a1, a2, -, a4⟩ := zeroLoop_inv n table (List.range (2 ^ n))
    (List.replicate n (0 : Int), []) (by simp) (by intro s c h; simp [CudeTable.find] at h)
  have hget : ∀ j, ((List.replicate (n + 1) ([] : CudeTable)).set 0
      ((List.range (2 ^ n)).foldl (zeroCudeStep n table)
        (List.replicate n (0 : Int), [])).2).getD j [] =
      if 0 = j then ((List.range (2 ^ n)).foldl (zeroCudeStep n table)
        (List.replicate n (0 : Int), [])).2 else [] := by
    intro j
    rw [getD_set_list _ _ _ _ _ (by simp)]
    by_cases hj : 0 = j
    · rw [if_pos hj, if_pos hj]
    · rw [if_neg hj, if_neg hj]
      by_cases hj' : j < n + 1
      · rw [List.getD_eq_getElem _ _ (by simpa using hj')]; simp
      · rw [List.getD_eq_default _ _ (by simp; omega)]
  refine ⟨a1, by simp, ?_, ?_, ?_, ?_⟩
  · intro s c h
    rw [hget 0, if_pos rfl] at h
    exact a2 s c h
  · intro j hj s hs
    have hj0 : j = 0 := by omega
    subst hj0
    rw [hget 0, if_pos rfl]
    have hrow := isCubeKey_zero_isRow hs
    obtain ⟨hb0, hb1⟩ := fromBits_bounds s hrow.2
    rw [hrow.1] at hb1
    have hk : (fromBits s).toNat < 2 ^ n := by
      have : ((fromBits s).toNat : Int) < ((2 ^ n : Nat) : Int) := by
        rw [Int.toNat_of_nonneg hb0]; exact_mod_cast hb1
      exact_mod_cast this
    have := a4 _ (List.mem_range.2 hk)
    rw [Int.toNat_of_nonneg hb0] at this
    have hbs := bitsOf_fromBits s hrow.2
    rw [hrow.1] at hbs
    rwa [hbs] at this
  · intro j h1 h2; omega
  · intro j hj
    rw [hget j, if_neg (by omega)]

theorem tablesInv_step (n : Nat) (table : SingleActionDecisionTable) (m : Nat) (st : BuildState)
    (hm : m + 1 ≤ n) (h : TablesInv n table m st) :
    TablesInv n table (m + 1) (levelStep n (posAll n) st (m + 1)) := by
  obtain ⟨h1, h2, h3, h4, h5, h6⟩ := h
  obtain ⟨cur, a1, a2, a3, a4⟩ := levelStep_spec n (m + 1) st (by omega) hm h1
    (by simpa using h4 m (le_refl m)) (h6 (m + 1) (by omega))
  have hget : ∀ j, (st.cude_tables.set (m + 1) cur).getD j [] =
      if m + 1 = j then cur else st.cude_tables.getD j [] :=
    fun j => getD_set_list _ _ _ _ _ (by omega)
  rw [Nat.add_sub_cancel] at a4
  refine ⟨a2, by rw [a1, List.length_set]; exact h2, ?_, ?_, ?_, ?_⟩
  · intro s c hf
    rw [a1, hget 0, if_neg (by omega)] at hf
    exact h3 s c hf
  · intro j hj
    rw [a1, hget j]
    by_cases hjm : m + 1 = j
    · subst hjm; rw [if_pos rfl]; exact a3
    · rw [if_neg hjm]; exact h4 j (by omega)
  · intro j hj1 hj2 s c hf
    rw [a1, hget j] at hf
    rw [a1, hget (j - 1), if_neg (by omega)]
    by_cases hjm : m + 1 = j
    · subst hjm
      rw [if_pos rfl] at hf
      rw [Nat.add_sub_cancel]
      exact a4 s c hf
    · rw [if_neg hjm] at hf
      exact h5 j hj1 (by omega) s c hf
  · intro j hj
    rw [a1, hget j, if_neg (by omega)]
    exact h6 j (by omega)

theorem tablesInv_levels (n : Nat) (table : SingleActionDecisionTable) (st : BuildState)
    (h : TablesInv n table 0 st) : ∀ m, m ≤ n →
    TablesInv n table m ((List.range' 1 m).foldl (levelStep n (posAll n)) st)
  | 0, _ => h
  | m + 1, hm => by
      rw [List.range'_concat, List.foldl_append]
      simp only [List.foldl_cons, List.foldl_nil]
      rw [show 1 + 1 * m = m + 1 by omega]
      exact tablesInv_step n table m _ hm (tablesInv_levels n table st h m (by omega))

/-- The cube tables built by `DecisionTableToTree` hold every key of every level, each
with the cube computed from the level below. -/
theorem BuildCudeTables_inv (n : Nat) (table : SingleActionDecisionTable) :
    TablesInv n table n (BuildCudeTables n table) :=
  tablesInv_levels n table _ (tablesInv_zero n table) n (le_refl n)

/-! ## The cubes stored at each level -/

theorem mem_of_eq_append {l pre post : List Int} {x : Int} (h : l = pre ++ x :: post) :
    x ∈ l := by
  subst h; simp

/-- Both children of a stored key at one of its DASH positions are keys of the level below
and are stored there. -/
theorem child_found (n : Nat) (table : SingleActionDecisionTable) (st : BuildState)
    (h : TablesInv n table n st) (j : Nat) (hj1 : 1 ≤ j) (hjn : j ≤ n) (s : List Int)
    (hs : IsCubeKey n j s) (q : Nat) (hq : q < n) (h2 : s.getD q 0 = 2) (b : Int)
    (hb : b = 0 ∨ b = 1) :
    IsCubeKey n (j - 1) (s.set q b) ∧
    ∃ c', (st.cude_tables.getD (j - 1) []).find (s.set q b) = some c' ∧
      childCube (st.cude_tables.getD (j - 1) []) s (q : Int) b = c' := by
  obtain ⟨-, -, -, h4, -, -⟩ := h
  have hs' : IsCubeKey n ((j - 1) + 1) s := by rwa [Nat.sub_add_cancel hj1]
  have hk := isCubeKey_set n (j - 1) s q b hs' hq h2 hb
  obtain ⟨c', hc'⟩ := h4 (j - 1) (by omega) _ hk
  exact ⟨hk, c', hc', by unfold childCube; rw [Int.toNat_ofNat, hc']; rfl⟩

theorem gain_nonneg (n : Nat) (table : SingleActionDecisionTable) (st : BuildState)
    (h : TablesInv n table n st) : ∀ (j : Nat), j ≤ n → ∀ s c,
    (st.cude_tables.getD j []).find s = some c → 0 ≤ c.gain
  | 0, _, s, c, hf => by
      obtain ⟨-, -, h3, -, -, -⟩ := h
      rw [(h3 s c hf).2]
      exact le_refl (0 : Int)
  | j + 1, hj, s, c, hf => by
      have ih := gain_nonneg n table st h j (by omega)
      obtain ⟨hkey, hc⟩ := h.2.2.2.2.1 (j + 1) (by omega) hj s c hf
      rw [Nat.add_sub_cancel] at hc
      have hcand : ∀ x ∈ dashPositions s,
          0 ≤ candGain (st.cude_tables.getD j []) s x := by
        intro x hx
        obtain ⟨q, hq, rfl, h2⟩ := mem_dashPositions.1 hx
        rw [hkey.1] at hq
        obtain ⟨-, c0, f0, e0⟩ := child_found n table st h (j + 1) (by omega) hj s hkey q hq h2 0
          (Or.inl rfl)
        obtain ⟨-, c1, f1, e1⟩ := child_found n table st h (j + 1) (by omega) hj s hkey q hq h2 1
          (Or.inr rfl)
        rw [Nat.add_sub_cancel] at f0 f1 e0 e1
        have g0 := ih _ _ f0
        have g1 := ih _ _ f1
        unfold candGain
        rw [e0, e1]
        split <;> omega
      have hne : dashPositions s ≠ [] := by
        intro e
        have := dashPositions_length s
        rw [e, hkey.2.2] at this
        simp at this
      obtain ⟨pre, post, d1, d2, -, -, -⟩ := storedCube_spec (st.cude_tables.getD j []) s
        (dashPositions s) hne (fun x hx => lt_of_lt_of_le (by decide) (hcand x hx))
      rw [hc, d2]
      exact hcand _ (mem_of_eq_append d1)

/-- A cube stored at a level `j >= 1`: its `dash_pos` is a DASH position `q` of its key,
both children at `q` are stored one level below, its gain is the candidate gain at `q`, its
action set is the union of the children's, no DASH position before `q` reaches that gain and
none after `q` exceeds it. -/
theorem stored_split (n : Nat) (table : SingleActionDecisionTable) (st : BuildState)
    (h : TablesInv n table n st) (j : Nat) (hj1 : 1 ≤ j) (hjn : j ≤ n) (s : List Int) (c : Cude)
    (hf : (st.cude_tables.getD j []).find s = some c) :
    IsCubeKey n j s ∧
    ∃ q, q < n ∧ c.dash_pos = (q : Int) ∧ s.getD q 0 = 2 ∧
      ∃ c0 c1, (st.cude_tables.getD (j - 1) []).find (s.set q 0) = some c0 ∧
        (st.cude_tables.getD (j - 1) []).find (s.set q 1) = some c1 ∧
        c.gain = c0.gain + c1.gain + (if c0.action = c1.action then 1 else 0) ∧
        c.action = c0.action ∪ c1.action ∧
        ∃ pre post, dashPositions s = pre ++ (q : Int) :: post ∧
          (∀ x ∈ pre, candGain (st.cude_tables.getD (j - 1) []) s x < c.gain) ∧
          (∀ x ∈ post, candGain (st.cude_tables.getD (j - 1) []) s x ≤ c.gain) := by
  obtain ⟨hkey, hc⟩ := h.2.2.2.2.1 j hj1 hjn s c hf
  have hcand : ∀ x ∈ dashPositions s,
      0 ≤ candGain (st.cude_tables.getD (j - 1) []) s x := by
    intro x hx
    obtain ⟨q, hq, rfl, h2⟩ := mem_dashPositions.1 hx
    rw [hkey.1] at hq
    obtain ⟨-, c0, f0, e0⟩ := child_found n table st h j hj1 hjn s hkey q hq h2 0 (Or.inl rfl)
    obtain ⟨-, c1, f1, e1⟩ := child_found n table st h j hj1 hjn s hkey q hq h2 1 (Or.inr rfl)
    have g0 := gain_nonneg n table st h (j - 1) (by omega) _ _ f0
    have g1 := gain_nonneg n table st h (j - 1) (by omega) _ _ f1
    unfold candGain
    rw [e0, e1]
    split <;> omega
  have hne : dashPositions s ≠ [] := by
    intro e
    have := dashPositions_length s
    rw [e, hkey.2.2] at this
    simp at this
    omega
  obtain ⟨pre, post, d1, d2, d3, d4, d5⟩ := storedCube_spec (st.cude_tables.getD (j - 1) []) s
    (dashPositions s) hne (fun x hx => lt_of_lt_of_le (by decide) (hcand x hx))
  rw [← hc] at d1 d2 d3 d4 d5
  have hmem : c.dash_pos ∈ dashPositions s := mem_of_eq_append d1
  obtain ⟨q, hq, hqe, h2⟩ := mem_dashPositions.1 hmem
  rw [hkey.1] at hq
  obtain ⟨-, c0, f0, e0⟩ := child_found n table st h j hj1 hjn s hkey q hq h2 0 (Or.inl rfl)
  obtain ⟨-, c1, f1, e1⟩ := child_found n table st h j hj1 hjn s hkey q hq h2 1 (Or.inr rfl)
  rw [hqe] at d1 d2 d3
  refine ⟨hkey, q, hq, hqe, h2, c0, c1, f0, f1, ?_, ?_, pre, post, d1, d4, d5⟩
  · rw [d2]; unfold candGain; rw [e0, e1]
  · rw [d3, e0, e1]

/-- The action set of every stored cube is the set of the actions of the rows it covers. -/
theorem stored_actionChar (n : Nat) (table : SingleActionDecisionTable) (st : BuildState)
    (h : TablesInv n table n st) : ∀ (j : Nat), j ≤ n → ∀ s c,
    (st.cude_tables.getD j []).find s = some c → ActionChar n table s c
  | 0, _, s, c, hf => by
      obtain ⟨hrow, hc⟩ := h.2.2.1 s c hf
      intro a
      rw [hc]
      simp only [Finset.mem_singleton]
      constructor
      · intro e
        exact ⟨s, hrow, (covers_row hrow).2 rfl, e.symm⟩
      · rintro ⟨v, _, hcov, e⟩
        rw [(covers_row hrow).1 hcov] at e
        exact e.symm
  | j + 1, hj, s, c, hf => by
      obtain ⟨hkey, q, hq, -, h2, c0, c1, f0, f1, -, hact, -⟩ :=
        stored_split n table st h (j + 1) (by omega) hj s c hf
      rw [Nat.add_sub_cancel] at f0 f1
      have ih0 := stored_actionChar n table st h j (by omega) _ _ f0
      have ih1 := stored_actionChar n table st h j (by omega) _ _ f1
      intro a
      rw [hact, Finset.mem_union, ih0 a, ih1 a]
      constructor
      · rintro (⟨v, hv, hcov, e⟩ | ⟨v, hv, hcov, e⟩)
        · exact ⟨v, hv, covers_of_covers_set h2 hcov, e⟩
        · exact ⟨v, hv, covers_of_covers_set h2 hcov, e⟩
      · rintro ⟨v, hv, hcov, e⟩
        have hqs : q < s.length := by rw [hkey.1]; exact hq
        have hcov' := covers_set_of_covers hqs hcov
        rcases hv.2 _ (getD_mem 0 v q (by rw [hv.1]; exact hq)) with e0 | e1
        · rw [e0] at hcov'; exact Or.inl ⟨v, hv, hcov', e⟩
        · rw [e1] at hcov'; exact Or.inr ⟨v, hv, hcov', e⟩

/-! ## The traceback -/

theorem firstAction_singleton (a : Int) : firstAction {a} = a := by
  unfold firstAction
  rw [Finset.min_singleton]

theorem TracingBackLevel_leaf (n : Nat) (status : List Int) (tables : List CudeTable)
    (c : Cude) (hf : (tables.getD n []).find status = some c) (h1 : c.action.card = 1) :
    TracingBackLevel n status tables = some (TreeNode.new (firstAction c.action)) := by
  cases n <;> rw [TracingBackLevel] <;> simp only [hf, h1, if_true]

theorem TracingBackLevel_node (n : Nat) (status : List Int) (tables : List CudeTable)
    (c : Cude) (l r : TreeNode) (hf : (tables.getD (n + 1) []).find status = some c)
    (h1 : c.action.card ≠ 1)
    (hl : TracingBackLevel n (status.set c.dash_pos.toNat 0) tables = some l)
    (hr : TracingBackLevel n (status.set c.dash_pos.toNat 1) tables = some r) :
    TracingBackLevel (n + 1) status tables = some (TreeNode.node c.dash_pos l r) := by
  rw [TracingBackLevel]
  simp only [hf, h1, if_false, hl, hr]

theorem refDescent_leaf (a : Int) (v : List Int) : refDescent (TreeNode.new a) v = some a := by
  simp [refDescent, TreeNode.new]

theorem refDescent_node (q : Nat) (l r : TreeNode) (v : List Int) (hl : l ≠ TreeNode.null)
    (hr : r ≠ TreeNode.null) (hq : q < v.length) :
    refDescent (TreeNode.node (q : Int) l r) v =
      if v.getD q 0 > 0 then refDescent r v else refDescent l v := by
  have hget : v.get? q = some (v.getD q 0) := by
    rw [List.get?_eq_get hq, List.getD_eq_getElem _ _ hq]; rfl
  have hneg : ¬ ((q : Int) < 0) := by omega
  simp only [refDescent, hl, hr, ne_eq, not_false_eq_true, and_self, if_true, hneg, if_false,
    Int.toNat_ofNat, hget]

/-- The traceback of a stored key returns a tree whose reference descent gives, for every
row the key covers, the action of the table. -/
theorem traceback_correct (n : Nat) (table : SingleActionDecisionTable) (st : BuildState)
    (h : TablesInv n table n st) : ∀ (j : Nat), j ≤ n → ∀ s, IsCubeKey n j s →
    ∃ t, TracingBackLevel j s st.cude_tables = some t ∧ t ≠ TreeNode.null ∧
      ∀ v, IsRow n v → Covers s v → refDescent t v = some (table.Test v) := by
  intro j
  induction j with
  | zero =>
      intro hj s hs
      obtain ⟨c, hf⟩ := h.2.2.2.1 0 hj s hs
      obtain ⟨hrow, hc⟩ := h.2.2.1 s c hf
      have hcard : c.action.card = 1 := by rw [hc]; rfl
      refine ⟨_, TracingBackLevel_leaf 0 s _ c hf hcard, by simp [TreeNode.new], ?_⟩
      intro v _ hcov
      rw [refDescent_leaf, hc, (covers_row hrow).1 hcov]
      exact congrArg some (firstAction_singleton _)
  | succ j ih =>
      intro hj s hs
      obtain ⟨c, hf⟩ := h.2.2.2.1 (j + 1) hj s hs
      have hchar := stored_actionChar n table st h (j + 1) hj s c hf
      by_cases hcard : c.action.card = 1
      · refine ⟨_, TracingBackLevel_leaf (j + 1) s _ c hf hcard, by simp [TreeNode.new], ?_⟩
        intro v hv hcov
        obtain ⟨a, ha⟩ := Finset.card_eq_one.1 hcard
        have hmem : table.Test v ∈ c.action := (hchar _).2 ⟨v, hv, hcov, rfl⟩
        rw [ha, Finset.mem_singleton] at hmem
        rw [refDescent_leaf, ha, firstAction_singleton, hmem]
      · obtain ⟨hkey, q, hq, hqe, h2, c0, c1, -, -, -, -, -⟩ :=
          stored_split n table st h (j + 1) (by omega) hj s c hf
        obtain ⟨k0, -⟩ := child_found n table st h (j + 1) (by omega) hj s hkey q hq h2 0
          (Or.inl rfl)
        obtain ⟨k1, -⟩ := child_found n table st h (j + 1) (by omega) hj s hkey q hq h2 1
          (Or.inr rfl)
        rw [Nat.add_sub_cancel] at k0 k1
        obtain ⟨l, hl, hln, hlc⟩ := ih (by omega) _ k0
        obtain ⟨r, hr, hrn, hrc⟩ := ih (by omega) _ k1
        have hnode := TracingBackLevel_node j s st.cude_tables c l r hf hcard
          (by rw [hqe, Int.toNat_ofNat]; exact hl) (by rw [hqe, Int.toNat_ofNat]; exact hr)
        rw [hqe] at hnode
        refine ⟨_, hnode, by simp, ?_⟩
        intro v hv hcov
        have hqv : q < v.length := by rw [hv.1]; exact hq
        have hqs : q < s.length := by rw [hkey.1]; exact hq
        have hcov' := covers_set_of_covers hqs hcov
        rw [refDescent_node q l r v hln hrn hqv]
        rcases hv.2 _ (getD_mem 0 v q hqv) with e0 | e1
        · rw [e0] at hcov' ⊢
          simp only [gt_iff_lt, lt_self_iff_false, if_false]
          exact hlc v hv hcov'
        · rw [e1] at hcov' ⊢
          simp only [gt_iff_lt, zero_lt_one, if_true]
          exact hrc v hv hcov'

theorem isCubeKey_allDash (status : List Int) :
    IsCubeKey status.length status.length (status.map (fun _ => (2 : Int))) := by
  refine ⟨by simp, ?_, ?_⟩
  · intro x hx
    obtain ⟨_, _, rfl⟩ := List.mem_map.1 hx
    exact Or.inr (Or.inr rfl)
  · induction status with
    | nil => rfl
    | cons a l ih => simp only [List.map_cons, List.count_cons_self, ih, List.length_cons]

theorem covers_allDash (status v : List Int) (h : v.length = status.length) :
    Covers (status.map (fun _ => (2 : Int))) v := by
  refine ⟨by simp [h], ?_⟩
  intro p hp
  left
  rw [List.getD_eq_getElem _ _ hp]
  simp

/-- The conversion returns a tree whose reference descent reproduces the table, whatever
the rows of the table hold. -/
theorem DecisionTableToTree_correct (n : Nat) (table : SingleActionDecisionTable) :
    ∃ t, DecisionTableToTree n table = some t ∧ t ≠ TreeNode.null ∧
      ∀ v, IsRow n v → refDescent t v = some (table.Test v) := by
  have hinv := BuildCudeTables_inv n table
  have hlen := hinv.1
  have hkey := isCubeKey_allDash (BuildCudeTables n table).status
  rw [hlen] at hkey
  obtain ⟨t, ht, htn, htc⟩ := traceback_correct n table _ hinv n (le_refl n) _ hkey
  refine ⟨t, ?_, htn, ?_⟩
  · have hneg : ¬ ((n : Int) < 0) := by omega
    simp only [DecisionTableToTree, TracingBackCudeTables, hneg, if_false, Int.toNat_ofNat]
    exact ht
  · intro v hv
    exact htc v hv (covers_allDash _ v (by rw [hv.1, hlen]))

/-! ## Properties of the conversion -/

theorem level_le_of_find (n : Nat) (table : SingleActionDecisionTable) (st : BuildState)
    (h : TablesInv n table n st) (j : Nat) (s : List Int) (c : Cude)
    (hf : (st.cude_tables.getD j []).find s = some c) : j ≤ n := by
  by_contra hj
  rw [h.2.2.2.2.2 j (by omega)] at hf
  simp [CudeTable.find] at hf

/-- C2: for every fully populated table with `n >= 1` conditions, the tree built by
`DecisionTableToTree` reproduces the table under the reference descent: for every 0/1
status vector `v` of length `n`, descending from the root by the condition stored in each
internal node (right when `v[p] = 1`, left when `v[p] = 0`) reaches a leaf that stores
`table.Test(v)`. -/
theorem DecisionTableToTree_reproduces_table (n : Nat) (table : SingleActionDecisionTable)
    (_hn : 1 ≤ n) (_hfull : FullyPopulated n table) (v : List Int) (hv : IsRow n v) :
    ∃ root, DecisionTableToTree n table = some root ∧
      refDescent root v = some (table.Test v) := by
  obtain ⟨t, ht, -, hc⟩ := DecisionTableToTree_correct n table
  exact ⟨t, ht, hc v hv⟩

/-- C2 at the two-condition table and the row `[1, 0]`. -/
theorem DecisionTableToTree_reproduces_table_witness :
    FullyPopulated 2 twoConditionTable ∧ IsRow 2 [1, 0] ∧
    ∃ root, DecisionTableToTree 2 twoConditionTable = some root ∧
      refDescent root [1, 0] = some (twoConditionTable.Test [1, 0]) :=
  ⟨by decide, by decide,
    DecisionTableToTree_reproduces_table 2 twoConditionTable (by decide) (by decide) [1, 0]
      (by decide)⟩

/-- C5, as the code behaves: a table of one condition with both rows unset is converted
without any error, into a tree whose only node holds the UNSET value `-1` as its action. -/
theorem unset_row_not_detected :
    ∃ t, DecisionTree.new (SingleActionDecisionTable.new 1 2) = some t ∧
      t.root_ = TreeNode.new (-1) ∧ t.Test [0] = some (-1) := by
  decide

/-- C5, amended: for every table with `n >= 1` conditions and `k >= 1` actions the
conversion makes no completeness check; it builds a non-empty tree in which an unset row
is treated like any other: the reference descent on a row whose stored action is the UNSET
value `-1` reaches a leaf holding `-1`. -/
theorem unset_row_converted_as_action (table : SingleActionDecisionTable)
    (hn : 0 < table.num_conditions_) (hk : 0 < table.num_actions_) (v : List Int)
    (hv : IsRow table.num_conditions_.toNat v) (hunset : table.Test v = -1) :
    ∃ t, DecisionTree.new table = some t ∧ t.Empty = false ∧
      refDescent t.root_ v = some (-1) := by
  obtain ⟨r, hr, hrn, hc⟩ := DecisionTableToTree_correct table.num_conditions_.toNat table
  have h1 : ¬ table.GetNumContditions ≤ 0 := by
    simp only [SingleActionDecisionTable.GetNumContditions]; omega
  have h2 : ¬ table.GetNumActions ≤ 0 := by
    simp only [SingleActionDecisionTable.GetNumActions]; omega
  refine ⟨{ num_actions_ := table.GetNumActions, num_conditions_ := table.GetNumContditions,
            root_ := r }, ?_, ?_, ?_⟩
  · simp only [DecisionTree.new, h1, h2, if_false]
    simp only [SingleActionDecisionTable.GetNumContditions, hr, Option.map_some']
  · simp only [DecisionTree.Empty, hrn, decide_False]
  · rw [← hunset]; exact hc v hv

/-- The amended C5 at the freshly constructed one-condition table and the row `[0]`. -/
theorem unset_row_converted_as_action_witness :
    (SingleActionDecisionTable.new 1 2).Test [0] = -1 ∧
    ∃ t, DecisionTree.new (SingleActionDecisionTable.new 1 2) = some t ∧ t.Empty = false ∧
      refDescent t.root_ [0] = some (-1) :=
  ⟨by decide,
    unset_row_converted_as_action (SingleActionDecisionTable.new 1 2) (by decide) (by decide)
      [0] (by decide) (by decide)⟩

/-- C6: constructing a `DecisionTree` from a table whose condition count or action count
is `<= 0` performs no conversion and leaves the tree empty (`root_` null, `Empty()` true);
constructing it from a table with both counts positive leaves it non-empty. -/
theorem DecisionTree_new_empty_iff (table : SingleActionDecisionTable) :
    ((table.num_conditions_ ≤ 0 ∨ table.num_actions_ ≤ 0) →
      ∃ t, DecisionTree.new table = some t ∧ t.root_ = TreeNode.null ∧ t.Empty = true) ∧
    ((0 < table.num_conditions_ ∧ 0 < table.num_actions_) →
      ∃ t, DecisionTree.new table = some t ∧ t.root_ ≠ TreeNode.null ∧ t.Empty = false) := by
  constructor
  · intro h
    refine ⟨{ num_actions_ := table.GetNumActions, num_conditions_ := table.GetNumContditions,
              root_ := TreeNode.null }, ?_, rfl, by simp [DecisionTree.Empty]⟩
    by_cases h1 : table.num_conditions_ ≤ 0
    · simp only [DecisionTree.new, SingleActionDecisionTable.GetNumContditions, h1, if_true]
    · have h2 : table.num_actions_ ≤ 0 := by
        rcases h with h | h
        · exact absurd h h1
        · exact h
      simp only [DecisionTree.new, SingleActionDecisionTable.GetNumContditions,
        SingleActionDecisionTable.GetNumActions, h1, h2, if_true, if_false]
  · rintro ⟨hn, hk⟩
    obtain ⟨r, hr, hrn, -⟩ := DecisionTableToTree_correct table.num_conditions_.toNat table
    have h1 : ¬ table.GetNumContditions ≤ 0 := by
      simp only [SingleActionDecisionTable.GetNumContditions]; omega
    have h2 : ¬ table.GetNumActions ≤ 0 := by
      simp only [SingleActionDecisionTable.GetNumActions]; omega
    refine ⟨{ num_actions_ := table.GetNumActions, num_conditions_ := table.GetNumContditions,
              root_ := r }, ?_, hrn, ?_⟩
    · simp only [DecisionTree.new, h1, h2, if_false]
      simp only [SingleActionDecisionTable.GetNumContditions, hr, Option.map_some']
    · simp only [DecisionTree.Empty, hrn, decide_False]

/-- C6 at a table with no conditions and at the two-condition table. -/
theorem DecisionTree_new_empty_iff_witness :
    (∃ t, DecisionTree.new (SingleActionDecisionTable.new 0 3) = some t ∧
      t.root_ = TreeNode.null ∧ t.Empty = true) ∧
    (∃ t, DecisionTree.new twoConditionTable = some t ∧
      t.root_ ≠ TreeNode.null ∧ t.Empty = false) :=
  ⟨(DecisionTree_new_empty_iff (SingleActionDecisionTable.new 0 3)).1 (by decide),
    (DecisionTree_new_empty_iff twoConditionTable).2 (by decide)⟩

/-- C8: for every level `i` with `1 <= i <= n` and every cube `c` stored in the level-`i`
table under the key `s`, `c.gain` is the maximum, over the `i` DASH positions `p` of `s`, of
`gain(child0_p) + gain(child1_p) + (1 if child0_p.action == child1_p.action else 0)`, where
the children are the level-`(i - 1)` cubes stored for `s` with `p` fixed to 0 and to 1; the
maximum is attained at `p = c.dash_pos`, so `c.gain` is at least the sum of the gains of
its two chosen children and exceeds it by at most 1. -/
theorem stored_gain_is_max_candidate (n : Nat) (table : SingleActionDecisionTable) (i : Nat)
    (hi : 1 ≤ i) (hin : i ≤ n) (s : List Int) (c : Cude)
    (hf : ((BuildCudeTables n table).cude_tables.getD i []).find s = some c) :
    s.count 2 = i ∧
    (∀ p : Nat, p < n → s.getD p 0 = 2 →
      ∃ d0 d1,
        ((BuildCudeTables n table).cude_tables.getD (i - 1) []).find (s.set p 0) = some d0 ∧
        ((BuildCudeTables n table).cude_tables.getD (i - 1) []).find (s.set p 1) = some d1 ∧
        d0.gain + d1.gain + (if d0.action = d1.action then 1 else 0) ≤ c.gain) ∧
    ∃ q : Nat, q < n ∧ c.dash_pos = (q : Int) ∧ s.getD q 0 = 2 ∧
      ∃ c0 c1,
        ((BuildCudeTables n table).cude_tables.getD (i - 1) []).find (s.set q 0) = some c0 ∧
        ((BuildCudeTables n table).cude_tables.getD (i - 1) []).find (s.set q 1) = some c1 ∧
        c.gain = c0.gain + c1.gain + (if c0.action = c1.action then 1 else 0) ∧
        c0.gain + c1.gain ≤ c.gain ∧ c.gain ≤ c0.gain + c1.gain + 1 := by
  have hinv := BuildCudeTables_inv n table
  obtain ⟨hkey, q, hq, hqe, h2, c0, c1, f0, f1, hg, -, pre, post, hd, hpre, hpost⟩ :=
    stored_split n table _ hinv i hi hin s c hf
  refine ⟨hkey.2.2, ?_, q, hq, hqe, h2, c0, c1, f0, f1, hg, ?_, ?_⟩
  · intro p hp hp2
    obtain ⟨-, d0, g0, e0⟩ := child_found n table _ hinv i hi hin s hkey p hp hp2 0 (Or.inl rfl)
    obtain ⟨-, d1, g1, e1⟩ := child_found n table _ hinv i hi hin s hkey p hp hp2 1 (Or.inr rfl)
    refine ⟨d0, d1, g0, g1, ?_⟩
    have hcand : candGain ((BuildCudeTables n table).cude_tables.getD (i - 1) []) s (p : Int) =
        d0.gain + d1.gain + (if d0.action = d1.action then 1 else 0) := by
      unfold candGain; rw [e0, e1]
    rw [← hcand]
    have hmem : (p : Int) ∈ dashPositions s :=
      mem_dashPositions.2 ⟨p, by rw [hkey.1]; exact hp, rfl, hp2⟩
    rw [hd] at hmem
    rcases List.mem_append.1 hmem with h | h
    · exact le_of_lt (hpre _ h)
    · rcases List.mem_cons.1 h with h | h
      · have hpq : p = q := by exact_mod_cast h
        subst hpq
        rw [hcand, hg]
        have := Option.some.inj (g0.symm.trans f0)
        have := Option.some.inj (g1.symm.trans f1)
        subst_vars
        exact le_refl _
      · exact hpost _ h
  · rw [hg]; split <;> omega
  · rw [hg]; split <;> omega

/-- C8 at the two-condition table, level 2, the all-DASH key. -/
theorem stored_gain_is_max_candidate_witness :
    ((BuildCudeTables 2 twoConditionTable).cude_tables.getD 2 []).find [2, 2]
      = some { dash_pos := 1, gain := 2, action := {0, 1} } ∧
    ∃ q : Nat, q < 2 ∧ (1 : Int) = (q : Int) ∧ ([2, 2] : List Int).getD q 0 = 2 ∧
      ∃ c0 c1,
        ((BuildCudeTables 2 twoConditionTable).cude_tables.getD (2 - 1) []).find
          (([2, 2] : List Int).set q 0) = some c0 ∧
        ((BuildCudeTables 2 twoConditionTable).cude_tables.getD (2 - 1) []).find
          (([2, 2] : List Int).set q 1) = some c1 ∧
        (2 : Int) = c0.gain + c1.gain + (if c0.action = c1.action then 1 else 0) ∧
        c0.gain + c1.gain ≤ 2 ∧ (2 : Int) ≤ c0.gain + c1.gain + 1 :=
  ⟨by decide,
    (stored_gain_is_max_candidate 2 twoConditionTable 2 (by decide) (by decide) [2, 2]
      { dash_pos := 1, gain := 2, action := {0, 1} } (by decide)).2.2⟩

/-- C9: for every level `i` with `1 <= i <= n` and every cube `c` stored in the level-`i`
table under the key `s`, `c.action` is exactly the union of the action sets of the two
level-`(i - 1)` cubes stored for `s` with position `c.dash_pos` fixed to 0 and to 1: no
action is added and none is dropped. -/
theorem stored_action_is_union (n : Nat) (table : SingleActionDecisionTable) (i : Nat)
    (hi : 1 ≤ i) (hin : i ≤ n) (s : List Int) (c : Cude)
    (hf : ((BuildCudeTables n table).cude_tables.getD i []).find s = some c) :
    ∃ c0 c1,
      ((BuildCudeTables n table).cude_tables.getD (i - 1) []).find
        (s.set c.dash_pos.toNat 0) = some c0 ∧
      ((BuildCudeTables n table).cude_tables.getD (i - 1) []).find
        (s.set c.dash_pos.toNat 1) = some c1 ∧
      c.action = c0.action ∪ c1.action ∧
      ∀ a, a ∈ c.action ↔ a ∈ c0.action ∨ a ∈ c1.action := by
  have hinv := BuildCudeTables_inv n table
  obtain ⟨-, q, -, hqe, -, c0, c1, f0, f1, -, hact, -⟩ :=
    stored_split n table _ hinv i hi hin s c hf
  refine ⟨c0, c1, by rw [hqe, Int.toNat_ofNat]; exact f0,
    by rw [hqe, Int.toNat_ofNat]; exact f1, hact, ?_⟩
  intro a
  rw [hact, Finset.mem_union]

/-- C9 at the two-condition table, level 2, the all-DASH key. -/
theorem stored_action_is_union_witness :
    ((BuildCudeTables 2 twoConditionTable).cude_tables.getD 2 []).find [2, 2]
      = some { dash_pos := 1, gain := 2, action := {0, 1} } ∧
    ∃ c0 c1,
      ((BuildCudeTables 2 twoConditionTable).cude_tables.getD (2 - 1) []).find
        (([2, 2] : List Int).set (1 : Int).toNat 0) = some c0 ∧
      ((BuildCudeTables 2 twoConditionTable).cude_tables.getD (2 - 1) []).find
        (([2, 2] : List Int).set (1 : Int).toNat 1) = some c1 ∧
      ({0, 1} : Finset Int) = c0.action ∪ c1.action ∧
      ∀ a, a ∈ ({0, 1} : Finset Int) ↔ a ∈ c0.action ∨ a ∈ c1.action :=
  ⟨by decide,
    stored_action_is_union 2 twoConditionTable 2 (by decide) (by decide) [2, 2]
      { dash_pos := 1, gain := 2, action := {0, 1} } (by decide)⟩

/-- C10: for every level and status vector present in the cube tables,
`TracingBackCudeTables` returns a leaf (a node without children) holding the single action
of the cube when the cube's action set has exactly one member; otherwise it returns an
internal node whose value is the cube's `dash_pos` and whose left and right children are
the (non-null) tracebacks, at `level - 1`, of the key with that position fixed to 0 and to
1. So the result is a leaf exactly when the action set is a singleton. -/
theorem TracingBackCudeTables_leaf_iff_singleton (n : Nat) (table : SingleActionDecisionTable)
    (level : Nat) (s : List Int) (c : Cude)
    (hf : ((BuildCudeTables n table).cude_tables.getD level []).find s = some c) :
    (c.action.card = 1 → ∃ a, c.action = {a} ∧
      TracingBackCudeTables level TreeNode.null s (BuildCudeTables n table).cude_tables =
        some (TreeNode.node a TreeNode.null TreeNode.null)) ∧
    (c.action.card ≠ 1 → ∃ l r, l ≠ TreeNode.null ∧ r ≠ TreeNode.null ∧
      TracingBackCudeTables ((level : Int) - 1) TreeNode.null (s.set c.dash_pos.toNat 0)
        (BuildCudeTables n table).cude_tables = some l ∧
      TracingBackCudeTables ((level : Int) - 1) TreeNode.null (s.set c.dash_pos.toNat 1)
        (BuildCudeTables n table).cude_tables = some r ∧
      TracingBackCudeTables level TreeNode.null s (BuildCudeTables n table).cude_tables =
        some (TreeNode.node c.dash_pos l r)) := by
  have hinv := BuildCudeTables_inv n table
  have hln := level_le_of_find n table _ hinv level s c hf
  have hneg : ¬ ((level : Int) < 0) := by omega
  constructor
  · intro hcard
    obtain ⟨a, ha⟩ := Finset.card_eq_one.1 hcard
    refine ⟨a, ha, ?_⟩
    simp only [TracingBackCudeTables, hneg, if_false, Int.toNat_ofNat]
    rw [TracingBackLevel_leaf level s _ c hf hcard, ha, firstAction_singleton]
    rfl
  · intro hcard
    cases level with
    | zero =>
        exfalso
        apply hcard
        rw [(hinv.2.2.1 s c hf).2]
        rfl
    | succ j =>
        obtain ⟨hkey, q, hq, hqe, h2, -⟩ :=
          stored_split n table _ hinv (j + 1) (by omega) hln s c hf
        obtain ⟨k0, -⟩ := child_found n table _ hinv (j + 1) (by omega) hln s hkey q hq h2 0
          (Or.inl rfl)
        obtain ⟨k1, -⟩ := child_found n table _ hinv (j + 1) (by omega) hln s hkey q hq h2 1
          (Or.inr rfl)
        rw [Nat.add_sub_cancel] at k0 k1
        obtain ⟨l, hl, hlnn, -⟩ := traceback_correct n table _ hinv j (by omega) _ k0
        obtain ⟨r, hr, hrnn, -⟩ := traceback_correct n table _ hinv j (by omega) _ k1
        have hl' : TracingBackLevel j (s.set c.dash_pos.toNat 0)
            (BuildCudeTables n table).cude_tables = some l := by
          rw [hqe, Int.toNat_ofNat]; exact hl
        have hr' : TracingBackLevel j (s.set c.dash_pos.toNat 1)
            (BuildCudeTables n table).cude_tables = some r := by
          rw [hqe, Int.toNat_ofNat]; exact hr
        have hsub : ((j + 1 : Nat) : Int) - 1 = (j : Int) := by push_cast; omega
        have hnegj : ¬ ((j : Int) < 0) := by omega
        refine ⟨l, r, hlnn, hrnn, ?_, ?_, ?_⟩
        · rw [hsub]
          simp only [TracingBackCudeTables, hnegj, if_false, Int.toNat_ofNat]
          exact hl'
        · rw [hsub]
          simp only [TracingBackCudeTables, hnegj, if_false, Int.toNat_ofNat]
          exact hr'
        · simp only [TracingBackCudeTables, hneg, if_false, Int.toNat_ofNat]
          exact TracingBackLevel_node j s _ c l r hf hcard hl' hr'

/-- C10 at the two-condition table, level 2, the all-DASH key. -/
theorem TracingBackCudeTables_leaf_iff_singleton_witness :
    ((BuildCudeTables 2 twoConditionTable).cude_tables.getD 2 []).find [2, 2]
      = some { dash_pos := 1, gain := 2, action := {0, 1} } ∧
    TracingBackCudeTables 2 TreeNode.null [2, 2] (BuildCudeTables 2 twoConditionTable).cude_tables
      = some (TreeNode.node 1 (TreeNode.new 0) (TreeNode.new 1)) ∧
    (({0, 1} : Finset Int).card ≠ 1 → ∃ l r, l ≠ TreeNode.null ∧ r ≠ TreeNode.null ∧
      TracingBackCudeTables (((2 : Nat) : Int) - 1) TreeNode.null
        (([2, 2] : List Int).set (1 : Int).toNat 0)
        (BuildCudeTables 2 twoConditionTable).cude_tables = some l ∧
      TracingBackCudeTables (((2 : Nat) : Int) - 1) TreeNode.null
        (([2, 2] : List Int).set (1 : Int).toNat 1)
        (BuildCudeTables 2 twoConditionTable).cude_tables = some r ∧
      TracingBackCudeTables ((2 : Nat) : Int) TreeNode.null [2, 2]
        (BuildCudeTables 2 twoConditionTable).cude_tables =
        some (TreeNode.node 1 l r)) :=
  ⟨by decide, by decide,
    (TracingBackCudeTables_leaf_iff_singleton 2 twoConditionTable 2 [2, 2]
      { dash_pos := 1, gain := 2, action := {0, 1} } (by decide)).2⟩

/-! ## The example of `main`, and where the code departs from the claims -/

set_option maxRecDepth 100000 in
theorem exampleTree_built : DecisionTableToTree 5 exampleTable = some exampleTree := by
  decide!

/-- C1 fails on the code: on the tree built from the example table of `main`,
`DecisionTree::Test` returns 3 on `[1,1,0,1,0]` where the table holds 6, and 5 on
`[1,0,0,1,1]` where the table holds 7; it agrees with the table on `[0,0,0,0,0]`,
`[1,0,0,0,0]` and `[1,1,1,1,1]`. -/
theorem Test_differs_from_table_on_example :
    DecisionTree.new exampleTable =
      some { num_actions_ := 8, num_conditions_ := 5, root_ := exampleTree } ∧
    (DecisionTree.new exampleTable).map (fun t => t.Test [1, 1, 0, 1, 0]) = some (some 3) ∧
    exampleTable.Test [1, 1, 0, 1, 0] = 6 ∧
    (DecisionTree.new exampleTable).map (fun t => t.Test [1, 0, 0, 1, 1]) = some (some 5) ∧
    exampleTable.Test [1, 0, 0, 1, 1] = 7 ∧
    (DecisionTree.new exampleTable).map (fun t => t.Test [0, 0, 0, 0, 0]) = some (some 0) ∧
    (DecisionTree.new exampleTable).map (fun t => t.Test [1, 0, 0, 0, 0]) = some (some 1) ∧
    (DecisionTree.new exampleTable).map (fun t => t.Test [1, 1, 1, 1, 1]) = some (some 3) := by
  have h : DecisionTree.new exampleTable =
      some { num_actions_ := 8, num_conditions_ := 5, root_ := exampleTree } := by
    have h1 : DecisionTree.new exampleTable =
        (DecisionTableToTree 5 exampleTable).map fun r =>
          { num_actions_ := 8, num_conditions_ := 5, root_ := r } := by
      rfl
    rw [h1, exampleTree_built]
    rfl
  rw [h]
  exact ⟨rfl, by decide, by decide, by decide, by decide, by decide, by decide, by decide⟩

/-- C3 fails on the code: on the strict binary tree built from the two-condition table,
whose root tests condition 1, `DecisionTree::Test` on `[1, 0]` goes right because
`status[0] > 0` (it indexes `status` by the depth) and returns 1, while the descent by the
tested condition goes left because `status[1] = 0` and returns 0. -/
theorem Test_indexes_status_by_depth :
    DecisionTree.new twoConditionTable =
      some { num_actions_ := 2, num_conditions_ := 2,
             root_ := TreeNode.node 1 (TreeNode.new 0) (TreeNode.new 1) } ∧
    (DecisionTree.new twoConditionTable).map (fun t => t.Test [1, 0]) = some (some 1) ∧
    (DecisionTree.new twoConditionTable).map (fun t => refDescent t.root_ [1, 0])
      = some (some 0) ∧
    twoConditionTable.Test [1, 0] = 0 := by
  decide

theorem isRow_three (v : List Int) (hv : IsRow 3 v) :
    v ∈ ([[0, 0, 0], [1, 0, 0], [0, 1, 0], [1, 1, 0], [0, 0, 1], [1, 0, 1], [0, 1, 1],
      [1, 1, 1]] : List (List Int)) := by
  obtain ⟨hlen, hval⟩ := hv
  obtain ⟨a, b, c, rfl⟩ := List.length_eq_three.1 hlen
  have ha := hval a (by simp)
  have hb := hval b (by simp)
  have hc := hval c (by simp)
  rcases ha with rfl | rfl <;> rcases hb with rfl | rfl <;> rcases hc with rfl | rfl <;> decide

/-- C4 fails on the code: for the fully populated three-condition table the tree built by
`DecisionTableToTree` has 9 nodes, while a tree of 7 nodes returns the table's action on
every row. -/
theorem built_tree_not_minimal :
    FullyPopulated 3 threeConditionTable ∧
    ∃ t alt : TreeNode, DecisionTableToTree 3 threeConditionTable = some t ∧
      (∀ v, IsRow 3 v → refDescent alt v = some (threeConditionTable.Test v)) ∧
      nodeCount t = 9 ∧ nodeCount alt = 7 ∧ nodeCount alt < nodeCount t := by
  refine ⟨by decide,
    TreeNode.node 0
      (TreeNode.node 1 (TreeNode.new 0) (TreeNode.node 2 (TreeNode.new 0) (TreeNode.new 1)))
      (TreeNode.node 2 (TreeNode.new 0) (TreeNode.new 1)),
    TreeNode.node 2 (TreeNode.new 0)
      (TreeNode.node 0 (TreeNode.node 1 (TreeNode.new 0) (TreeNode.new 1)) (TreeNode.new 1)),
    by decide, ?_, by decide, by decide, by decide⟩
  intro v hv
  have hmem := isRow_three v hv
  simp only [List.mem_cons, List.mem_singleton, List.not_mem_nil, or_false] at hmem
  rcases hmem with rfl | rfl | rfl | rfl | rfl | rfl | rfl | rfl <;> decide

/-! ## The size of the built tree -/

/-- The shape of the traceback of a stored key. -/
theorem traceback_shape (n : Nat) (table : SingleActionDecisionTable) (st : BuildState)
    (h : TablesInv n table n st) (j : Nat) (hj : j ≤ n) (s : List Int) (c : Cude)
    (hf : (st.cude_tables.getD j []).find s = some c) :
    (c.action.card = 1 →
      TracingBackLevel j s st.cude_tables = some (TreeNode.new (firstAction c.action))) ∧
    (c.action.card ≠ 1 → ∃ (q : Nat) (l r : TreeNode), 1 ≤ j ∧ q < n ∧ c.dash_pos = (q : Int) ∧
      s.getD q 0 = 2 ∧
      TracingBackLevel (j - 1) (s.set q 0) st.cude_tables = some l ∧
      TracingBackLevel (j - 1) (s.set q 1) st.cude_tables = some r ∧
      l ≠ TreeNode.null ∧ r ≠ TreeNode.null ∧
      TracingBackLevel j s st.cude_tables = some (TreeNode.node (q : Int) l r)) := by
  refine ⟨fun hcard => TracingBackLevel_leaf j s _ c hf hcard, fun hcard => ?_⟩
  cases j with
  | zero =>
      exfalso
      apply hcard
      rw [(h.2.2.1 s c hf).2]
      rfl
  | succ j =>
      obtain ⟨hkey, q, hq, hqe, h2, -⟩ := stored_split n table st h (j + 1) (by omega) hj s c hf
      obtain ⟨k0, -⟩ := child_found n table st h (j + 1) (by omega) hj s hkey q hq h2 0
        (Or.inl rfl)
      obtain ⟨k1, -⟩ := child_found n table st h (j + 1) (by omega) hj s hkey q hq h2 1
        (Or.inr rfl)
      rw [Nat.add_sub_cancel] at k0 k1
      obtain ⟨l, hl, hln, -⟩ := traceback_correct n table st h j (by omega) _ k0
      obtain ⟨r, hr, hrn, -⟩ := traceback_correct n table st h j (by omega) _ k1
      have hnode := TracingBackLevel_node j s st.cude_tables c l r hf hcard
        (by rw [hqe, Int.toNat_ofNat]; exact hl) (by rw [hqe, Int.toNat_ofNat]; exact hr)
      rw [hqe] at hnode
      exact ⟨q, l, r, by omega, hq, hqe, h2, by rw [Nat.add_sub_cancel]; exact hl,
        by rw [Nat.add_sub_cancel]; exact hr, hln, hrn, hnode⟩

/-- The candidate gain of every DASH position of a stored key is at most the stored gain. -/
theorem cand_le_gain (n : Nat) (table : SingleActionDecisionTable) (st : BuildState)
    (h : TablesInv n table n st) (j : Nat) (hj1 : 1 ≤ j) (hjn : j ≤ n) (s : List Int) (c : Cude)
    (hf : (st.cude_tables.getD j []).find s = some c) (p : Nat) (hp : p < n)
    (hp2 : s.getD p 0 = 2) :
    ∃ d0 d1, (st.cude_tables.getD (j - 1) []).find (s.set p 0) = some d0 ∧
      (st.cude_tables.getD (j - 1) []).find (s.set p 1) = some d1 ∧
      d0.gain + d1.gain + (if d0.action = d1.action then 1 else 0) ≤ c.gain := by
  obtain ⟨hkey, q, hq, hqe, h2, c0, c1, f0, f1, hg, -, pre, post, hd, hpre, hpost⟩ :=
    stored_split n table st h j hj1 hjn s c hf
  obtain ⟨-, d0, g0, e0⟩ := child_found n table st h j hj1 hjn s hkey p hp hp2 0 (Or.inl rfl)
  obtain ⟨-, d1, g1, e1⟩ := child_found n table st h j hj1 hjn s hkey p hp hp2 1 (Or.inr rfl)
  refine ⟨d0, d1, g0, g1, ?_⟩
  have hcand : candGain (st.cude_tables.getD (j - 1) []) s (p : Int) =
      d0.gain + d1.gain + (if d0.action = d1.action then 1 else 0) := by
    unfold candGain; rw [e0, e1]
  rw [← hcand]
  have hmem : (p : Int) ∈ dashPositions s :=
    mem_dashPositions.2 ⟨p, by rw [hkey.1]; exact hp, rfl, hp2⟩
  rw [hd] at hmem
  rcases List.mem_append.1 hmem with hm | hm
  · exact le_of_lt (hpre _ hm)
  · rcases List.mem_cons.1 hm with hm | hm
    · have hpq : p = q := by exact_mod_cast hm
      subst hpq
      rw [hcand, hg]
      have := Option.some.inj (g0.symm.trans f0)
      have := Option.some.inj (g1.symm.trans f1)
      subst_vars
      exact le_refl _
    · exact hpost _ hm

/-- A cube stored at level 1: its action set holds the actions of its two rows, and its
gain is 1 when they agree and 0 otherwise. -/
theorem level_one_cube (n : Nat) (table : SingleActionDecisionTable) (st : BuildState)
    (h : TablesInv n table n st) (hn : 1 ≤ n) (s : List Int) (c : Cude)
    (hf : (st.cude_tables.getD 1 []).find s = some c) :
    ∃ q : Nat, q < n ∧ s.getD q 0 = 2 ∧
      c.action = {table.Test (s.set q 0)} ∪ {table.Test (s.set q 1)} ∧
      c.gain = (if table.Test (s.set q 0) = table.Test (s.set q 1) then 1 else 0) ∧
      (c.action.card = 1 ↔ table.Test (s.set q 0) = table.Test (s.set q 1)) := by
  obtain ⟨-, q, hq, -, h2, c0, c1, f0, f1, hg, hact, -⟩ :=
    stored_split n table st h 1 (le_refl 1) hn s c hf
  have e0 := (h.2.2.1 _ c0 f0).2
  have e1 := (h.2.2.1 _ c1 f1).2
  subst e0 e1
  refine ⟨q, hq, h2, hact, ?_, ?_⟩
  · rw [hg]
    simp only [Cude.default, zero_add, Finset.singleton_inj]
  · rw [hact]
    simp only
    constructor
    · intro hc
      by_contra hne
      rw [Finset.card_union_of_disjoint (by simpa using fun e => hne e.symm)] at hc
      simp at hc
    · intro e
      rw [e]; simp

theorem refDescent_ne_null {t : TreeNode} {v : List Int} {a : Int}
    (h : refDescent t v = some a) : t ≠ TreeNode.null := by
  rintro rfl
  simp [refDescent] at h

theorem nodeCount_pos {t : TreeNode} (h : t ≠ TreeNode.null) : 1 ≤ nodeCount t := by
  cases t with
  | null => exact absurd rfl h
  | node _ l r => simp only [nodeCount]; omega

theorem nodeCount_new (a : Int) : nodeCount (TreeNode.new a) = 1 := rfl

/-- A tree that returns two different values is an internal node with two children. -/
theorem internal_of_two_values {t : TreeNode} {v1 v2 : List Int} {a1 a2 : Int}
    (h1 : refDescent t v1 = some a1) (h2 : refDescent t v2 = some a2) (hne : a1 ≠ a2) :
    ∃ val l r, t = TreeNode.node val l r ∧ l ≠ TreeNode.null ∧ r ≠ TreeNode.null := by
  cases t with
  | null => simp [refDescent] at h1
  | node val l r =>
      by_cases hlr : l ≠ TreeNode.null ∧ r ≠ TreeNode.null
      · exact ⟨val, l, r, rfl, hlr.1, hlr.2⟩
      · exfalso
        simp only [refDescent, hlr, if_false] at h1 h2
        exact hne ((Option.some.inj h1).symm.trans (Option.some.inj h2))

/-- The row obtained from a key by writing 0 at every DASH position is covered by it. -/
theorem exists_covered_row (n : Nat) (table : SingleActionDecisionTable) (st : BuildState)
    (h : TablesInv n table n st) (j : Nat) (hj : j ≤ n) (s : List Int) (c : Cude)
    (hf : (st.cude_tables.getD j []).find s = some c) :
    ∃ v, IsRow n v ∧ Covers s v := by
  induction j generalizing s c with
  | zero =>
      have hrow := (h.2.2.1 s c hf).1
      exact ⟨s, hrow, (covers_row hrow).2 rfl⟩
  | succ j ih =>
      obtain ⟨-, q, -, -, h2, c0, -, f0, -⟩ := stored_split n table st h (j + 1) (by omega) hj s c hf
      rw [Nat.add_sub_cancel] at f0
      obtain ⟨v, hv, hcov⟩ := ih (by omega) _ c0 f0
      exact ⟨v, hv, covers_of_covers_set h2 hcov⟩

/-- An impure stored cube covers two rows with different actions. -/
theorem exists_two_rows (n : Nat) (table : SingleActionDecisionTable) (st : BuildState)
    (h : TablesInv n table n st) (j : Nat) (hj : j ≤ n) (s : List Int) (c : Cude)
    (hf : (st.cude_tables.getD j []).find s = some c) (hcard : c.action.card ≠ 1) :
    ∃ v1 v2, IsRow n v1 ∧ Covers s v1 ∧ IsRow n v2 ∧ Covers s v2 ∧
      table.Test v1 ≠ table.Test v2 := by
  have hchar := stored_actionChar n table st h j hj s c hf
  obtain ⟨v, hv, hcov⟩ := exists_covered_row n table st h j hj s c hf
  have hmem : table.Test v ∈ c.action := (hchar _).2 ⟨v, hv, hcov, rfl⟩
  have hcard2 : 1 < c.action.card := by
    have : 0 < c.action.card := Finset.card_pos.2 ⟨_, hmem⟩
    omega
  obtain ⟨a1, ha1, a2, ha2, hne⟩ := Finset.one_lt_card.1 hcard2
  obtain ⟨v1, hv1, hc1, e1⟩ := (hchar a1).1 ha1
  obtain ⟨v2, hv2, hc2, e2⟩ := (hchar a2).1 ha2
  exact ⟨v1, v2, hv1, hc1, hv2, hc2, by rw [e1, e2]; exact hne⟩

/-- The tree built for a level-1 key has 1 node when its cube has gain 1 and 3 nodes when
it has gain 0, and no tree that is correct on the key has fewer nodes. -/
theorem level_one_minimal (n : Nat) (table : SingleActionDecisionTable) (st : BuildState)
    (h : TablesInv n table n st) (hn : 1 ≤ n) (s : List Int) (c : Cude)
    (hf : (st.cude_tables.getD 1 []).find s = some c) :
    ∃ t, TracingBackLevel 1 s st.cude_tables = some t ∧
      (nodeCount t : Int) = 3 - 2 * c.gain ∧
      ∀ t', CorrectOn n table s t' → nodeCount t ≤ nodeCount t' := by
  obtain ⟨hleaf, hnode⟩ := traceback_shape n table st h 1 hn s c hf
  obtain ⟨q, -, -, -, hgain, hiff⟩ := level_one_cube n table st h hn s c hf
  by_cases hcard : c.action.card = 1
  · refine ⟨_, hleaf hcard, ?_, ?_⟩
    · rw [hgain, if_pos (hiff.1 hcard), nodeCount_new]; rfl
    · intro t' hcorr
      obtain ⟨v, hv, hcov⟩ := exists_covered_row n table st h 1 hn s c hf
      rw [nodeCount_new]
      exact nodeCount_pos (refDescent_ne_null (hcorr v hv hcov))
  · obtain ⟨q', l, r, -, hq', -, h2, hl, hr, -, -, ht⟩ := hnode hcard
    have hkey := (h.2.2.2.2.1 1 (le_refl 1) hn s c hf).1
    obtain ⟨-, c0, f0, -⟩ := child_found n table st h 1 (le_refl 1) hn s hkey q' hq' h2 0
      (Or.inl rfl)
    obtain ⟨-, c1, f1, -⟩ := child_found n table st h 1 (le_refl 1) hn s hkey q' hq' h2 1
      (Or.inr rfl)
    have hl0 := (traceback_shape n table st h 0 (by omega) _ c0 f0).1
      (by rw [(h.2.2.1 _ c0 f0).2]; rfl)
    have hr0 := (traceback_shape n table st h 0 (by omega) _ c1 f1).1
      (by rw [(h.2.2.1 _ c1 f1).2]; rfl)
    simp only [Nat.sub_self] at hl hr
    rw [hl0] at hl
    rw [hr0] at hr
    have hln : nodeCount l = 1 := by rw [← Option.some.inj hl]; rfl
    have hrn : nodeCount r = 1 := by rw [← Option.some.inj hr]; rfl
    have h3 : nodeCount (TreeNode.node (q' : Int) l r) = 3 := by
      simp only [nodeCount, hln, hrn]
    refine ⟨_, ht, ?_, ?_⟩
    · rw [h3, hgain, if_neg (fun e => hcard (hiff.2 e))]; rfl
    · intro t' hcorr
      obtain ⟨v1, v2, hv1, hc1, hv2, hc2, hne⟩ := exists_two_rows n table st h 1 hn s c hf hcard
      obtain ⟨val, l', r', rfl, hl', hr'⟩ :=
        internal_of_two_values (hcorr v1 hv1 hc1) (hcorr v2 hv2 hc2) hne
      have a1 := nodeCount_pos hl'
      have a2 := nodeCount_pos hr'
      rw [h3]
      simp only [nodeCount]
      omega

theorem pair_eq_iff (a b c d : Int) :
    (({a} ∪ {b} : Finset Int) = {c} ∪ {d}) ↔ (a = c ∧ b = d) ∨ (a = d ∧ b = c) := by
  constructor
  · intro h
    have ha : a ∈ ({c} ∪ {d} : Finset Int) := by rw [← h]; simp
    have hb : b ∈ ({c} ∪ {d} : Finset Int) := by rw [← h]; simp
    have hc : c ∈ ({a} ∪ {b} : Finset Int) := by rw [h]; simp
    have hd : d ∈ ({a} ∪ {b} : Finset Int) := by rw [h]; simp
    simp only [Finset.mem_union, Finset.mem_singleton] at ha hb hc hd
    omega
  · rintro (⟨rfl, rfl⟩ | ⟨rfl, rfl⟩)
    · rfl
    · exact Finset.union_comm _ _

/-- Among the two conditions of a two-condition table, the one of larger candidate gain
also has at least as many pure children. -/
theorem two_condition_gain_core (f00 f01 f10 f11 : Int)
    (h : (if f00 = f01 then (1 : Int) else 0) + (if f10 = f11 then 1 else 0) +
        (if ({f00} ∪ {f01} : Finset Int) = {f10} ∪ {f11} then 1 else 0) ≤
      (if f00 = f10 then (1 : Int) else 0) + (if f01 = f11 then 1 else 0) +
        (if ({f00} ∪ {f10} : Finset Int) = {f01} ∪ {f11} then 1 else 0)) :
    (if f00 = f01 then (1 : Int) else 0) + (if f10 = f11 then 1 else 0) ≤
      (if f00 = f10 then (1 : Int) else 0) + (if f01 = f11 then 1 else 0) := by
  simp only [pair_eq_iff] at h
  split_ifs at h ⊢ <;> omega

/-- The children of the root of a tree that is correct on all rows are correct on the two
halves of every cube that has a DASH at the condition the root tests. -/
theorem children_correct (n : Nat) (table : SingleActionDecisionTable)
    (val : Int) (l r : TreeNode) (hl : l ≠ TreeNode.null) (hr : r ≠ TreeNode.null)
    (hc : ∀ v, IsRow n v → refDescent (TreeNode.node val l r) v = some (table.Test v)) :
    ∃ p : Nat, p < n ∧ val = (p : Int) ∧ ∀ s : List Int, s.length = n →
      CorrectOn n table (s.set p 0) l ∧ CorrectOn n table (s.set p 1) r := by
  have hrow0 : IsRow n (List.replicate n (0 : Int)) :=
    ⟨by simp, fun x hx => Or.inl (List.eq_of_mem_replicate hx)⟩
  have h0 := hc _ hrow0
  have hval : ¬ val < 0 := by
    intro hneg
    simp only [refDescent, hl, hr, ne_eq, not_false_eq_true, and_self, if_true, hneg] at h0
    exact absurd h0 (by simp)
  have hlt : val.toNat < n := by
    by_contra hge
    have hnone : (List.replicate n (0 : Int)).get? val.toNat = none :=
      List.get?_eq_none.2 (by simp; omega)
    simp only [refDescent, hl, hr, ne_eq, not_false_eq_true, and_self, if_true, hval,
      if_false, hnone] at h0
    exact absurd h0 (by simp)
  refine ⟨val.toNat, hlt, (Int.toNat_of_nonneg (by omega)).symm, ?_⟩
  intro s hs
  have hvaleq : val = ((val.toNat : Nat) : Int) := (Int.toNat_of_nonneg (by omega)).symm
  have key : ∀ (b : Int), b = 0 ∨ b = 1 → ∀ v, IsRow n v → Covers (s.set val.toNat b) v →
      v.getD val.toNat 0 = b := by
    intro b hb v hv hcov
    have h1 := hcov.2 val.toNat (by rw [List.length_set, hs]; exact hlt)
    rw [getD_set_self _ _ _ _ (by rw [hs]; exact hlt)] at h1
    rcases h1 with h1 | h1
    · rcases hb with hb | hb <;> rw [hb] at h1 <;> exact absurd h1 (by decide)
    · exact h1.symm
  constructor
  · intro v hv hcov
    have hdesc := hc v hv
    rw [hvaleq, refDescent_node _ l r v hl hr (by rw [hv.1]; exact hlt),
      key 0 (Or.inl rfl) v hv hcov] at hdesc
    simpa using hdesc
  · intro v hv hcov
    have hdesc := hc v hv
    rw [hvaleq, refDescent_node _ l r v hl hr (by rw [hv.1]; exact hlt),
      key 1 (Or.inr rfl) v hv hcov] at hdesc
    simpa using hdesc

theorem correctOn_allDash (n : Nat) (table : SingleActionDecisionTable) (status : List Int)
    (t : TreeNode) (hc : ∀ v, IsRow n v → refDescent t v = some (table.Test v)) :
    CorrectOn n table status t :=
  fun v hv _ => hc v hv

/-- The cube stored for the level-1 key `[x, 2]` of a two-condition table. -/
theorem cube_x_dash (table : SingleActionDecisionTable) (st : BuildState)
    (h : TablesInv 2 table 2 st) (x : Int) (d : Cude)
    (hf : (st.cude_tables.getD 1 []).find [x, 2] = some d) :
    d.action = {table.Test [x, 0]} ∪ {table.Test [x, 1]} ∧
    d.gain = if table.Test [x, 0] = table.Test [x, 1] then 1 else 0 := by
  obtain ⟨q, hq, h2, hact, hgain, -⟩ := level_one_cube 2 table st h (by omega) _ d hf
  have hx := (h.2.2.2.2.1 1 (le_refl 1) (by omega) _ d hf).1.2.2
  have hx2 : x ≠ 2 := by
    intro e
    subst e
    simp at hx
  have hq1 : q = 1 := by
    rcases Nat.lt_succ_iff_lt_or_eq.1 hq with hq0 | hq1
    · have : q = 0 := by omega
      subst this
      simp at h2
      exact absurd h2 hx2
    · exact hq1
  subst hq1
  exact ⟨hact, hgain⟩

/-- The cube stored for the level-1 key `[2, y]` of a two-condition table. -/
theorem cube_dash_y (table : SingleActionDecisionTable) (st : BuildState)
    (h : TablesInv 2 table 2 st) (y : Int) (d : Cude)
    (hf : (st.cude_tables.getD 1 []).find [2, y] = some d) :
    d.action = {table.Test [0, y]} ∪ {table.Test [1, y]} ∧
    d.gain = if table.Test [0, y] = table.Test [1, y] then 1 else 0 := by
  obtain ⟨q, hq, h2, hact, hgain, -⟩ := level_one_cube 2 table st h (by omega) _ d hf
  have hy := (h.2.2.2.2.1 1 (le_refl 1) (by omega) _ d hf).1.2.2
  have hy2 : y ≠ 2 := by
    intro e
    subst e
    simp at hy
  have hq0 : q = 0 := by
    rcases Nat.lt_succ_iff_lt_or_eq.1 hq with hq0 | hq1
    · omega
    · subst hq1
      simp at h2
      exact absurd h2 hy2
  subst hq0
  exact ⟨hact, hgain⟩

theorem DecisionTableToTree_eq (n : Nat) (table : SingleActionDecisionTable) :
    DecisionTableToTree n table =
      TracingBackLevel n ((BuildCudeTables n table).status.map (fun _ => (2 : Int)))
        (BuildCudeTables n table).cude_tables := by
  have hneg : ¬ ((n : Int) < 0) := by omega
  simp only [DecisionTableToTree, TracingBackCudeTables, hneg, if_false, Int.toNat_ofNat]

/-- With one condition the built tree is minimal. -/
theorem minimal_one_condition (table : SingleActionDecisionTable) (t t' : TreeNode)
    (hb : DecisionTableToTree 1 table = some t)
    (hc : ∀ v, IsRow 1 v → refDescent t' v = some (table.Test v)) :
    nodeCount t ≤ nodeCount t' := by
  have hinv := BuildCudeTables_inv 1 table
  rw [DecisionTableToTree_eq] at hb
  have hkey := isCubeKey_allDash (BuildCudeTables 1 table).status
  rw [hinv.1] at hkey
  obtain ⟨c, hf⟩ := hinv.2.2.2.1 1 (le_refl 1) _ hkey
  obtain ⟨t0, ht0, -, hmin⟩ := level_one_minimal 1 table _ hinv (le_refl 1) _ c hf
  rw [ht0] at hb
  rw [← Option.some.inj hb]
  exact hmin t' (correctOn_allDash 1 table _ t' hc)

/-- In a two-condition table, a condition whose candidate gain is at most that of
another one has at most as many pure children. -/
theorem two_condition_children_gain (table : SingleActionDecisionTable) (st : BuildState)
    (h : TablesInv 2 table 2 st) (q p : Nat) (hq : q < 2) (hp : p < 2) (c0 c1 d0 d1 : Cude)
    (f0 : (st.cude_tables.getD 1 []).find (([2, 2] : List Int).set q 0) = some c0)
    (f1 : (st.cude_tables.getD 1 []).find (([2, 2] : List Int).set q 1) = some c1)
    (g0 : (st.cude_tables.getD 1 []).find (([2, 2] : List Int).set p 0) = some d0)
    (g1 : (st.cude_tables.getD 1 []).find (([2, 2] : List Int).set p 1) = some d1)
    (hcand : d0.gain + d1.gain + (if d0.action = d1.action then 1 else 0) ≤
      c0.gain + c1.gain + (if c0.action = c1.action then 1 else 0)) :
    d0.gain + d1.gain ≤ c0.gain + c1.gain := by
  have hq01 : q = 0 ∨ q = 1 := by omega
  have hp01 : p = 0 ∨ p = 1 := by omega
  rcases hq01 with rfl | rfl <;> rcases hp01 with rfl | rfl
  · rw [f0] at g0
    rw [f1] at g1
    rw [← Option.some.inj g0, ← Option.some.inj g1]
  · have f0' : (st.cude_tables.getD 1 []).find [0, 2] = some c0 := f0
    have f1' : (st.cude_tables.getD 1 []).find [1, 2] = some c1 := f1
    have g0' : (st.cude_tables.getD 1 []).find [2, 0] = some d0 := g0
    have g1' : (st.cude_tables.getD 1 []).find [2, 1] = some d1 := g1
    obtain ⟨a0, k0⟩ := cube_x_dash table st h 0 c0 f0'
    obtain ⟨a1, k1⟩ := cube_x_dash table st h 1 c1 f1'
    obtain ⟨a2, k2⟩ := cube_dash_y table st h 0 d0 g0'
    obtain ⟨a3, k3⟩ := cube_dash_y table st h 1 d1 g1'
    rw [k0, k1, k2, k3, a0, a1, a2, a3] at hcand
    rw [k0, k1, k2, k3]
    exact two_condition_gain_core (table.Test [0, 0]) (table.Test [1, 0]) (table.Test [0, 1])
      (table.Test [1, 1]) hcand
  · have f0' : (st.cude_tables.getD 1 []).find [2, 0] = some c0 := f0
    have f1' : (st.cude_tables.getD 1 []).find [2, 1] = some c1 := f1
    have g0' : (st.cude_tables.getD 1 []).find [0, 2] = some d0 := g0
    have g1' : (st.cude_tables.getD 1 []).find [1, 2] = some d1 := g1
    obtain ⟨a0, k0⟩ := cube_dash_y table st h 0 c0 f0'
    obtain ⟨a1, k1⟩ := cube_dash_y table st h 1 c1 f1'
    obtain ⟨a2, k2⟩ := cube_x_dash table st h 0 d0 g0'
    obtain ⟨a3, k3⟩ := cube_x_dash table st h 1 d1 g1'
    rw [k0, k1, k2, k3, a0, a1, a2, a3] at hcand
    rw [k0, k1, k2, k3]
    exact two_condition_gain_core (table.Test [0, 0]) (table.Test [0, 1]) (table.Test [1, 0])
      (table.Test [1, 1]) hcand
  · rw [f0] at g0
    rw [f1] at g1
    rw [← Option.some.inj g0, ← Option.some.inj g1]

/-- With two conditions the built tree is minimal. -/
theorem minimal_two_conditions (table : SingleActionDecisionTable) (t t' : TreeNode)
    (hb : DecisionTableToTree 2 table = some t)
    (hc : ∀ v, IsRow 2 v → refDescent t' v = some (table.Test v)) :
    nodeCount t ≤ nodeCount t' := by
  have hinv := BuildCudeTables_inv 2 table
  rw [DecisionTableToTree_eq] at hb
  have hs : (BuildCudeTables 2 table).status.map (fun _ => (2 : Int)) = [2, 2] := by
    obtain ⟨a, b, e⟩ := List.length_eq_two.1 hinv.1
    rw [e]; rfl
  rw [hs] at hb
  generalize BuildCudeTables 2 table = st at hinv hb
  have hkey : IsCubeKey 2 2 [2, 2] := by decide
  obtain ⟨c, hf⟩ := hinv.2.2.2.1 2 (le_refl 2) _ hkey
  obtain ⟨hleaf, hnode⟩ := traceback_shape 2 table st hinv 2 (le_refl 2) _ c hf
  have hrow : IsRow 2 [0, 0] := by decide
  by_cases hcard : c.action.card = 1
  · rw [hleaf hcard] at hb
    rw [← Option.some.inj hb, nodeCount_new]
    exact nodeCount_pos (refDescent_ne_null (hc _ hrow))
  · obtain ⟨q, l, r, -, hq, hqe, -, hl, hr, -, -, ht⟩ := hnode hcard
    rw [ht] at hb
    rw [← Option.some.inj hb]
    obtain ⟨v1, v2, hv1, -, hv2, -, hne⟩ :=
      exists_two_rows 2 table st hinv 2 (le_refl 2) _ c hf hcard
    obtain ⟨val, l', r', rfl, hl', hr'⟩ := internal_of_two_values (hc v1 hv1) (hc v2 hv2) hne
    obtain ⟨p, hp, -, hcorr⟩ := children_correct 2 table val l' r' hl' hr' hc
    obtain ⟨hcl, hcr⟩ := hcorr [2, 2] rfl
    obtain ⟨-, q2, -, hqe2, -, c0, c1, f0, f1, hg, -⟩ :=
      stored_split 2 table st hinv 2 (by omega) (le_refl 2) _ c hf
    have hqq : q2 = q := by
      have : (q2 : Int) = (q : Int) := hqe2.symm.trans hqe
      exact_mod_cast this
    subst hqq
    have hp2 : ([2, 2] : List Int).getD p 0 = 2 := by
      have : p = 0 ∨ p = 1 := by omega
      rcases this with rfl | rfl <;> rfl
    obtain ⟨d0, d1, g0, g1, hcand⟩ :=
      cand_le_gain 2 table st hinv 2 (by omega) (le_refl 2) _ c hf p hp hp2
    have e21 : 2 - 1 = 1 := rfl
    rw [e21] at f0 f1 g0 g1 hl hr
    obtain ⟨tq0, e0, s0, -⟩ := level_one_minimal 2 table st hinv (by omega) _ c0 f0
    obtain ⟨tq1, e1, s1, -⟩ := level_one_minimal 2 table st hinv (by omega) _ c1 f1
    obtain ⟨tp0, -, u0, m0⟩ := level_one_minimal 2 table st hinv (by omega) _ d0 g0
    obtain ⟨tp1, -, u1, m1⟩ := level_one_minimal 2 table st hinv (by omega) _ d1 g1
    rw [hl] at e0
    rw [hr] at e1
    rw [← Option.some.inj e0] at s0
    rw [← Option.some.inj e1] at s1
    have b0 := m0 l' hcl
    have b1 := m1 r' hcr
    rw [hg] at hcand
    have hgain := two_condition_children_gain table st hinv q2 p hq hp c0 c1 d0 d1 f0 f1 g0 g1
      hcand
    simp only [nodeCount]
    omega

/-- C4, amended: for every fully populated table with `n = 1` or `n = 2` conditions the
tree built by `DecisionTableToTree` is minimal: no tree that returns the table's action for
every 0/1 status vector of length `n` (descending left on 0 and right on 1 of the condition
tested at each internal node) has fewer nodes. -/
theorem built_tree_minimal_up_to_two_conditions (n : Nat) (table : SingleActionDecisionTable)
    (hn1 : 1 ≤ n) (hn2 : n ≤ 2) (_hfull : FullyPopulated n table) :
    ∃ t, DecisionTableToTree n table = some t ∧
      ∀ t', (∀ v, IsRow n v → refDescent t' v = some (table.Test v)) →
        nodeCount t ≤ nodeCount t' := by
  obtain ⟨t, ht, -, -⟩ := DecisionTableToTree_correct n table
  refine ⟨t, ht, fun t' hc => ?_⟩
  have hn : n = 1 ∨ n = 2 := by omega
  rcases hn with rfl | rfl
  · exact minimal_one_condition table t t' ht hc
  · exact minimal_two_conditions table t t' ht hc

/-- The amended C4 at the two-condition table. -/
theorem built_tree_minimal_up_to_two_conditions_witness :
    FullyPopulated 2 twoConditionTable ∧
    ∃ t, DecisionTableToTree 2 twoConditionTable = some t ∧
      ∀ t', (∀ v, IsRow 2 v → refDescent t' v = some (twoConditionTable.Test v)) →
        nodeCount t ≤ nodeCount t' :=
  ⟨by decide,
    built_tree_minimal_up_to_two_conditions 2 twoConditionTable (by decide) (by decide)
      (by decide)⟩

/-! ## The codec and the table index -/

theorem ediv_two_ediv (a c : Int) (hc : 0 < c) : a / 2 / c = a / (2 * c) := by
  have h1 := Int.ediv_add_emod (a / 2) c
  have h2 := Int.emod_nonneg (a / 2) (ne_of_gt hc)
  have h3 := Int.emod_lt_of_pos (a / 2) hc
  have h4 : 2 * (a / 2) + a % 2 = a := by omega
  have h5 : 0 ≤ a % 2 ∧ a % 2 < 2 := by omega
  have hpos : 0 < 2 * c := by omega
  have hu := (@Int.ediv_emod_unique a (2 * c) (2 * (a / 2 % c) + a % 2) (a / 2 / c) hpos).2
    ⟨by linarith, by omega, by omega⟩
  exact hu.1.symm

theorem bitsOf_getD : ∀ (n : Nat) (num : Int) (i : Nat), i < n →
    (bitsOf num n).getD i 0 = (num / 2 ^ i) % 2
  | 0, _, _, h => by omega
  | n + 1, num, 0, _ => by simp [bitsOf]
  | n + 1, num, i + 1, h => by
      have ih := bitsOf_getD n (num / 2) i (by omega)
      simp only [bitsOf, List.getD_cons_succ, ih]
      rw [ediv_two_ediv num (2 ^ i) (by positivity), pow_succ']

theorem fromBits_bitsOf : ∀ (n : Nat) (k : Int), 0 ≤ k → k < 2 ^ n → fromBits (bitsOf k n) = k
  | 0, k, h0, h1 => by
      simp only [pow_zero] at h1
      simp only [bitsOf, fromBits]; omega
  | n + 1, k, h0, h1 => by
      have h2 : k / 2 < 2 ^ n := by
        rw [pow_succ] at h1; omega
      have ih := fromBits_bitsOf n (k / 2) (by omega) h2
      simp only [bitsOf, fromBits, ih]
      omega

theorem fromBits_append (l : List Int) (b : Int) :
    fromBits (l ++ [b]) = fromBits l + b * 2 ^ l.length := by
  induction l with
  | nil => simp [fromBits]
  | cons a l ih =>
      rw [List.cons_append, fromBits, ih, fromBits, List.length_cons, pow_succ]
      ring

/-- The loop of `GetPos` over a vector of bits adds twice the number the bits encode. -/
theorem getPosLoop_eq : ∀ (l : List Int), (∀ x ∈ l, x = 0 ∨ x = 1) → ∀ init : Int,
    (List.range l.length).foldl
      (fun pos j => if l.getD j 0 > 0 then pos + 2 * 2 ^ j else pos) init =
      init + 2 * fromBits l := by
  intro l
  induction l using List.reverseRecOn with
  | nil => intro _ init; simp [fromBits]
  | append_singleton l b ih =>
      intro hbits init
      have hl : ∀ x ∈ l, x = 0 ∨ x = 1 := fun x hx => hbits x (List.mem_append_left _ hx)
      have hb : b = 0 ∨ b = 1 := hbits b (by simp)
      rw [List.length_append, List.length_singleton, List.range_succ, List.foldl_append]
      have e : (List.range l.length).foldl
          (fun pos j => if (l ++ [b]).getD j 0 > 0 then pos + 2 * 2 ^ j else pos) init =
          (List.range l.length).foldl
          (fun pos j => if l.getD j 0 > 0 then pos + 2 * 2 ^ j else pos) init := by
        apply List.foldl_ext
        intro pos j hj
        rw [List.getD_append _ _ _ _ (List.mem_range.1 hj)]
      rw [e, ih hl, fromBits_append]
      have hlast : (l ++ [b]).getD l.length 0 = b := by
        rw [List.getD_append_right _ _ _ _ (le_refl _)]; simp
      simp only [List.foldl_cons, List.foldl_nil, hlast]
      rcases hb with rfl | rfl
      · simp
      · simp only [gt_iff_lt, zero_lt_one, if_true]; ring

/-- On a 0/1 vector of the table's length `GetPos` is the number whose bits the vector
holds. -/
theorem GetPos_eq_fromBits (t : SingleActionDecisionTable) (n : Nat) (status : List Int)
    (hn : 1 ≤ n) (hnc : t.num_conditions_ = (n : Int)) (hrow : IsRow n status) :
    t.GetPos status = fromBits status := by
  obtain ⟨hlen, hbits⟩ := hrow
  cases status with
  | nil => simp at hlen; omega
  | cons b rest =>
      have hrl : rest.length = n - 1 := by simp at hlen; omega
      have hrest : ∀ x ∈ rest, x = 0 ∨ x = 1 := fun x hx => hbits x (List.mem_cons_of_mem _ hx)
      have h := getPosLoop_eq rest hrest b
      simp only [SingleActionDecisionTable.GetPos, hnc, Int.toNat_ofNat, List.getD_cons_zero,
        List.getD_cons_succ, ← hrl, h, fromBits]

/-- C17: for `n >= 1` and `0 <= value < 2 ^ n`, `BitToVector(value, n, status)` sets
`status[i]` to bit `i` of `value` (least significant first) for every `i < n`, and `GetPos`
of the decoded vector, `status[0] + sum over 1 <= i < n of (status[i] > 0) * 2 ^ i`, is
`value` again; so the decoded vectors of different values differ and each addresses a row
inside the `2 ^ n` rows of the table. -/
theorem BitToVector_GetPos_roundtrip (t : SingleActionDecisionTable) (n : Nat) (value : Int)
    (status : List Int) (hn : 1 ≤ n) (hnc : t.num_conditions_ = (n : Int))
    (hlen : status.length = n) (h0 : 0 ≤ value) (h1 : value < 2 ^ n) :
    (∀ i, i < n → (BitToVector value n status).getD i 0 = (value / 2 ^ i) % 2) ∧
    (BitToVector value n status).length = n ∧
    t.GetPos (BitToVector value n status) = value ∧
    (t.GetPos (BitToVector value n status)).toNat < 2 ^ n ∧
    ∀ value' : Int, 0 ≤ value' → value' < 2 ^ n →
      BitToVector value' n status = BitToVector value n status → value' = value := by
  rw [BitToVector_eq value n status hlen]
  have hpos : t.GetPos (bitsOf value n) = value := by
    rw [GetPos_eq_fromBits t n _ hn hnc (bitsOf_isRow value n), fromBits_bitsOf n value h0 h1]
  refine ⟨fun i hi => bitsOf_getD n value i hi, bitsOf_length value n, hpos, ?_, ?_⟩
  · rw [hpos]
    have : ((value.toNat : Nat) : Int) < ((2 ^ n : Nat) : Int) := by
      rw [Int.toNat_of_nonneg h0]; exact_mod_cast h1
    exact_mod_cast this
  · intro value' h0' h1' e
    rw [BitToVector_eq value' n status hlen] at e
    rw [← fromBits_bitsOf n value' h0' h1', e, fromBits_bitsOf n value h0 h1]

/-- C17 at `n = 3`, `value = 5`. -/
theorem BitToVector_GetPos_roundtrip_witness :
    BitToVector 5 3 [0, 0, 0] = [1, 0, 1] ∧
    (SingleActionDecisionTable.new 3 2).GetPos (BitToVector 5 (3 : Nat) [0, 0, 0]) = 5 :=
  ⟨by decide,
    (BitToVector_GetPos_roundtrip (SingleActionDecisionTable.new 3 2) 3 5 [0, 0, 0] (by decide)
      (by decide) (by decide) (by decide) (by decide)).2.2.1⟩

/-- C18: for every value, every `n`, every list `pos` whose first `n` entries are pairwise
distinct positions inside `v`, the scatter overload `BitToVector(value, n, pos, v)` writes
bit `i` of `value` (least significant first) into `v[pos[i]]` for every `i < n` and leaves
every entry of `v` whose index is none of `pos[0], ..., pos[n - 1]` unchanged. -/
theorem BitToVectorPos_scatter (value n : Int) (pos v : List Int)
    (_hlen : n ≤ (pos.length : Int))
    (hrange : ∀ i, i < n.toNat → 0 ≤ pos.getD i 0 ∧ (pos.getD i 0).toNat < v.length)
    (hdist : ∀ i, i < n.toNat → ∀ j, j < n.toNat → i ≠ j → pos.getD i 0 ≠ pos.getD j 0) :
    (BitToVectorPos value n pos v).length = v.length ∧
    (∀ i, i < n.toNat →
      (BitToVectorPos value n pos v).getD (pos.getD i 0).toNat 0 = (value / 2 ^ i) % 2) ∧
    (∀ p, (∀ i, i < n.toNat → (pos.getD i 0).toNat ≠ p) →
      (BitToVectorPos value n pos v).getD p 0 = v.getD p 0) := by
  refine ⟨BitToVectorPosLoop_length _ _ _ _ _ _, ?_, ?_⟩
  · intro i hi
    have hw := BitToVectorPosLoop_written n.toNat 0 value pos v i (Nat.zero_le _) (by omega)
      (hrange i hi).2
      (by
        intro j _ hj hne e
        have hj' : j < n.toNat := by omega
        apply hdist j hj' i hi hne
        have a1 := (hrange j hj').1
        have a2 := (hrange i hi).1
        rw [← Int.toNat_of_nonneg a1, ← Int.toNat_of_nonneg a2, e])
    rw [Nat.sub_zero, bitsOf_getD n.toNat value i hi] at hw
    exact hw
  · intro p hp
    exact BitToVectorPosLoop_untouched n.toNat 0 value (value % 2) pos v p
      (fun t _ ht => hp t (by omega))

/-- C18 at `value = 5`, `n = 2`, `pos = [2, 0]` and a vector of three DASH entries. -/
theorem BitToVectorPos_scatter_witness :
    BitToVectorPos 5 2 [2, 0] [2, 2, 2] = [0, 2, 1] ∧
    (∀ p, (∀ i, i < (2 : Int).toNat → (([2, 0] : List Int).getD i 0).toNat ≠ p) →
      (BitToVectorPos 5 2 [2, 0] [2, 2, 2]).getD p 0 = ([2, 2, 2] : List Int).getD p 0) :=
  ⟨by decide,
    (BitToVectorPos_scatter 5 2 [2, 0] [2, 2, 2] (by decide) (by decide) (by decide)).2.2⟩

/-- C11: on a table with `n >= 1` conditions and a 0/1 status vector of length `n`, the row
addressed lies inside the table; `AddRule` at an unset status returns the UNSET value `-1`
and increments `num_rules_` by exactly 1; `AddRule` at a set status returns the prior
action and leaves `num_rules_` unchanged; `DeleteRule` at an unset status returns `-1` and
leaves both the rows and `num_rules_` unchanged. -/
theorem AddRule_DeleteRule_bookkeeping (t : SingleActionDecisionTable) (n : Nat)
    (status : List Int) (action : Int) (hn : 1 ≤ n) (hnc : t.num_conditions_ = (n : Int))
    (hlen : t.table_.length = 2 ^ n) (hrow : IsRow n status) :
    (t.GetPos status).toNat < t.table_.length ∧
    (t.Test status = -1 →
      (t.AddRule status action).2 = -1 ∧
      (t.AddRule status action).1.num_rules_ = t.num_rules_ + 1) ∧
    (t.Test status ≠ -1 →
      (t.AddRule status action).2 = t.Test status ∧
      (t.AddRule status action).1.num_rules_ = t.num_rules_) ∧
    (t.Test status = -1 →
      (t.DeleteRule status).2 = -1 ∧
      (t.DeleteRule status).1.table_ = t.table_ ∧
      (t.DeleteRule status).1.num_rules_ = t.num_rules_) := by
  have hpos := GetPos_eq_fromBits t n status hn hnc hrow
  obtain ⟨b0, b1⟩ := fromBits_bounds status hrow.2
  rw [hrow.1] at b1
  have hin : (t.GetPos status).toNat < t.table_.length := by
    rw [hlen, hpos]
    have : (((fromBits status).toNat : Nat) : Int) < ((2 ^ n : Nat) : Int) := by
      rw [Int.toNat_of_nonneg b0]; exact_mod_cast b1
    exact_mod_cast this
  refine ⟨hin, ?_, ?_, ?_⟩
  · intro h
    have h' : t.table_.getD (t.GetPos status).toNat 0 = -1 := h
    simp only [SingleActionDecisionTable.AddRule, h', if_true, and_self]
  · intro h
    have h' : ¬ t.table_.getD (t.GetPos status).toNat 0 = -1 := h
    simp only [SingleActionDecisionTable.AddRule, h', if_false, and_true]
    rfl
  · intro h
    have h' : t.table_.getD (t.GetPos status).toNat 0 = -1 := h
    simp only [SingleActionDecisionTable.DeleteRule, h', ne_eq, not_true_eq_false, if_false,
      and_true, true_and]
    rw [← h']
    exact set_getD_self 0 _ _

/-- C11 at the freshly constructed two-condition table and the status `[1, 0]`. -/
theorem AddRule_DeleteRule_bookkeeping_witness :
    (SingleActionDecisionTable.new 2 2).Test [1, 0] = -1 ∧
    ((SingleActionDecisionTable.new 2 2).AddRule [1, 0] 1).2 = -1 ∧
    ((SingleActionDecisionTable.new 2 2).AddRule [1, 0] 1).1.num_rules_ =
      (SingleActionDecisionTable.new 2 2).num_rules_ + 1 :=
  ⟨by decide,
    (AddRule_DeleteRule_bookkeeping (SingleActionDecisionTable.new 2 2) 2 [1, 0] 1 (by decide)
      (by decide) (by decide) (by decide)).2.1 (by decide)⟩

/-- The guard of the wrapper `Combinate`: for every `m > |inp|` the call returns before
`out1.clear(); out2.clear()` and hands back both output lists as they were. -/
theorem Combinate_guard_returns_outputs (m : Int) (inp : List Int)
    (out1 out2 : List (List Int)) (hm : (inp.length : Int) < m) :
    Combinate m inp out1 out2 = (out1, out2) := by
  unfold Combinate
  rw [if_pos (Or.inr hm)]

/-- C12 fails on the code: with `m = 3 > |in| = 2` the wrapper `Combinate` returns before
`out1.clear(); out2.clear()`, so output lists that held `[[7]]` and `[[8]]` before the call
still hold them afterwards; they are empty afterwards only when they were empty before. -/
theorem Combinate_keeps_stale_outputs :
    Combinate 3 [0, 1] [[7]] [[8]] = ([[7]], [[8]]) ∧
    Combinate 3 [0, 1] [] [] = ([], []) ∧
    Combinate 2 [0, 1] [[7]] [[8]] = ([[0, 1]], [[]]) := by
  decide

/-- C13: for every fully populated table with `n >= 1` conditions, every level `i` and every
cube `c` stored in the level-`i` table under the key `s`, `c.action` is the set of the
actions the table assigns to the rows covered by `s`; hence `c.action` is a singleton iff
all rows covered by `s` have the same action, and a level-0 cube has the action set
`{table.Test(s)}` of its row. -/
theorem stored_action_is_covered_actions (n : Nat) (table : SingleActionDecisionTable)
    (_hn : 1 ≤ n) (_hfull : FullyPopulated n table) (i : Nat) (s : List Int) (c : Cude)
    (hf : ((BuildCudeTables n table).cude_tables.getD i []).find s = some c) :
    i ≤ n ∧
    (∀ a, a ∈ c.action ↔ ∃ v, IsRow n v ∧ Covers s v ∧ table.Test v = a) ∧
    (c.action.card = 1 ↔
      ∀ v1 v2, IsRow n v1 → Covers s v1 → IsRow n v2 → Covers s v2 →
        table.Test v1 = table.Test v2) ∧
    (i = 0 → IsRow n s ∧ c.action = {table.Test s}) := by
  have hinv := BuildCudeTables_inv n table
  have hin := level_le_of_find n table _ hinv i s c hf
  have hchar := stored_actionChar n table _ hinv i hin s c hf
  refine ⟨hin, hchar, ?_, ?_⟩
  · constructor
    · intro hcard v1 v2 hv1 hc1 hv2 hc2
      obtain ⟨a, ha⟩ := Finset.card_eq_one.1 hcard
      have m1 : table.Test v1 ∈ c.action := (hchar _).2 ⟨v1, hv1, hc1, rfl⟩
      have m2 : table.Test v2 ∈ c.action := (hchar _).2 ⟨v2, hv2, hc2, rfl⟩
      rw [ha, Finset.mem_singleton] at m1 m2
      rw [m1, m2]
    · intro hall
      obtain ⟨v, hv, hcov⟩ := exists_covered_row n table _ hinv i hin s c hf
      apply Finset.card_eq_one.2
      refine ⟨table.Test v, ?_⟩
      ext a
      rw [Finset.mem_singleton, hchar a]
      constructor
      · rintro ⟨w, hw, hcw, e⟩
        rw [← e]; exact hall w v hw hcw hv hcov
      · intro e
        exact ⟨v, hv, hcov, e.symm⟩
  · intro hi0
    subst hi0
    obtain ⟨hrow, hc⟩ := hinv.2.2.1 s c hf
    exact ⟨hrow, by rw [hc]⟩

/-- C13 at the two-condition table, level 1, the key `[2, 0]`. -/
theorem stored_action_is_covered_actions_witness :
    ((BuildCudeTables 2 twoConditionTable).cude_tables.getD 1 []).find [2, 0]
      = some { dash_pos := 0, gain := 1, action := {0} } ∧
    (∀ a, a ∈ ({0} : Finset Int) ↔
      ∃ v, IsRow 2 v ∧ Covers [2, 0] v ∧ twoConditionTable.Test v = a) :=
  ⟨by decide,
    (stored_action_is_covered_actions 2 twoConditionTable (by decide) (by decide) 1 [2, 0]
      { dash_pos := 0, gain := 1, action := {0} } (by decide)).2.1⟩

theorem dashPositions_pairwise (s : List Int) : (dashPositions s).Pairwise (· < ·) := by
  unfold dashPositions posAll
  apply List.Pairwise.filter
  exact (List.pairwise_lt_range s.length).map _ (fun a b h => by exact_mod_cast h)

/-- C15: for every level `i` with `1 <= i <= n` and every cube `c` stored in the level-`i`
table under the key `s`, `c.dash_pos` is a DASH position `q` of `s` whose candidate gain
`gain(child0) + gain(child1) + [child0.action == child1.action]` is `c.gain` and is the
maximum over all DASH positions of `s`, and every DASH position with a smaller index has a
strictly smaller candidate gain: among the positions that tie for the maximum the smallest
index is stored. -/
theorem dash_pos_is_first_max (n : Nat) (table : SingleActionDecisionTable) (i : Nat)
    (hi : 1 ≤ i) (hin : i ≤ n) (s : List Int) (c : Cude)
    (hf : ((BuildCudeTables n table).cude_tables.getD i []).find s = some c) :
    (∀ p : Nat, p < n → s.getD p 0 = 2 → ∃ d0 d1,
      ((BuildCudeTables n table).cude_tables.getD (i - 1) []).find (s.set p 0) = some d0 ∧
      ((BuildCudeTables n table).cude_tables.getD (i - 1) []).find (s.set p 1) = some d1 ∧
      candGain ((BuildCudeTables n table).cude_tables.getD (i - 1) []) s (p : Int) =
        d0.gain + d1.gain + (if d0.action = d1.action then 1 else 0)) ∧
    ∃ q : Nat, q < n ∧ c.dash_pos = (q : Int) ∧ s.getD q 0 = 2 ∧
      candGain ((BuildCudeTables n table).cude_tables.getD (i - 1) []) s (q : Int) = c.gain ∧
      (∀ p : Nat, p < n → s.getD p 0 = 2 →
        candGain ((BuildCudeTables n table).cude_tables.getD (i - 1) []) s (p : Int) ≤
          candGain ((BuildCudeTables n table).cude_tables.getD (i - 1) []) s (q : Int)) ∧
      (∀ p : Nat, p < q → s.getD p 0 = 2 →
        candGain ((BuildCudeTables n table).cude_tables.getD (i - 1) []) s (p : Int) <
          candGain ((BuildCudeTables n table).cude_tables.getD (i - 1) []) s (q : Int)) := by
  have hinv := BuildCudeTables_inv n table
  obtain ⟨hkey, q, hq, hqe, h2, c0, c1, f0, f1, hg, -, pre, post, hd, hpre, hpost⟩ :=
    stored_split n table _ hinv i hi hin s c hf
  have hchild : ∀ p : Nat, p < n → s.getD p 0 = 2 → ∃ d0 d1,
      ((BuildCudeTables n table).cude_tables.getD (i - 1) []).find (s.set p 0) = some d0 ∧
      ((BuildCudeTables n table).cude_tables.getD (i - 1) []).find (s.set p 1) = some d1 ∧
      candGain ((BuildCudeTables n table).cude_tables.getD (i - 1) []) s (p : Int) =
        d0.gain + d1.gain + (if d0.action = d1.action then 1 else 0) := by
    intro p hp hp2
    obtain ⟨-, d0, g0, e0⟩ := child_found n table _ hinv i hi hin s hkey p hp hp2 0 (Or.inl rfl)
    obtain ⟨-, d1, g1, e1⟩ := child_found n table _ hinv i hi hin s hkey p hp hp2 1 (Or.inr rfl)
    exact ⟨d0, d1, g0, g1, by unfold candGain; rw [e0, e1]⟩
  have hcq : candGain ((BuildCudeTables n table).cude_tables.getD (i - 1) []) s (q : Int)
      = c.gain := by
    obtain ⟨d0, d1, g0, g1, e⟩ := hchild q hq h2
    rw [e, hg, ← Option.some.inj (g0.symm.trans f0), ← Option.some.inj (g1.symm.trans f1)]
  have hpw := dashPositions_pairwise s
  rw [hd, List.pairwise_append] at hpw
  obtain ⟨-, hpost_pw, hcross⟩ := hpw
  have hq_post : ∀ y ∈ post, (q : Int) < y := (List.pairwise_cons.1 hpost_pw).1
  refine ⟨hchild, q, hq, hqe, h2, hcq, ?_, ?_⟩
  · intro p hp hp2
    rw [hcq]
    have hmem : (p : Int) ∈ dashPositions s :=
      mem_dashPositions.2 ⟨p, by rw [hkey.1]; exact hp, rfl, hp2⟩
    rw [hd] at hmem
    rcases List.mem_append.1 hmem with hm | hm
    · exact le_of_lt (hpre _ hm)
    · rcases List.mem_cons.1 hm with hm | hm
      · rw [hm, hcq]
      · exact hpost _ hm
  · intro p hpq hp2
    rw [hcq]
    have hmem : (p : Int) ∈ dashPositions s :=
      mem_dashPositions.2 ⟨p, by rw [hkey.1]; omega, rfl, hp2⟩
    rw [hd] at hmem
    rcases List.mem_append.1 hmem with hm | hm
    · exact hpre _ hm
    · exfalso
      rcases List.mem_cons.1 hm with hm | hm
      · have : p = q := by exact_mod_cast hm
        omega
      · have := hq_post _ hm
        omega

/-- C15 at the two-condition table, level 2, the all-DASH key: position 1 is stored, and
position 0 has a strictly smaller candidate gain. -/
theorem dash_pos_is_first_max_witness :
    ((BuildCudeTables 2 twoConditionTable).cude_tables.getD 2 []).find [2, 2]
      = some { dash_pos := 1, gain := 2, action := {0, 1} } ∧
    ∃ q : Nat, q < 2 ∧ (1 : Int) = (q : Int) ∧ ([2, 2] : List Int).getD q 0 = 2 ∧
      candGain ((BuildCudeTables 2 twoConditionTable).cude_tables.getD (2 - 1) []) [2, 2]
        (q : Int) = 2 ∧
      (∀ p : Nat, p < 2 → ([2, 2] : List Int).getD p 0 = 2 →
        candGain ((BuildCudeTables 2 twoConditionTable).cude_tables.getD (2 - 1) []) [2, 2]
          (p : Int) ≤
        candGain ((BuildCudeTables 2 twoConditionTable).cude_tables.getD (2 - 1) []) [2, 2]
          (q : Int)) ∧
      (∀ p : Nat, p < q → ([2, 2] : List Int).getD p 0 = 2 →
        candGain ((BuildCudeTables 2 twoConditionTable).cude_tables.getD (2 - 1) []) [2, 2]
          (p : Int) <
        candGain ((BuildCudeTables 2 twoConditionTable).cude_tables.getD (2 - 1) []) [2, 2]
          (q : Int)) :=
  ⟨by decide,
    (dash_pos_is_first_max 2 twoConditionTable 2 (by decide) (by decide) [2, 2]
      { dash_pos := 1, gain := 2, action := {0, 1} } (by decide)).2⟩

/-! ## The shape of the built tree -/

theorem TracingBackCalls_leaf (n : Nat) (status : List Int) (tables : List CudeTable)
    (c : Cude) (hf : (tables.getD n []).find status = some c) (h1 : c.action.card = 1) :
    TracingBackCalls n status tables = [((n : Int), status)] := by
  cases n <;> rw [TracingBackCalls] <;> simp only [hf, h1, if_true]

theorem TracingBackCalls_node (n : Nat) (status : List Int) (tables : List CudeTable)
    (c : Cude) (hf : (tables.getD (n + 1) []).find status = some c) (h1 : c.action.card ≠ 1) :
    TracingBackCalls (n + 1) status tables =
      (((n + 1 : Nat) : Int), status) ::
        (TracingBackCalls n (status.set c.dash_pos.toNat 0) tables ++
          TracingBackCalls n (status.set c.dash_pos.toNat 1) tables) := by
  rw [TracingBackCalls]
  simp only [hf, h1, if_false]

/-- The traceback of a stored key only makes calls at levels `>= 0` whose lookups succeed,
and returns a strict binary tree. -/
theorem traceback_calls_ok (n : Nat) (table : SingleActionDecisionTable) (st : BuildState)
    (h : TablesInv n table n st) : ∀ (j : Nat), j ≤ n → ∀ s, IsCubeKey n j s →
    (∀ call ∈ TracingBackCalls j s st.cude_tables, 0 ≤ call.1 ∧ call.1 ≤ (j : Int) ∧
      ∃ c, (st.cude_tables.getD call.1.toNat []).find call.2 = some c) ∧
    ∃ t, TracingBackLevel j s st.cude_tables = some t ∧ StrictTree n table t := by
  intro j
  induction j with
  | zero =>
      intro hj s hs
      obtain ⟨c, hf⟩ := h.2.2.2.1 0 hj s hs
      have hcard : c.action.card = 1 := by rw [(h.2.2.1 s c hf).2]; rfl
      constructor
      · intro call hcall
        rw [TracingBackCalls_leaf 0 s _ c hf hcard, List.mem_singleton] at hcall
        subst hcall
        exact ⟨le_refl _, le_refl _, c, hf⟩
      · refine ⟨_, TracingBackLevel_leaf 0 s _ c hf hcard, ?_⟩
        obtain ⟨hrow, hc⟩ := h.2.2.1 s c hf
        left
        refine ⟨rfl, rfl, s, hrow, ?_⟩
        rw [hc]
        exact (firstAction_singleton _).symm
  | succ j ih =>
      intro hj s hs
      obtain ⟨c, hf⟩ := h.2.2.2.1 (j + 1) hj s hs
      by_cases hcard : c.action.card = 1
      · constructor
        · intro call hcall
          rw [TracingBackCalls_leaf (j + 1) s _ c hf hcard, List.mem_singleton] at hcall
          subst hcall
          exact ⟨by simp only; omega, le_refl _, c, by simpa using hf⟩
        · refine ⟨_, TracingBackLevel_leaf (j + 1) s _ c hf hcard, ?_⟩
          obtain ⟨a, ha⟩ := Finset.card_eq_one.1 hcard
          have hchar := stored_actionChar n table st h (j + 1) hj s c hf
          obtain ⟨v, hv, -, e⟩ := (hchar a).1 (by rw [ha]; simp)
          left
          exact ⟨rfl, rfl, v, hv, by rw [ha, firstAction_singleton]; exact e⟩
      · obtain ⟨hkey, q, hq, hqe, h2, -⟩ :=
          stored_split n table st h (j + 1) (by omega) hj s c hf
        obtain ⟨k0, -⟩ := child_found n table st h (j + 1) (by omega) hj s hkey q hq h2 0
          (Or.inl rfl)
        obtain ⟨k1, -⟩ := child_found n table st h (j + 1) (by omega) hj s hkey q hq h2 1
          (Or.inr rfl)
        rw [Nat.add_sub_cancel] at k0 k1
        obtain ⟨hc0, l, hl, hls⟩ := ih (by omega) _ k0
        obtain ⟨hc1, r, hr, hrs⟩ := ih (by omega) _ k1
        have hdp : c.dash_pos.toNat = q := by rw [hqe, Int.toNat_ofNat]
        constructor
        · intro call hcall
          rw [TracingBackCalls_node j s _ c hf hcard, hdp] at hcall
          rcases List.mem_cons.1 hcall with e | hcall
          · subst e
            exact ⟨by simp only; omega, le_refl _, c, by simpa using hf⟩
          · rcases List.mem_append.1 hcall with hm | hm
            · obtain ⟨a1, a2, a3⟩ := hc0 call hm
              exact ⟨a1, by push_cast; omega, a3⟩
            · obtain ⟨a1, a2, a3⟩ := hc1 call hm
              exact ⟨a1, by push_cast; omega, a3⟩
        · have hnode := TracingBackLevel_node j s st.cude_tables c l r hf hcard
            (by rw [hdp]; exact hl) (by rw [hdp]; exact hr)
          refine ⟨_, hnode, ?_⟩
          have hln : l ≠ TreeNode.null := by
            rintro rfl; exact hls
          have hrn : r ≠ TreeNode.null := by
            rintro rfl; exact hrs
          right
          exact ⟨hln, hrn, by rw [hqe]; omega, by rw [hqe]; exact_mod_cast hq, hls, hrs⟩

/-- C16: for every table with `n >= 1` conditions, the traceback started at level `n` with
the all-DASH vector makes no call that reaches the `n < 0` guard and every cube lookup it
performs finds an entry; every level-0 cube has a singleton action set, where the recursion
stops at the latest; and the built tree is a strict binary tree in which every node has
either no children and holds an action of the table or two non-null children and holds a
condition index. -/
theorem traceback_total_and_strict (n : Nat) (table : SingleActionDecisionTable) (_hn : 1 ≤ n) :
    (∀ call ∈ TracingBackCalls n ((BuildCudeTables n table).status.map (fun _ => (2 : Int)))
        (BuildCudeTables n table).cude_tables,
      0 ≤ call.1 ∧ ∃ c,
        ((BuildCudeTables n table).cude_tables.getD call.1.toNat []).find call.2 = some c) ∧
    (∀ s c, ((BuildCudeTables n table).cude_tables.getD 0 []).find s = some c →
      c.action.card = 1) ∧
    ∃ t, DecisionTableToTree n table = some t ∧ StrictTree n table t := by
  have hinv := BuildCudeTables_inv n table
  have hkey := isCubeKey_allDash (BuildCudeTables n table).status
  rw [hinv.1] at hkey
  obtain ⟨hcalls, t, ht, hstrict⟩ := traceback_calls_ok n table _ hinv n (le_refl n) _ hkey
  refine ⟨fun call hc => ⟨(hcalls call hc).1, (hcalls call hc).2.2⟩, ?_, t, ?_, hstrict⟩
  · intro s c hf
    rw [(hinv.2.2.1 s c hf).2]
    rfl
  · rw [DecisionTableToTree_eq]; exact ht

/-- C16 at the two-condition table. -/
theorem traceback_total_and_strict_witness :
    TracingBackCalls 2 [2, 2] (BuildCudeTables 2 twoConditionTable).cude_tables =
      [(2, [2, 2]), (1, [2, 0]), (1, [2, 1])] ∧
    ∃ t, DecisionTableToTree 2 twoConditionTable = some t ∧ StrictTree 2 twoConditionTable t :=
  ⟨by decide, (traceback_total_and_strict 2 twoConditionTable (by decide)).2.2⟩

theorem pathConditions_new (a : Int) : pathConditions (TreeNode.new a) = [[]] := by
  simp [pathConditions, TreeNode.new]

theorem pathConditions_node (v : Int) (l r : TreeNode) (hl : l ≠ TreeNode.null)
    (hr : r ≠ TreeNode.null) :
    pathConditions (TreeNode.node v l r) =
      (pathConditions l).map (fun p => v :: p) ++ (pathConditions r).map (fun p => v :: p) := by
  simp only [pathConditions, hl, hr, ne_eq, not_false_eq_true, and_self, if_true]

/-- On every path of the traceback of a stored key the tested conditions are pairwise
distinct DASH positions of the key, and there are at most as many as the level. -/
theorem traceback_paths (n : Nat) (table : SingleActionDecisionTable) (st : BuildState)
    (h : TablesInv n table n st) : ∀ (j : Nat), j ≤ n → ∀ s, IsCubeKey n j s →
    ∃ t, TracingBackLevel j s st.cude_tables = some t ∧
      ∀ path ∈ pathConditions t, path.Nodup ∧ path.length ≤ j ∧
        ∀ x ∈ path, ∃ q : Nat, q < n ∧ x = (q : Int) ∧ s.getD q 0 = 2 := by
  intro j
  induction j with
  | zero =>
      intro hj s hs
      obtain ⟨c, hf⟩ := h.2.2.2.1 0 hj s hs
      have hcard : c.action.card = 1 := by rw [(h.2.2.1 s c hf).2]; rfl
      refine ⟨_, TracingBackLevel_leaf 0 s _ c hf hcard, ?_⟩
      intro path hp
      rw [pathConditions_new, List.mem_singleton] at hp
      subst hp
      exact ⟨List.nodup_nil, le_refl _, by simp⟩
  | succ j ih =>
      intro hj s hs
      obtain ⟨c, hf⟩ := h.2.2.2.1 (j + 1) hj s hs
      obtain ⟨hleaf, hnode⟩ := traceback_shape n table st h (j + 1) hj s c hf
      by_cases hcard : c.action.card = 1
      · refine ⟨_, hleaf hcard, ?_⟩
        intro path hp
        rw [pathConditions_new, List.mem_singleton] at hp
        subst hp
        exact ⟨List.nodup_nil, Nat.zero_le _, by simp⟩
      · obtain ⟨q, l, r, -, hq, -, h2, hl, hr, hln, hrn, ht⟩ := hnode hcard
        rw [Nat.add_sub_cancel] at hl hr
        have hs' : IsCubeKey n (j + 1) s := hs
        obtain ⟨l', hl', hlp⟩ := ih (by omega) _
          (isCubeKey_set n j s q 0 hs' hq h2 (Or.inl rfl))
        obtain ⟨r', hr', hrp⟩ := ih (by omega) _
          (isCubeKey_set n j s q 1 hs' hq h2 (Or.inr rfl))
        rw [hl] at hl'
        rw [hr] at hr'
        have el := Option.some.inj hl'
        have er := Option.some.inj hr'
        subst el er
        refine ⟨_, ht, ?_⟩
        have key : ∀ (b : Int) (t : TreeNode),
            (∀ path ∈ pathConditions t, path.Nodup ∧ path.length ≤ j ∧
              ∀ x ∈ path, ∃ q' : Nat, q' < n ∧ x = (q' : Int) ∧ (s.set q b).getD q' 0 = 2) →
            b ≠ 2 → ∀ path ∈ pathConditions t,
              ((q : Int) :: path).Nodup ∧ ((q : Int) :: path).length ≤ j + 1 ∧
              ∀ x ∈ (q : Int) :: path, ∃ q' : Nat, q' < n ∧ x = (q' : Int) ∧ s.getD q' 0 = 2 := by
          intro b t ht' hb path hp
          obtain ⟨a1, a2, a3⟩ := ht' path hp
          have hqs : q < s.length := by rw [hs.1]; exact hq
          refine ⟨List.nodup_cons.2 ⟨?_, a1⟩, by simp only [List.length_cons]; omega, ?_⟩
          · intro hmem
            obtain ⟨q', -, e, h2'⟩ := a3 _ hmem
            have : q = q' := by exact_mod_cast e
            subst this
            rw [getD_set_self _ _ _ _ hqs] at h2'
            exact hb h2'
          · intro x hx
            rcases List.mem_cons.1 hx with e | hx'
            · exact ⟨q, hq, e, h2⟩
            · obtain ⟨q', hq', e, h2'⟩ := a3 x hx'
              refine ⟨q', hq', e, ?_⟩
              by_cases hqq : q = q'
              · subst hqq; exact h2
              · rwa [getD_set_ne _ _ _ _ _ hqq] at h2'
        intro path hp
        rw [pathConditions_node _ _ _ hln hrn, List.mem_append] at hp
        rcases hp with hp | hp
        · obtain ⟨p', hp', rfl⟩ := List.mem_map.1 hp
          exact key 0 l hlp (by decide) p' hp'
        · obtain ⟨p', hp', rfl⟩ := List.mem_map.1 hp
          exact key 1 r hrp (by decide) p' hp'

/-- C19: for every table with `n >= 1` conditions, on every root-to-leaf path of the tree
built by `DecisionTableToTree` the condition indices stored in the internal nodes are
pairwise distinct and each lies in `[0, n)`, so a path has at most `n` internal nodes; more
generally the conditions on a path of the traceback of a stored cube are pairwise distinct
DASH positions of that cube. -/
theorem path_conditions_distinct (n : Nat) (table : SingleActionDecisionTable) (_hn : 1 ≤ n) :
    (∃ t, DecisionTableToTree n table = some t ∧
      ∀ path ∈ pathConditions t, path.Nodup ∧ path.length ≤ n ∧
        ∀ x ∈ path, 0 ≤ x ∧ x < (n : Int)) ∧
    ∀ (j : Nat) (s : List Int) (c : Cude),
      ((BuildCudeTables n table).cude_tables.getD j []).find s = some c →
      ∃ t, TracingBackCudeTables j TreeNode.null s (BuildCudeTables n table).cude_tables =
          some t ∧
        ∀ path ∈ pathConditions t, path.Nodup ∧ path.length ≤ j ∧
          ∀ x ∈ path, ∃ q : Nat, q < n ∧ x = (q : Int) ∧ s.getD q 0 = 2 := by
  have hinv := BuildCudeTables_inv n table
  constructor
  · have hkey := isCubeKey_allDash (BuildCudeTables n table).status
    rw [hinv.1] at hkey
    obtain ⟨t, ht, hp⟩ := traceback_paths n table _ hinv n (le_refl n) _ hkey
    refine ⟨t, by rw [DecisionTableToTree_eq]; exact ht, ?_⟩
    intro path hpath
    obtain ⟨a1, a2, a3⟩ := hp path hpath
    refine ⟨a1, a2, fun x hx => ?_⟩
    obtain ⟨q, hq, e, -⟩ := a3 x hx
    rw [e]
    exact ⟨by omega, by exact_mod_cast hq⟩
  · intro j s c hf
    have hj := level_le_of_find n table _ hinv j s c hf
    have hkey : IsCubeKey n j s := by
      cases j with
      | zero => exact isRow_isCubeKey_zero (hinv.2.2.1 s c hf).1
      | succ j => exact (hinv.2.2.2.2.1 (j + 1) (by omega) hj s c hf).1
    obtain ⟨t, ht, hp⟩ := traceback_paths n table _ hinv j hj s hkey
    have hneg : ¬ ((j : Int) < 0) := by omega
    refine ⟨t, ?_, hp⟩
    simp only [TracingBackCudeTables, hneg, if_false, Int.toNat_ofNat]
    exact ht

/-- C19 at the two-condition table. -/
theorem path_conditions_distinct_witness :
    ∃ t, DecisionTableToTree 2 twoConditionTable = some t ∧
      ∀ path ∈ pathConditions t, path.Nodup ∧ path.length ≤ 2 ∧
        ∀ x ∈ path, 0 ≤ x ∧ x < ((2 : Nat) : Int) :=
  (path_conditions_distinct 2 twoConditionTable (by decide)).1

theorem leafValues_new (a : Int) : leafValues (TreeNode.new a) = [a] := by
  simp [leafValues, TreeNode.new]

theorem leafValues_node (v : Int) (l r : TreeNode) (hl : l ≠ TreeNode.null)
    (hr : r ≠ TreeNode.null) :
    leafValues (TreeNode.node v l r) = leafValues l ++ leafValues r := by
  simp only [leafValues, hl, hr, ne_eq, not_false_eq_true, and_self, if_true]

theorem noRedundantTest_new (a : Int) : NoRedundantTest (TreeNode.new a) := by
  simp [NoRedundantTest, TreeNode.new]

/-- The leaves of the traceback of a stored key hold exactly the actions of its cube, and
the traceback contains no redundant test. -/
theorem traceback_leaves (n : Nat) (table : SingleActionDecisionTable) (st : BuildState)
    (h : TablesInv n table n st) : ∀ (j : Nat), j ≤ n → ∀ s c,
    (st.cude_tables.getD j []).find s = some c →
    ∃ t, TracingBackLevel j s st.cude_tables = some t ∧
      (∀ a, a ∈ leafValues t ↔ a ∈ c.action) ∧ NoRedundantTest t ∧
      ((∃ a, t = TreeNode.new a) ↔ c.action.card = 1) := by
  intro j
  induction j with
  | zero =>
      intro hj s c hf
      have hc := (h.2.2.1 s c hf).2
      have hcard : c.action.card = 1 := by rw [hc]; rfl
      refine ⟨_, TracingBackLevel_leaf 0 s _ c hf hcard, ?_, noRedundantTest_new _,
        ⟨fun _ => hcard, fun _ => ⟨_, rfl⟩⟩⟩
      intro a
      rw [leafValues_new, hc, firstAction_singleton]
      simp
  | succ j ih =>
      intro hj s c hf
      obtain ⟨hleaf, hnode⟩ := traceback_shape n table st h (j + 1) hj s c hf
      by_cases hcard : c.action.card = 1
      · refine ⟨_, hleaf hcard, ?_, noRedundantTest_new _, ⟨fun _ => hcard, fun _ => ⟨_, rfl⟩⟩⟩
        obtain ⟨a, ha⟩ := Finset.card_eq_one.1 hcard
        intro b
        rw [leafValues_new, ha, firstAction_singleton]
        simp
      · obtain ⟨q, l, r, -, hq, hqe, h2, hl, hr, hln, hrn, ht⟩ := hnode hcard
        rw [Nat.add_sub_cancel] at hl hr
        obtain ⟨-, q2, -, hqe2, -, c0, c1, f0, f1, -, hact, -⟩ :=
          stored_split n table st h (j + 1) (by omega) hj s c hf
        have hqq : q2 = q := by
          have : (q2 : Int) = (q : Int) := hqe2.symm.trans hqe
          exact_mod_cast this
        subst hqq
        rw [Nat.add_sub_cancel] at f0 f1
        obtain ⟨l', hl', hlv, hlr, -⟩ := ih (by omega) _ c0 f0
        obtain ⟨r', hr', hrv, hrr, -⟩ := ih (by omega) _ c1 f1
        rw [hl] at hl'
        rw [hr] at hr'
        have el := Option.some.inj hl'
        have er := Option.some.inj hr'
        subst el er
        have hleaves : ∀ a, a ∈ leafValues (TreeNode.node (q2 : Int) l r) ↔ a ∈ c.action := by
          intro a
          rw [leafValues_node _ _ _ hln hrn, List.mem_append, hlv a, hrv a, hact,
            Finset.mem_union]
        refine ⟨_, ht, hleaves, ?_, ?_⟩
        · simp only [NoRedundantTest, hln, hrn, ne_eq, not_false_eq_true, and_self, if_true]
          refine ⟨?_, hlr, hrr⟩
          obtain ⟨v, hv, hcov⟩ := exists_covered_row n table st h (j + 1) hj s c hf
          have hmem : table.Test v ∈ c.action :=
            (stored_actionChar n table st h (j + 1) hj s c hf _).2 ⟨v, hv, hcov, rfl⟩
          have hcard2 : 1 < c.action.card := by
            have : 0 < c.action.card := Finset.card_pos.2 ⟨_, hmem⟩
            omega
          obtain ⟨a, ha, b, hb, hne⟩ := Finset.one_lt_card.1 hcard2
          exact ⟨a, (hleaves a).2 ha, b, (hleaves b).2 hb, hne⟩
        · constructor
          · rintro ⟨a, e⟩
            exfalso
            simp only [TreeNode.new, TreeNode.node.injEq] at e
            exact hln e.2.1
          · intro e
            exact absurd e hcard

/-- C20: for every fully populated table with `n >= 1` conditions, the tree built by
`DecisionTableToTree` contains no redundant test: the leaves below every internal node hold
at least two distinct actions; the traceback of a stored cube is a single leaf exactly when
all the rows the cube covers share one action; in particular the whole tree is a single
leaf iff the table assigns the same action to all `2 ^ n` rows. -/
theorem built_tree_has_no_redundant_test (n : Nat) (table : SingleActionDecisionTable)
    (_hn : 1 ≤ n) (_hfull : FullyPopulated n table) :
    (∃ t, DecisionTableToTree n table = some t ∧ NoRedundantTest t ∧
      ((∃ a, t = TreeNode.new a) ↔
        ∀ v1 v2, IsRow n v1 → IsRow n v2 → table.Test v1 = table.Test v2)) ∧
    ∀ (j : Nat) (s : List Int) (c : Cude),
      ((BuildCudeTables n table).cude_tables.getD j []).find s = some c →
      ∃ t, TracingBackCudeTables j TreeNode.null s (BuildCudeTables n table).cude_tables =
          some t ∧ NoRedundantTest t ∧
        (∀ a, a ∈ leafValues t ↔ ∃ v, IsRow n v ∧ Covers s v ∧ table.Test v = a) ∧
        ((∃ a, t = TreeNode.new a) ↔
          ∀ v1 v2, IsRow n v1 → Covers s v1 → IsRow n v2 → Covers s v2 →
            table.Test v1 = table.Test v2) := by
  have hinv := BuildCudeTables_inv n table
  have hstored : ∀ (j : Nat) (s : List Int) (c : Cude),
      ((BuildCudeTables n table).cude_tables.getD j []).find s = some c →
      ∃ t, TracingBackLevel j s (BuildCudeTables n table).cude_tables = some t ∧
        NoRedundantTest t ∧
        (∀ a, a ∈ leafValues t ↔ ∃ v, IsRow n v ∧ Covers s v ∧ table.Test v = a) ∧
        ((∃ a, t = TreeNode.new a) ↔
          ∀ v1 v2, IsRow n v1 → Covers s v1 → IsRow n v2 → Covers s v2 →
            table.Test v1 = table.Test v2) := by
    intro j s c hf
    have hj := level_le_of_find n table _ hinv j s c hf
    have hchar := stored_actionChar n table _ hinv j hj s c hf
    obtain ⟨t, ht, hlv, hnr, hleaf⟩ := traceback_leaves n table _ hinv j hj s c hf
    refine ⟨t, ht, hnr, fun a => (hlv a).trans (hchar a), hleaf.trans ?_⟩
    constructor
    · intro hcard v1 v2 hv1 hc1 hv2 hc2
      obtain ⟨a, ha⟩ := Finset.card_eq_one.1 hcard
      have m1 : table.Test v1 ∈ c.action := (hchar _).2 ⟨v1, hv1, hc1, rfl⟩
      have m2 : table.Test v2 ∈ c.action := (hchar _).2 ⟨v2, hv2, hc2, rfl⟩
      rw [ha, Finset.mem_singleton] at m1 m2
      rw [m1, m2]
    · intro hall
      obtain ⟨v, hv, hcov⟩ := exists_covered_row n table _ hinv j hj s c hf
      apply Finset.card_eq_one.2
      refine ⟨table.Test v, ?_⟩
      ext a
      rw [Finset.mem_singleton, hchar a]
      constructor
      · rintro ⟨w, hw, hcw, e⟩
        rw [← e]; exact hall w v hw hcw hv hcov
      · intro e
        exact ⟨v, hv, hcov, e.symm⟩
  constructor
  · have hkey := isCubeKey_allDash (BuildCudeTables n table).status
    rw [hinv.1] at hkey
    obtain ⟨c, hf⟩ := hinv.2.2.2.1 n (le_refl n) _ hkey
    obtain ⟨t, ht, hnr, -, hleaf⟩ := hstored n _ c hf
    refine ⟨t, by rw [DecisionTableToTree_eq]; exact ht, hnr, hleaf.trans ?_⟩
    have hlen := hinv.1
    constructor
    · intro hall v1 v2 hv1 hv2
      exact hall v1 v2 hv1 (covers_allDash _ v1 (by rw [hv1.1, hlen])) hv2
        (covers_allDash _ v2 (by rw [hv2.1, hlen]))
    · intro hall v1 v2 hv1 _ hv2 _
      exact hall v1 v2 hv1 hv2
  · intro j s c hf
    obtain ⟨t, ht, rest⟩ := hstored j s c hf
    have hneg : ¬ ((j : Int) < 0) := by omega
    refine ⟨t, ?_, rest⟩
    simp only [TracingBackCudeTables, hneg, if_false, Int.toNat_ofNat]
    exact ht

/-- C20 at the two-condition table. -/
theorem built_tree_has_no_redundant_test_witness :
    FullyPopulated 2 twoConditionTable ∧
    ∃ t, DecisionTableToTree 2 twoConditionTable = some t ∧ NoRedundantTest t ∧
      ((∃ a, t = TreeNode.new a) ↔
        ∀ v1 v2, IsRow 2 v1 → IsRow 2 v2 →
          twoConditionTable.Test v1 = twoConditionTable.Test v2) :=
  ⟨by decide,
    (built_tree_has_no_redundant_test 2 twoConditionTable (by decide) (by decide)).1⟩

/-! ## The key sets of the cube tables -/

theorem find_isSome_iff_mem (t : CudeTable) (k : List Int) :
    (∃ c, t.find k = some c) ↔ k ∈ t.map Prod.fst := by
  induction t with
  | nil => simp [CudeTable.find]
  | cons e t ih =>
      obtain ⟨k', c'⟩ := e
      by_cases hk : k' = k
      · simp [CudeTable.find, hk]
      · have hk2 : ¬ k = k' := fun e => hk e.symm
        simp only [CudeTable.find, hk, if_false, ih, List.map_cons, List.mem_cons, hk2, false_or]

theorem keysNodup_emplace (t : CudeTable) (k : List Int) (c : Cude) (h : KeysNodup t) :
    KeysNodup (t.emplace k c) := by
  unfold CudeTable.emplace
  cases hf : t.find k with
  | some _ => exact h
  | none =>
      show (k :: t.map Prod.fst).Nodup
      refine List.nodup_cons.2 ⟨?_, h⟩
      intro hmem
      obtain ⟨c', hc'⟩ := (find_isSome_iff_mem t k).2 hmem
      rw [hf] at hc'
      exact absurd hc' (by simp)

theorem cubeStep_keys (i n_01 : Nat) (dash free : List Int) (st : LevelState) (k : Nat)
    (h : KeysNodup st.cur_ct) : KeysNodup (cubeStep i n_01 dash free st k).cur_ct := by
  unfold cubeStep
  exact keysNodup_emplace _ _ _ h

theorem cubeLoop_keys (i n_01 : Nat) (dash free : List Int) : ∀ (ks : List Nat)
    (st : LevelState), KeysNodup st.cur_ct →
    KeysNodup (ks.foldl (cubeStep i n_01 dash free) st).cur_ct
  | [], _, h => h
  | k :: ks, st, h => by
      rw [List.foldl_cons]
      exact cubeLoop_keys i n_01 dash free ks _ (cubeStep_keys i n_01 dash free st k h)

theorem combinationLoop_keys (n i : Nat) (pos_dash pos_01 : List (List Int)) :
    ∀ (js : List Nat) (st : LevelState), KeysNodup st.cur_ct →
    KeysNodup (js.foldl (combinationStep n i pos_dash pos_01) st).cur_ct
  | [], _, h => h
  | j :: js, st, h => by
      rw [List.foldl_cons]
      apply combinationLoop_keys n i pos_dash pos_01 js
      unfold combinationStep
      exact cubeLoop_keys _ _ _ _ _ _ h

theorem levelStep_keys (n i : Nat) (st : BuildState) (hi : i < st.cude_tables.length)
    (h : KeysNodup (st.cude_tables.getD i [])) :
    KeysNodup ((levelStep n (posAll n) st i).cude_tables.getD i []) := by
  unfold levelStep
  simp only
  rw [getD_set_list _ _ _ _ _ (by rw [List.length_set]; exact hi), if_pos rfl]
  exact combinationLoop_keys n i _ _ _ _ h

theorem zeroLoop_keys (n : Nat) (table : SingleActionDecisionTable) :
    ∀ (ks : List Nat) (st : List Int × CudeTable), KeysNodup st.2 →
    KeysNodup (ks.foldl (zeroCudeStep n table) st).2
  | [], _, h => h
  | k :: ks, st, h => by
      rw [List.foldl_cons]
      apply zeroLoop_keys n table ks
      unfold zeroCudeStep
      exact keysNodup_emplace _ _ _ h

theorem BuildCudeTables_eq_upTo (n : Nat) (table : SingleActionDecisionTable) :
    BuildCudeTables n table = BuildCudeTablesUpTo n table n := rfl

theorem upTo_succ (n : Nat) (table : SingleActionDecisionTable) (m : Nat) :
    BuildCudeTablesUpTo n table (m + 1) =
      levelStep n (posAll n) (BuildCudeTablesUpTo n table m) (m + 1) := by
  unfold BuildCudeTablesUpTo
  simp only
  rw [List.range'_concat, List.foldl_append]
  simp only [List.foldl_cons, List.foldl_nil]
  rw [show 1 + 1 * m = m + 1 by omega]

theorem upTo_inv (n : Nat) (table : SingleActionDecisionTable) (m : Nat) (hm : m ≤ n) :
    TablesInv n table m (BuildCudeTablesUpTo n table m) :=
  tablesInv_levels n table _ (tablesInv_zero n table) m hm

/-- Building a level changes no table of a level below it, and every table keeps its keys
pairwise distinct. -/
theorem upTo_tables (n : Nat) (table : SingleActionDecisionTable) : ∀ (m : Nat), m ≤ n →
    (∀ j, KeysNodup ((BuildCudeTablesUpTo n table m).cude_tables.getD j [])) ∧
    (∀ j, j ≤ m → (BuildCudeTablesUpTo n table m).cude_tables.getD j [] =
      (BuildCudeTablesUpTo n table j).cude_tables.getD j [])
  | 0, _ => by
      constructor
      · intro j
        have hinv := upTo_inv n table 0 (Nat.zero_le n)
        by_cases hj : j = 0
        · subst hj
          show KeysNodup (((List.replicate (n + 1) ([] : CudeTable)).set 0
            ((List.range (2 ^ n)).foldl (zeroCudeStep n table)
              (List.replicate n (0 : Int), [])).2).getD 0 [])
          rw [getD_set_self _ _ _ _ (by simp)]
          exact zeroLoop_keys n table _ _ List.nodup_nil
        · rw [hinv.2.2.2.2.2 j (by omega)]
          exact List.nodup_nil
      · intro j hj
        have : j = 0 := by omega
        subst this
        rfl
  | m + 1, hm => by
      obtain ⟨ih1, ih2⟩ := upTo_tables n table m (by omega)
      have hinv := upTo_inv n table m (by omega)
      obtain ⟨h1, h2, h3, h4, h5, h6⟩ := hinv
      obtain ⟨cur, a1, -, -, -⟩ := levelStep_spec n (m + 1) (BuildCudeTablesUpTo n table m)
        (by omega) hm h1 (by simpa using h4 m (le_refl m)) (h6 (m + 1) (by omega))
      have hk := levelStep_keys n (m + 1) (BuildCudeTablesUpTo n table m) (by omega)
        (ih1 (m + 1))
      rw [← upTo_succ] at a1 hk
      have hget : ∀ j, (BuildCudeTablesUpTo n table (m + 1)).cude_tables.getD j [] =
          if m + 1 = j then cur else (BuildCudeTablesUpTo n table m).cude_tables.getD j [] := by
        intro j
        rw [a1]
        exact getD_set_list _ _ _ _ _ (by omega)
      constructor
      · intro j
        by_cases hj : m + 1 = j
        · subst hj; exact hk
        · rw [hget j, if_neg hj]; exact ih1 j
      · intro j hj
        by_cases hjm : m + 1 = j
        · subst hjm; rfl
        · rw [hget j, if_neg hjm]
          exact ih2 j (by omega)

theorem cubeKeyOf_inj (n : Nat) (dash free : List Int) (k k' : Nat)
    (hf : free = (posAll n).filter (fun x => decide (x ∉ dash)))
    (hk : k < 2 ^ free.length) (hk' : k' < 2 ^ free.length)
    (e : cubeKeyOf (posAll n) dash free (k : Int) = cubeKeyOf (posAll n) dash free (k' : Int)) :
    k = k' := by
  have hfnd : free.Nodup := by rw [hf]; exact (posAll_nodup n).filter _
  have hbits : bitsOf (k : Int) free.length = bitsOf (k' : Int) free.length := by
    apply ext_getD (by rw [bitsOf_length, bitsOf_length])
    intro t ht
    rw [bitsOf_length] at ht
    have hmem : free[t] ∈ free := List.getElem_mem _
    have hmem' : free[t] ∈ (posAll n).filter (fun x => decide (x ∉ dash)) := by
      rw [← hf]; exact hmem
    obtain ⟨hP, hnd⟩ := List.mem_filter.1 hmem'
    have hnd' : free[t] ∉ dash := by simpa using hnd
    obtain ⟨p, hp, hpe⟩ := mem_posAll.1 hP
    have h1 := cubeKeyOf_getD n dash free (k : Int) p hp
    have h2 := cubeKeyOf_getD n dash free (k' : Int) p hp
    rw [← hpe, if_neg hnd', List.indexOf_getElem hfnd t ht] at h1 h2
    rw [← h1, ← h2, e]
  have hk0 : ((k : Nat) : Int) < 2 ^ free.length := by exact_mod_cast hk
  have hk0' : ((k' : Nat) : Int) < 2 ^ free.length := by exact_mod_cast hk'
  have e1 := fromBits_bitsOf free.length (k : Int) (by omega) hk0
  have e2 := fromBits_bitsOf free.length (k' : Int) (by omega) hk0'
  rw [hbits, e2] at e1
  exact_mod_cast e1.symm

theorem mem_generatedKeys (n i : Nat) (s : List Int) :
    s ∈ generatedKeys n i ↔ IsCubeKey n i s := by
  unfold generatedKeys
  simp only [List.mem_flatMap, List.mem_map, List.mem_range]
  constructor
  · rintro ⟨p, hp, k, -, rfl⟩
    obtain ⟨hd, hdl⟩ := chooseSpec_fst_sublist hp
    have := cubeKeyOf_isCubeKey n p.1 p.2 (k : Int) hd
    rwa [hdl] at this
  · intro hs
    obtain ⟨p, hp, k, hk, e⟩ := exists_cubeKeyOf n i s hs
    exact ⟨p, hp, k, hk, e⟩

theorem generatedKeys_nodup (n i : Nat) : (generatedKeys n i).Nodup := by
  unfold generatedKeys
  rw [List.nodup_flatMap]
  have hL : (chooseSpec i (posAll n)).Nodup :=
    List.Nodup.of_map Prod.fst (chooseSpec_fst_nodup i (posAll n) (posAll_nodup n))
  constructor
  · intro p hp
    have hf := chooseSpec_snd_eq i (posAll n) p (posAll_nodup n) hp
    have hfl := chooseSpec_snd_length i (posAll n) p hp
    rw [posAll_length] at hfl
    have hfl' : n - i = p.2.length := by omega
    apply List.Nodup.map_on _ (List.nodup_range _)
    intro k hk k' hk' e
    rw [List.mem_range, hfl'] at hk hk'
    exact cubeKeyOf_inj n p.1 p.2 k k' hf hk hk' e
  · apply List.Nodup.pairwise_of_forall_ne hL
    intro p hp p' hp' hne
    show List.Disjoint _ _
    intro s hs hs'
    obtain ⟨k, -, rfl⟩ := List.mem_map.1 hs
    obtain ⟨k', -, e⟩ := List.mem_map.1 hs'
    apply hne
    have hd := (chooseSpec_fst_sublist hp).1
    have hd' := (chooseSpec_fst_sublist hp').1
    have e1 := dashPositions_cubeKeyOf n p.1 p.2 (k : Int) hd
    have e2 := dashPositions_cubeKeyOf n p'.1 p'.2 (k' : Int) hd'
    rw [e] at e2
    have hfst : p.1 = p'.1 := e1.symm.trans e2 |>.symm |>.symm
    have hsnd : p.2 = p'.2 := by
      rw [chooseSpec_snd_eq i (posAll n) p (posAll_nodup n) hp,
        chooseSpec_snd_eq i (posAll n) p' (posAll_nodup n) hp', hfst]
    exact Prod.ext hfst hsnd

theorem length_flatMap_const {α β : Type} (f : α → List β) (c : Nat) : ∀ (l : List α),
    (∀ x ∈ l, (f x).length = c) → (l.flatMap f).length = l.length * c
  | [], _ => by simp
  | a :: l, h => by
      rw [List.flatMap_cons, List.length_append, h a (List.mem_cons_self _ _),
        length_flatMap_const f c l (fun x hx => h x (List.mem_cons_of_mem _ hx)),
        List.length_cons]
      ring

theorem generatedKeys_length (n i : Nat) :
    (generatedKeys n i).length = Nat.choose n i * 2 ^ (n - i) := by
  unfold generatedKeys
  rw [length_flatMap_const _ (2 ^ (n - i)) _ (fun p _ => by simp), chooseSpec_length,
    posAll_length]

/-- The keys of the level-`i` table are the vectors over `{0, 1, 2}` of length `n` with `i`
entries 2, each once. -/
theorem level_keys (n : Nat) (table : SingleActionDecisionTable) (i : Nat) (hi : i ≤ n) :
    (∀ s, s ∈ ((BuildCudeTables n table).cude_tables.getD i []).map Prod.fst ↔
      IsCubeKey n i s) ∧
    KeysNodup ((BuildCudeTables n table).cude_tables.getD i []) ∧
    ((BuildCudeTables n table).cude_tables.getD i []).length = Nat.choose n i * 2 ^ (n - i) := by
  have hinv := BuildCudeTables_inv n table
  have hkeys : KeysNodup ((BuildCudeTables n table).cude_tables.getD i []) := by
    rw [BuildCudeTables_eq_upTo]
    exact (upTo_tables n table n (le_refl n)).1 i
  have hmem : ∀ s, s ∈ ((BuildCudeTables n table).cude_tables.getD i []).map Prod.fst ↔
      IsCubeKey n i s := by
    intro s
    rw [← find_isSome_iff_mem]
    constructor
    · rintro ⟨c, hf⟩
      cases i with
      | zero => exact isRow_isCubeKey_zero (hinv.2.2.1 s c hf).1
      | succ j => exact (hinv.2.2.2.2.1 (j + 1) (by omega) hi s c hf).1
    · intro hs
      exact hinv.2.2.2.1 i hi s hs
  refine ⟨hmem, hkeys, ?_⟩
  have hperm : (((BuildCudeTables n table).cude_tables.getD i []).map Prod.fst).Perm
      (generatedKeys n i) :=
    (List.perm_ext_iff_of_nodup hkeys (generatedKeys_nodup n i)).2
      (fun s => (hmem s).trans (mem_generatedKeys n i s).symm)
  have := hperm.length_eq
  rw [List.length_map, generatedKeys_length] at this
  exact this

theorem isCubeKey_full (n : Nat) (s : List Int) (h : IsCubeKey n n s) :
    s = List.replicate n 2 := by
  obtain ⟨hlen, -, hcount⟩ := h
  rw [← hlen] at hcount
  have hall := List.count_eq_length.1 hcount
  rw [← hlen]
  exact List.eq_replicate_iff.2 ⟨rfl, fun b hb => (hall b hb).symm⟩

/-- C14: after `DecisionTableToTree` has built all levels for a table with `n >= 1`
conditions, for every `i <= n` the keys of the level-`i` cube table are exactly the vectors
of length `n` over `{0, 1, 2}` with exactly `i` entries equal to the DASH marker 2, each
stored once; so the table has `C(n, i) * 2 ^ (n - i)` entries, level 0 has `2 ^ n` entries,
level `n` has exactly one entry, the all-DASH vector, and building level `i` leaves the
table of level `i - 1` as it was (every child lookup finds an existing entry). -/
theorem cube_table_key_sets (n : Nat) (table : SingleActionDecisionTable) (_hn : 1 ≤ n)
    (i : Nat) (hi : i ≤ n) :
    (∀ s, (∃ c, ((BuildCudeTables n table).cude_tables.getD i []).find s = some c) ↔
      IsCubeKey n i s) ∧
    KeysNodup ((BuildCudeTables n table).cude_tables.getD i []) ∧
    ((BuildCudeTables n table).cude_tables.getD i []).length = Nat.choose n i * 2 ^ (n - i) ∧
    ((BuildCudeTables n table).cude_tables.getD 0 []).length = 2 ^ n ∧
    (∃ c, (BuildCudeTables n table).cude_tables.getD n [] = [(List.replicate n 2, c)]) ∧
    (1 ≤ i →
      (levelStep n (posAll n) (BuildCudeTablesUpTo n table (i - 1)) i).cude_tables.getD
          (i - 1) [] =
        (BuildCudeTablesUpTo n table (i - 1)).cude_tables.getD (i - 1) []) ∧
    (BuildCudeTables n table).cude_tables.getD i [] =
      (BuildCudeTablesUpTo n table i).cude_tables.getD i [] := by
  obtain ⟨hmem, hkeys, hlen⟩ := level_keys n table i hi
  obtain ⟨-, -, hlen0⟩ := level_keys n table 0 (Nat.zero_le n)
  obtain ⟨hmemn, -, hlenn⟩ := level_keys n table n (le_refl n)
  refine ⟨fun s => (find_isSome_iff_mem _ s).trans (hmem s), hkeys, hlen, ?_, ?_, ?_, ?_⟩
  · rw [hlen0]; simp
  · rw [Nat.choose_self, Nat.sub_self, pow_zero, Nat.mul_one] at hlenn
    obtain ⟨e, he⟩ := List.length_eq_one.1 hlenn
    obtain ⟨k, c⟩ := e
    refine ⟨c, ?_⟩
    rw [he]
    have hk : k ∈ ((BuildCudeTables n table).cude_tables.getD n []).map Prod.fst := by
      rw [he]; simp
    rw [isCubeKey_full n k ((hmemn k).1 hk)]
  · intro h1
    have e := upTo_succ n table (i - 1)
    rw [Nat.sub_add_cancel h1] at e
    rw [← e]
    exact (upTo_tables n table i hi).2 (i - 1) (by omega)
  · rw [BuildCudeTables_eq_upTo]
    exact (upTo_tables n table n (le_refl n)).2 i hi

/-- C14 at the two-condition table, level 1. -/
theorem cube_table_key_sets_witness :
    ((BuildCudeTables 2 twoConditionTable).cude_tables.getD 1 []).map Prod.fst =
      [[1, 2], [0, 2], [2, 1], [2, 0]] ∧
    ((BuildCudeTables 2 twoConditionTable).cude_tables.getD 1 []).length =
      Nat.choose 2 1 * 2 ^ (2 - 1) :=
  ⟨by decide, (cube_table_key_sets 2 twoConditionTable (by decide) 1 (by decide)).2.2.1⟩

end DecisionTable
